import Mathlib

/-!
# DataFlowAnalysis: the fixed-point engine and its three clients

A shallow embedding of `Dataflow.h` (the generic engine) and of the clients
`Liveness.cpp`, `Reaching.cpp` and `Maypoint.cpp`.

* `std::map<K, V>` is a partial function `K → Option V`; `operator[]` on a
  missing key inserts a default-constructed value and returns it.
* `std::set<X>` is `Finset X` (container equality is extensional equality).
* the `while (modified)` loop of `run_dataflow` takes a fuel argument: `none`
  means that the fuel ran out before a sweep left the map unchanged.
-/

namespace DataFlowAnalysis

/-! ## The host program representation -/

/-- Identity of a control-flow node (a `BasicBlock*`). -/
abbrev BasicBlock := Nat

/-- The part of an LLVM type the analyses look at. -/
inductive Ty where
  | void
  | pointer
  | other
deriving DecidableEq, Repr

/-- What `isa<Instruction>` and `isa<Argument>` distinguish. -/
inductive ValueKind where
  | instruction
  | argument
  | other
deriving DecidableEq, Repr

/-- A `Value*`: the kind of the object, its identity and its type. -/
structure Value where
  kind : ValueKind
  id : Nat
  ty : Ty
deriving DecidableEq, Repr

/-- The operation kinds the analyses dispatch on, with their operands. -/
inductive InstKind where
  | alloca (size : Value)
  | bitcast (src : Value)
  | getelementptr (ptr : Value) (indices : List Value)
  | load (ptr : Value)
  | store (val : Value) (ptr : Value)
  | select (cond : Value) (tval : Value) (fval : Value)
  | phi (incoming : List (Value × BasicBlock))
  | other (operands : List Value)
deriving DecidableEq, Repr

/-- An `Instruction*`: identity, result type and operation. -/
structure Instruction where
  id : Nat
  ty : Ty
  op : InstKind
deriving DecidableEq, Repr

/-- The cast `(Value*)inst`. -/
def Instruction.toValue (inst : Instruction) : Value :=
  ⟨ValueKind.instruction, inst.id, inst.ty⟩

/-- The result of `inst->operands()`. -/
def Instruction.operands (inst : Instruction) : List Value :=
  match inst.op with
  | InstKind.alloca size => [size]
  | InstKind.bitcast src => [src]
  | InstKind.getelementptr ptr indices => ptr :: indices
  | InstKind.load ptr => [ptr]
  | InstKind.store val ptr => [val, ptr]
  | InstKind.select cond tval fval => [cond, tval, fval]
  | InstKind.phi incoming => incoming.map Prod.fst
  | InstKind.other operands => operands

/-- The test `isa<PHINode>(inst)`. -/
def Instruction.isPHI (inst : Instruction) : Bool :=
  match inst.op with
  | InstKind.phi _ => true
  | _ => false

/-- The pairs (incoming value, incoming block) of a merge operation, in index
order; empty for every other operation. -/
def Instruction.incoming (inst : Instruction) : List (Value × BasicBlock) :=
  match inst.op with
  | InstKind.phi incoming => incoming
  | _ => []

/-- The view of an LLVM `Function` the engine and the clients consume: the
block list in its enumeration order, predecessor and successor enumeration,
the operations of a block in their original order, and the arguments. -/
structure Func where
  basicBlockList : List BasicBlock
  predecessors : BasicBlock → List BasicBlock
  successors : BasicBlock → List BasicBlock
  instructions : BasicBlock → List Instruction
  args : List Value

/-! ## Dataflow.h -/

/-- The boundary map `std::map<std::pair<BasicBlock*, bool>, T>`; the side
`true` is the entry of the node and `false` its exit. -/
abbrev BoundaryMap (T : Type) := BasicBlock × Bool → Option T

/-- The assignment `m[k] = v`. -/
def BoundaryMap.assign {T : Type} (m : BoundaryMap T) (k : BasicBlock × Bool) (v : T) :
    BoundaryMap T :=
  fun k1 => if k1 = k then some v else m k1

/-- The read `m[k]`: the value read and the map afterwards. A missing key is
inserted with the default-constructed `T()`. -/
def BoundaryMap.index {T : Type} [Inhabited T] (m : BoundaryMap T) (k : BasicBlock × Bool) :
    T × BoundaryMap T :=
  match m k with
  | some v => (v, m)
  | none => (default, m.assign k default)

/-- The record `transferFunction<T>`. The member `blockToTransferFunctionsMap`
(a pointer to the table of all records) is passed to `backward_pass` as an
argument; `transferMap` holds one edge function per predecessor. -/
structure transferFunction (T : Type) where
  has_phi_nodes : Bool
  is_forward : Bool
  transferMap : BasicBlock → T → T
  blockTransferFunction : T → T
  basic_block : BasicBlock
  top : T

/-- The method `transferFunction::forward_pass`; `meet a b` is `a ^ b`. -/
def forward_pass {T : Type} [Inhabited T] (meet : T → T → T) (F : Func)
    (tf : transferFunction T) (current : BoundaryMap T) : (T × T) × BoundaryMap T :=
  let st : T × BoundaryMap T :=
    if tf.has_phi_nodes then
      (F.predecessors tf.basic_block).foldl
        (fun (st : T × BoundaryMap T) pred =>
          let r := st.2.index (pred, false)
          (meet st.1 (tf.transferMap pred r.1), r.2))
        (tf.top, current)
    else
      (F.predecessors tf.basic_block).foldl
        (fun (st : T × BoundaryMap T) pred =>
          let r := st.2.index (pred, false)
          (meet st.1 r.1, r.2))
        (tf.top, current)
  ((st.1, tf.blockTransferFunction st.1), st.2)

/-- The method `transferFunction::backward_pass`; `all` is the table
`*blockToTransferFunctionsMap`. -/
def backward_pass {T : Type} [Inhabited T] (meet : T → T → T) (F : Func)
    (all : BasicBlock → transferFunction T) (tf : transferFunction T)
    (current : BoundaryMap T) : (T × T) × BoundaryMap T :=
  let st : T × BoundaryMap T :=
    (F.successors tf.basic_block).foldl
      (fun (st : T × BoundaryMap T) succ =>
        let r := st.2.index (succ, true)
        if (all succ).has_phi_nodes then
          (meet st.1 ((all succ).transferMap tf.basic_block r.1), r.2)
        else
          (meet st.1 r.1, r.2))
      (tf.top, current)
  ((tf.blockTransferFunction st.1, st.1), st.2)

/-- The method `transferFunction::pass`. -/
def pass {T : Type} [Inhabited T] (meet : T → T → T) (F : Func)
    (all : BasicBlock → transferFunction T) (tf : transferFunction T)
    (current : BoundaryMap T) : (T × T) × BoundaryMap T :=
  if tf.is_forward then forward_pass meet F tf current
  else backward_pass meet F all tf current

/-- The class `dataFlow<T>`. -/
structure dataFlow (T : Type) where
  is_forward : Bool
  top : T
  allTransferFunctions : BasicBlock → transferFunction T

/-- The variables the `for` loop of `run_dataflow` updates. -/
structure SweepState (T : Type) where
  previous : BoundaryMap T
  next : BoundaryMap T
  modified : Bool

/-- One iteration of the `for` loop of `run_dataflow`, for the node `bb`. -/
def sweepBody {T : Type} [Inhabited T] [DecidableEq T] (meet : T → T → T) (F : Func)
    (df : dataFlow T) (st : SweepState T) (bb : BasicBlock) : SweepState T :=
  let r := pass meet F df.allTransferFunctions (df.allTransferFunctions bb) st.next
  let after_pass := r.1
  let next := (r.2.assign (bb, true) after_pass.1).assign (bb, false) after_pass.2
  if st.modified then
    ⟨st.previous, next, true⟩
  else
    let p_in := st.previous.index (bb, true)
    let n_in := next.index (bb, true)
    if p_in.1 ≠ n_in.1 then
      ⟨p_in.2, n_in.2, true⟩
    else
      let p_out := p_in.2.index (bb, false)
      let n_out := n_in.2.index (bb, false)
      ⟨p_out.2, n_out.2, decide (p_out.1 ≠ n_out.1)⟩

/-- The `while (modified)` loop of `run_dataflow`: each round is one sweep over
the block list followed by `previous = next`. -/
def whileLoop {T : Type} [Inhabited T] [DecidableEq T] (meet : T → T → T) (F : Func)
    (df : dataFlow T) : Nat → BoundaryMap T → BoundaryMap T → Option (BoundaryMap T)
  | 0, _, _ => none
  | fuel + 1, previous, next =>
    let st := F.basicBlockList.foldl (sweepBody meet F df) ⟨previous, next, false⟩
    if st.modified then whileLoop meet F df fuel st.next st.next else some st.next

/-- The method `dataFlow::run_dataflow`: the map left in `previous`. -/
def run_dataflow {T : Type} [Inhabited T] [DecidableEq T] (meet : T → T → T) (F : Func)
    (df : dataFlow T) (fuel : Nat) (previous : BoundaryMap T) : Option (BoundaryMap T) :=
  whileLoop meet F df fuel previous previous

/-! ## Liveness.cpp -/

namespace Liveness

/-- The lattice of the liveness client, a `std::set<Value*>`. -/
abbrev valueType := Finset Value

/-- The member `operator ^`: a copy of the argument `b` with the elements
of `this` inserted. -/
def meet (a b : valueType) : valueType := b ∪ a

/-- The test `isa<Instruction>(val) || isa<Argument>(val)`. -/
def isInstructionOrArgument (val : Value) : Bool :=
  decide (val.kind = ValueKind.instruction) || decide (val.kind = ValueKind.argument)

/-- The effect of one operation in the reverse walk: erase the operation,
then insert its operands that are operations or arguments. -/
def instructionEffect (inst : Instruction) (s : valueType) : valueType :=
  inst.operands.foldl
    (fun acc val => if isInstructionOrArgument val then insert val acc else acc)
    (s.erase inst.toValue)

/-- The reverse loop over a node, given its operations last to first: it
stops at the first merge operation. -/
def walk : List Instruction → valueType → valueType
  | [], s => s
  | inst :: rest, s => if inst.isPHI then s else walk rest (instructionEffect inst s)

/-- The closure `tf.blockTransferFunction` of the node `bb`. -/
def blockTransferFunction (F : Func) (bb : BasicBlock) (out : valueType) : valueType :=
  walk (F.instructions bb).reverse out

/-- The effect of one merge operation for the edge from `pred`: erase the
merge operation, then insert the value of its first incoming pair whose block
is `pred`, when that value is an operation or an argument. -/
def phiEffect (pred : BasicBlock) (phi : Instruction) (s : valueType) : valueType :=
  match phi.incoming.find? (fun vb => decide (vb.2 = pred)) with
  | some vb => if isInstructionOrArgument vb.1 then insert vb.1 (s.erase phi.toValue)
      else s.erase phi.toValue
  | none => s.erase phi.toValue

/-- The closure `tf.transferMap[pred]` of a node that begins with merge
operations: the leading merge operations, from `last_phi_inst` back to the
first operation of the node. -/
def edgeTransferFunction (F : Func) (bb : BasicBlock) (pred : BasicBlock) (out : valueType) :
    valueType :=
  ((F.instructions bb).takeWhile Instruction.isPHI).reverse.foldl
    (fun s phi => phiEffect pred phi s) out

/-- The test `isa<PHINode>(&*(bb_pointer->begin()))`. -/
def beginsWithPHI (F : Func) (bb : BasicBlock) : Bool :=
  match (F.instructions bb).head? with
  | some inst => inst.isPHI
  | none => false

/-- The table `allTransferFunctions` that
`LivenessDFA::construct_transfer_function_objects` fills. A node without merge
operations registers no edge function; its `transferMap` is never called. -/
def construct_transfer_function_objects (F : Func) : BasicBlock → transferFunction valueType :=
  fun bb =>
    { has_phi_nodes := beginsWithPHI F bb
      is_forward := false
      transferMap := fun pred out =>
        if beginsWithPHI F bb then edgeTransferFunction F bb pred out else out
      blockTransferFunction := blockTransferFunction F bb
      basic_block := bb
      top := ∅ }

/-- The object `LivenessDFA ld(F)`; `top` is default-constructed. -/
def LivenessDFA (F : Func) : dataFlow valueType :=
  { is_forward := false
    top := ∅
    allTransferFunctions := construct_transfer_function_objects F }

/-- The map `previous` that `Liveness::runOnFunction` builds: an empty entry
set and an empty exit set for every node. -/
def initialMap (F : Func) : BoundaryMap valueType :=
  F.basicBlockList.foldl
    (fun previous bb => (previous.assign (bb, true) ∅).assign (bb, false) ∅)
    (fun _ => none)

/-- The call `ld.run_dataflow(F, previous)` of `Liveness::runOnFunction`. -/
def runOnFunction (F : Func) (fuel : Nat) : Option (BoundaryMap valueType) :=
  run_dataflow meet F (LivenessDFA F) fuel (initialMap F)

/-- The result map `std::map<Instruction*, valueType>` of the liveness client. -/
abbrev InstructionMap := Instruction → Option valueType

/-- The assignment `instructionFixedPoint[inst] = current`. -/
def InstructionMap.assign (m : InstructionMap) (inst : Instruction) (v : valueType) :
    InstructionMap :=
  fun i => if i = inst then some v else m i

/-- The body of the loop of `propagate_to_instructions` on `current`: erase
the operation, then insert its operands that are arguments or operations. -/
def propagateEffect (inst : Instruction) (current : valueType) : valueType :=
  inst.operands.foldl
    (fun acc used =>
      if decide (used.kind = ValueKind.argument) || decide (used.kind = ValueKind.instruction)
      then insert used acc else acc)
    (current.erase inst.toValue)

/-- The inner loop of `propagate_to_instructions`, given the operations of a
node last to first: it stops at the first merge operation, and records the
updated `current` for every operation before that. -/
def propagateWalk : List Instruction → InstructionMap → valueType → InstructionMap
  | [], m, _ => m
  | inst :: rest, m, current =>
    if inst.isPHI then m
    else propagateWalk rest (m.assign inst (propagateEffect inst current))
      (propagateEffect inst current)

/-- The method `LivenessDFA::propagate_to_instructions`: the map it returns and
the map `bbFixedPoint`, passed by reference, after the reads. -/
def propagate_to_instructions (F : Func) (bbFixedPoint : BoundaryMap valueType) :
    InstructionMap × BoundaryMap valueType :=
  F.basicBlockList.foldl
    (fun (st : InstructionMap × BoundaryMap valueType) bb =>
      let r := st.2.index (bb, false)
      (propagateWalk (F.instructions bb).reverse st.1 r.1, r.2))
    (fun _ => none, bbFixedPoint)

/-- The per-operation effect in the words of the specification: the set minus
the operation, united with those operands of the operation that are operations
or function arguments. -/
def specEffect (i : Instruction) (s : valueType) : valueType :=
  (s \ {i.toValue})
    ∪ (i.operands.filter
        (fun v => decide (v.kind = ValueKind.instruction ∨ v.kind = ValueKind.argument))).toFinset

/-- The node transfer function in the words of the specification: the fold of
`specEffect` over the operations from last to first, up to the first merge
operation met. -/
def specNodeFunction (insts : List Instruction) (out : valueType) : valueType :=
  (insts.reverse.takeWhile (fun i => !i.isPHI)).foldl (fun s i => specEffect i s) out

/-- The values the leading merge operations of `insts` select for the edge
from `p` that are operations or function arguments. -/
def specSelected (insts : List Instruction) (p : BasicBlock) : valueType :=
  (((insts.takeWhile Instruction.isPHI).flatMap
      (fun phi => (phi.incoming.filter (fun vb => decide (vb.2 = p))).map Prod.fst)).filter
    (fun v => decide (v.kind = ValueKind.instruction ∨ v.kind = ValueKind.argument))).toFinset

/-- The edge function in the words of the specification: the live set minus
the merge operations of the node, united with the values they select for the
edge from `p`. -/
def specEdgeFunction (insts : List Instruction) (p : BasicBlock) (live : valueType) :
    valueType :=
  (live \ ((insts.takeWhile Instruction.isPHI).map Instruction.toValue).toFinset)
    ∪ specSelected insts p

/-- The set of values `phiEffect` inserts for the merge operation `phi` and
the edge from `pred`: the value of the first incoming pair whose block is
`pred`, when it is an operation or an argument. -/
def phiSelected (pred : BasicBlock) (phi : Instruction) : valueType :=
  match phi.incoming.find? (fun vb => decide (vb.2 = pred)) with
  | some vb => if isInstructionOrArgument vb.1 then {vb.1} else ∅
  | none => ∅

/-- The operations and the arguments of the function, as values. -/
def functionValues (F : Func) : Finset Value :=
  ((F.basicBlockList.flatMap F.instructions).map Instruction.toValue).toFinset
    ∪ F.args.toFinset

/-- The operands, of kind operation or argument, of the operations of the
nodes of the block list and of their successors: every value the liveness
transfer functions of the function can insert. -/
def operandValues (F : Func) : Finset Value :=
  ((((F.basicBlockList ++ F.basicBlockList.flatMap F.successors).flatMap
      F.instructions).flatMap Instruction.operands).filter isInstructionOrArgument).toFinset

end Liveness

/-! ## Reaching.cpp -/

namespace Reaching

/-- The lattice of the reaching-definitions client, a `std::set<Instruction*>`. -/
abbrev valueType := Finset Instruction

/-- The member `operator ^`: a copy of the argument `a` with the elements
of `this` inserted. -/
def meet (this a : valueType) : valueType := a ∪ this

/-- The closure `tf.blockTransferFunction` of the node `bb`. -/
def blockTransferFunction (F : Func) (bb : BasicBlock) (inp : valueType) : valueType :=
  (F.instructions bb).foldl
    (fun out inst => if inst.ty ≠ Ty.void then insert inst out else out) inp

/-- The table `allTransferFunctions` that
`ReachingDFA::construct_transfer_function_objects` fills; the records are
default-constructed, so `has_phi_nodes` is false and no edge function is
registered. -/
def construct_transfer_function_objects (F : Func) ( is_forward : Bool) :
    BasicBlock → transferFunction valueType :=
  fun bb =>
    { has_phi_nodes := false
      is_forward := is_forward
      transferMap := fun _ out => out
      blockTransferFunction := blockTransferFunction F bb
      basic_block := bb
      top := ∅ }

/-- The object `ReachingDFA rd(F)`. -/
def ReachingDFA (F : Func) : dataFlow valueType :=
  { is_forward := true
    top := ∅
    allTransferFunctions := construct_transfer_function_objects F true }

/-- The result map `std::map<Instruction*, valueType>`. -/
abbrev InstructionMap := Instruction → Option valueType

/-- The assignment `instructionFixedPoint[inst] = current`. -/
def InstructionMap.assign (m : InstructionMap) (inst : Instruction) (v : valueType) :
    InstructionMap :=
  fun i => if i = inst then some v else m i

/-- The inner loop of `propagate_to_instructions` over the operations of one
node: record `current` for the operation, then insert the operation. -/
def propagateBlock (insts : List Instruction) (m : InstructionMap) (current : valueType) :
    InstructionMap × valueType :=
  insts.foldl
    (fun (st : InstructionMap × valueType) inst => (st.1.assign inst st.2, insert inst st.2))
    (m, current)

/-- The method `ReachingDFA::propagate_to_instructions`; `bbFixedPoint` is a
by-value copy that the reads `bbFixedPoint[...]` update. -/
def propagate_to_instructions (F : Func) (bbFixedPoint : BoundaryMap valueType) :
    InstructionMap :=
  (F.basicBlockList.foldl
    (fun (st : InstructionMap × BoundaryMap valueType) bb =>
      let r := st.2.index (bb, true)
      ((propagateBlock (F.instructions bb) st.1 r.1).1, r.2))
    (fun _ => none, bbFixedPoint)).1

/-- The map `previous` that `Reaching::runOnFunction` builds. -/
def initialMap (F : Func) : BoundaryMap valueType :=
  F.basicBlockList.foldl
    (fun previous bb => (previous.assign (bb, true) ∅).assign (bb, false) ∅)
    (fun _ => none)

/-- The call `rd.run_dataflow(F, previous)` of `Reaching::runOnFunction`. -/
def runOnFunction (F : Func) (fuel : Nat) : Option (BoundaryMap valueType) :=
  run_dataflow meet F (ReachingDFA F) fuel (initialMap F)

end Reaching

/-! ## Maypoint.cpp -/

namespace Maypoint

/-- The lattice of the points-to client, a
`std::map<Value*, std::set<Value*>>`. -/
abbrev valueType := Value → Option (Finset Value)

/-- The value the read `m[k]` returns: the empty set for a missing key. -/
def valueType.get (m : valueType) (k : Value) : Finset Value := (m k).getD ∅

/-- The assignment `m[k] = s`. -/
def valueType.assign (m : valueType) (k : Value) (s : Finset Value) : valueType :=
  fun k1 => if k1 = k then some s else m k1

/-- The map after the read `m[k]`: a missing key is inserted with the empty set. -/
def valueType.touch (m : valueType) (k : Value) : valueType := m.assign k (m.get k)

/-- The statement `m[k].insert(s.begin(), s.end())`. -/
def valueType.insertRange (m : valueType) (k : Value) (s : Finset Value) : valueType :=
  m.assign k (m.get k ∪ s)

/-- The body of the loop of the load case:
`result[inst].insert(result[p].begin(), result[p].end())`. -/
def loadStep (inst : Value) (p : Value) (result : valueType) : valueType :=
  (result.touch p).insertRange inst (result.get p)

/-- The body of the loop of the store case:
`result[it1].insert(value_operand_points_to.begin(), value_operand_points_to.end())`. -/
def storeStep (value_operand_points_to : Finset Value) (it1 : Value) (result : valueType) :
    valueType :=
  result.insertRange it1 value_operand_points_to

instance loadStep_leftCommutative (inst : Value) : LeftCommutative (loadStep inst) where
  left_comm := by
    intro p q r
    funext k
    have e1 : (q = p) = (p = q) := propext ⟨Eq.symm, Eq.symm⟩
    by_cases hpi : p = inst <;> by_cases hqi : q = inst <;> by_cases hpq : p = q <;>
      by_cases hk : k = inst <;> by_cases hkp : k = p <;> by_cases hkq : k = q <;>
      simp_all [loadStep, valueType.insertRange, valueType.touch, valueType.assign,
        valueType.get, Finset.union_assoc, Finset.union_comm, Finset.union_left_comm]

instance storeStep_leftCommutative (v : Finset Value) : LeftCommutative (storeStep v) where
  left_comm := by
    intro p q r
    funext k
    have e1 : (q = p) = (p = q) := propext ⟨Eq.symm, Eq.symm⟩
    by_cases hpq : p = q <;> by_cases hkp : k = p <;> by_cases hkq : k = q <;>
      simp_all [storeStep, valueType.insertRange, valueType.assign, valueType.get]

/-- The method `mayPoint::instructionTransferFunction`. The loops of the load
and store cases run over a `std::set`; their bodies commute, so the result
does not depend on the iteration order. -/
def instructionTransferFunction (inst : Instruction) (inp : valueType) : valueType :=
  let result : valueType := inp
  let points_to_set : Finset Value := inp.get inst.toValue
  match inst.op with
  | InstKind.alloca _ =>
    result.assign inst.toValue (insert inst.toValue points_to_set)
  | InstKind.bitcast used =>
    if used.ty = Ty.pointer ∧ inst.ty = Ty.pointer then
      result.insertRange inst.toValue ((inp.touch inst.toValue).get used)
    else result
  | InstKind.getelementptr ptr _ =>
    result.insertRange inst.toValue {ptr}
  | InstKind.load pointer_to_be_loaded =>
    if inst.ty ≠ Ty.pointer then result
    else
      Multiset.foldr (loadStep inst.toValue) (result.touch pointer_to_be_loaded)
        (result.get pointer_to_be_loaded).val
  | InstKind.store value_operand pointer_operand =>
    if value_operand.ty ≠ Ty.pointer then result
    else
      Multiset.foldr (storeStep (result.get value_operand))
        ((result.touch value_operand).touch pointer_operand)
        ((result.touch value_operand).get pointer_operand).val
  | InstKind.select _ true_value false_value =>
    if inst.ty ≠ Ty.pointer then result
    else
      ((((result.touch true_value).touch false_value).insertRange inst.toValue
        (result.get true_value)).insertRange inst.toValue
          ((result.touch true_value).get false_value))
  | InstKind.phi _ =>
    if inst.ty ≠ Ty.pointer then result
    else
      inst.operands.foldl (fun r u => loadStep inst.toValue u r) result
  | InstKind.other _ => result

/-- The member `operator ^` of the points-to lattice: a copy of the argument
`a` in which every entry of `this` is either added (key absent from `a`) or
united into the set `a` holds under the same key. -/
def meet (this a : valueType) : valueType :=
  fun k =>
    match this k with
    | none => a k
    | some v =>
      match a k with
      | none => some v
      | some w => some (w ∪ v)

/-- The member `valueType::init`: the empty set under every argument and
every operation of the function. -/
def init (F : Func) (this : valueType) : valueType :=
  (F.basicBlockList.flatMap F.instructions).foldl (fun m I => m.assign I.toValue ∅)
    (F.args.foldl (fun m arg => m.assign arg ∅) this)

/-- The closure `tf.blockTransferFunction` of the node `bb`. -/
def blockTransferFunction (F : Func) (bb : BasicBlock) (inp : valueType) : valueType :=
  (F.instructions bb).foldl (fun out inst => instructionTransferFunction inst out) inp

/-- The table `allTransferFunctions` that
`mayPoint::construct_transfer_function_objects` fills; the records are
default-constructed, so `has_phi_nodes` is false, no edge function is
registered and the member `top` of a record is the empty map. -/
def construct_transfer_function_objects (F : Func) : BasicBlock → transferFunction valueType :=
  fun bb =>
    { has_phi_nodes := false
      is_forward := true
      transferMap := fun _ out => out
      blockTransferFunction := blockTransferFunction F bb
      basic_block := bb
      top := fun _ => none }

/-- The object `mayPoint md(F)`: the constructor runs `top.init(F)` on the
default-constructed member `top`. -/
def mayPoint (F : Func) : dataFlow valueType :=
  { is_forward := true
    top := init F (fun _ => none)
    allTransferFunctions := construct_transfer_function_objects F }

/-- The order induced by `meet` on points-to maps, spelled out: every entry of
`a` has an entry in `b` under the same key, and its set is included in that of
`b` (see `pointsto_meet_eq_right_iff_le`). -/
def valueType.le (a b : valueType) : Prop :=
  ∀ k v, a k = some v → ∃ w, b k = some w ∧ v ⊆ w

end Maypoint

/-! ## The value view of the engine

What the engine computes depends on a boundary map only through the values
its reads return. The definitions below restate a pass and a sweep over that
view; the lemmas further down relate them to the code above. -/

/-- The value the read `m[k]` returns. -/
def BoundaryMap.rd {T : Type} [Inhabited T] (m : BoundaryMap T) (k : BasicBlock × Bool) : T :=
  (m.index k).1

/-- The keys a pass of the record `tf` reads. -/
def passKeys {T : Type} (F : Func) (tf : transferFunction T) : List (BasicBlock × Bool) :=
  if tf.is_forward then (F.predecessors tf.basic_block).map (fun p => (p, false))
  else (F.successors tf.basic_block).map (fun s => (s, true))

/-- The meet over the predecessors, on a total view `r` of the map. -/
def entryOf {T : Type} (meet : T → T → T) (F : Func) (tf : transferFunction T)
    (r : BasicBlock × Bool → T) : T :=
  (F.predecessors tf.basic_block).foldl
    (fun acc p =>
      meet acc (if tf.has_phi_nodes then tf.transferMap p (r (p, false)) else r (p, false)))
    tf.top

/-- The meet over the successors, on a total view `r` of the map. -/
def exitOf {T : Type} (meet : T → T → T) (F : Func) (all : BasicBlock → transferFunction T)
    (tf : transferFunction T) (r : BasicBlock × Bool → T) : T :=
  (F.successors tf.basic_block).foldl
    (fun acc s =>
      meet acc (if (all s).has_phi_nodes then (all s).transferMap tf.basic_block (r (s, true))
        else r (s, true)))
    tf.top

/-- The pair (entry, exit) of a pass, on a total view `r` of the map. -/
def passV {T : Type} (meet : T → T → T) (F : Func) (all : BasicBlock → transferFunction T)
    (tf : transferFunction T) (r : BasicBlock × Bool → T) : T × T :=
  if tf.is_forward then
    (entryOf meet F tf r, tf.blockTransferFunction (entryOf meet F tf r))
  else
    (tf.blockTransferFunction (exitOf meet F all tf r), exitOf meet F all tf r)

/-- The view after the node `bb` has been evaluated and stored. -/
def stepV {T : Type} (meet : T → T → T) (F : Func) (df : dataFlow T)
    (r : BasicBlock × Bool → T) (bb : BasicBlock) : BasicBlock × Bool → T :=
  fun k =>
    if k = (bb, false) then (passV meet F df.allTransferFunctions (df.allTransferFunctions bb) r).2
    else if k = (bb, true) then
      (passV meet F df.allTransferFunctions (df.allTransferFunctions bb) r).1
    else r k

/-- The view after one sweep over the nodes `l`. -/
def sweepV {T : Type} (meet : T → T → T) (F : Func) (df : dataFlow T)
    (l : List BasicBlock) (r : BasicBlock × Bool → T) : BasicBlock × Bool → T :=
  l.foldl (stepV meet F df) r

/-- A view is a fixed point on the nodes `l`: every node's pass returns the
pair the view holds for it. -/
def IsFixedPoint {T : Type} (meet : T → T → T) (F : Func) (df : dataFlow T)
    (l : List BasicBlock) (r : BasicBlock × Bool → T) : Prop :=
  ∀ b ∈ l, passV meet F df.allTransferFunctions (df.allTransferFunctions b) r
    = (r (b, true), r (b, false))

/-- The keys one sweep over the nodes `l` reads or writes. -/
def sweepKeys {T : Type} (F : Func) (df : dataFlow T) (l : List BasicBlock) :
    List (BasicBlock × Bool) :=
  l.flatMap (fun b => (b, true) :: (b, false) :: passKeys F (df.allTransferFunctions b))

/-- Whether the check of `run_dataflow` fires for the node `bb`: the pair its
pass returns on `r` differs from the pair `r0` holds for it. -/
def changedV {T : Type} [DecidableEq T] (meet : T → T → T) (F : Func) (df : dataFlow T)
    (r0 r : BasicBlock × Bool → T) (bb : BasicBlock) : Bool :=
  decide (r0 (bb, true)
      ≠ (passV meet F df.allTransferFunctions (df.allTransferFunctions bb) r).1)
    || decide (r0 (bb, false)
      ≠ (passV meet F df.allTransferFunctions (df.allTransferFunctions bb) r).2)

/-- Whether a sweep over `l` that starts from the view `r`, with `r0` the view
of `previous`, sets `modified`. -/
def modifiedV {T : Type} [DecidableEq T] (meet : T → T → T) (F : Func) (df : dataFlow T) :
    List BasicBlock → (BasicBlock × Bool → T) → (BasicBlock × Bool → T) → Bool
  | [], _, _ => false
  | bb :: l, r0, r => changedV meet F df r0 r bb || modifiedV meet F df l r0 (stepV meet F df r bb)

/-- The `while (modified)` loop on views. -/
def loopV {T : Type} [DecidableEq T] (meet : T → T → T) (F : Func) (df : dataFlow T) :
    Nat → (BasicBlock × Bool → T) → Option (BasicBlock × Bool → T)
  | 0, _ => none
  | fuel + 1, r =>
    if modifiedV meet F df F.basicBlockList r r then
      loopV meet F df fuel (sweepV meet F df F.basicBlockList r)
    else some (sweepV meet F df F.basicBlockList r)

/-- One round of the `while` loop of `run_dataflow` from the map `m`: the map
`next` after the sweep that starts with `previous` and `next` equal to `m`. -/
def sweepOnce {T : Type} [Inhabited T] [DecidableEq T] (meet : T → T → T) (F : Func)
    (df : dataFlow T) (m : BoundaryMap T) : BoundaryMap T :=
  (F.basicBlockList.foldl (sweepBody meet F df) ⟨m, m, false⟩).next

/-! ## The monotone framework -/

/-- The hypotheses of the convergence argument: `le` is a partial order on
the lattice values, `meet` is monotone in both arguments, and every node and
edge transfer function of the table is monotone. -/
structure MonotoneFramework {T : Type} (le : T → T → Prop) (meet : T → T → T)
    (df : dataFlow T) : Prop where
  refl : ∀ a, le a a
  trans : ∀ a b c, le a b → le b c → le a c
  antisymm : ∀ a b, le a b → le b a → a = b
  meet_mono : ∀ a b c d, le a b → le c d → le (meet a c) (meet b d)
  block_mono : ∀ n a b, le a b →
    le ((df.allTransferFunctions n).blockTransferFunction a)
      ((df.allTransferFunctions n).blockTransferFunction b)
  edge_mono : ∀ n p a b, le a b →
    le ((df.allTransferFunctions n).transferMap p a)
      ((df.allTransferFunctions n).transferMap p b)

/-- Finite height, given by a rank: `h` is bounded by `H` and strictly
increasing along `le`, so no strictly ascending chain has more than `H` steps. -/
structure FiniteHeight {T : Type} (le : T → T → Prop) (h : T → Nat) (H : Nat) : Prop where
  bounded : ∀ a, h a ≤ H
  strict : ∀ a b, le a b → a ≠ b → h a < h b

/-- A view is a pre-fixed point on the nodes `l`: the pair it holds for a node
lies below the pair the node's pass returns on it. The map that holds the
least element everywhere is one. -/
def IsPreFixedPoint {T : Type} (le : T → T → Prop) (meet : T → T → T) (F : Func)
    (df : dataFlow T) (l : List BasicBlock) (r : BasicBlock × Bool → T) : Prop :=
  ∀ b ∈ l,
    le (r (b, true)) (passV meet F df.allTransferFunctions (df.allTransferFunctions b) r).1
    ∧ le (r (b, false)) (passV meet F df.allTransferFunctions (df.allTransferFunctions b) r).2

/-- The keys a sweep over `l` writes. -/
def nodeKeys (l : List BasicBlock) : Finset (BasicBlock × Bool) :=
  l.toFinset ×ˢ (Finset.univ : Finset Bool)

/-- The sum of the ranks of the values a view holds for the nodes of `l`. -/
def potential {T : Type} (h : T → Nat) (l : List BasicBlock) (r : BasicBlock × Bool → T) : Nat :=
  ∑ k ∈ nodeKeys l, h (r k)

/-! ## Concrete programs -/

namespace Examples

/-- The operation `%x = add i32 1, 2` of node A: it uses no entity. -/
def opX : Instruction :=
  ⟨10, Ty.other, InstKind.other [⟨ValueKind.other, 1, Ty.other⟩, ⟨ValueKind.other, 2, Ty.other⟩]⟩

/-- The terminator `br label %B` of node A. -/
def opBr : Instruction := ⟨11, Ty.void, InstKind.other [⟨ValueKind.other, 101, Ty.other⟩]⟩

/-- The operation `%y = add i32 %x, 1` of node B: it uses `x`. -/
def opUse : Instruction :=
  ⟨12, Ty.other, InstKind.other [opX.toValue, ⟨ValueKind.other, 1, Ty.other⟩]⟩

/-- The terminator `ret void` of node B. -/
def opRet : Instruction := ⟨13, Ty.void, InstKind.other []⟩

/-- The two-node program: node 0 (A) defines `x` and falls through to node 1
(B), which uses `x` and returns. -/
def liveAB : Func :=
  { basicBlockList := [0, 1]
    predecessors := fun b => if b = 1 then [0] else []
    successors := fun b => if b = 0 then [1] else []
    instructions := fun b => if b = 0 then [opX, opBr] else if b = 1 then [opUse, opRet] else []
    args := [] }

/-- The operation `%y1 = add i32 %a, 1`, the first definition of `y`. -/
def op1 : Instruction :=
  ⟨20, Ty.other, InstKind.other [⟨ValueKind.argument, 0, Ty.other⟩, ⟨ValueKind.other, 1, Ty.other⟩]⟩

/-- The operation `%y2 = add i32 %a, 2`, the second definition of `y`. -/
def op2 : Instruction :=
  ⟨21, Ty.other, InstKind.other [⟨ValueKind.argument, 0, Ty.other⟩, ⟨ValueKind.other, 2, Ty.other⟩]⟩

/-- The terminator `ret i32 %y2`. -/
def opRetY : Instruction := ⟨22, Ty.void, InstKind.other [op2.toValue]⟩

/-- The single-node program with two successive definitions of `y`. -/
def twoDefs : Func :=
  { basicBlockList := [0]
    predecessors := fun _ => []
    successors := fun _ => []
    instructions := fun b => if b = 0 then [op1, op2, opRetY] else []
    args := [⟨ValueKind.argument, 0, Ty.other⟩] }

/-- The allocation `%S = alloca i32`. -/
def allocS : Instruction := ⟨30, Ty.pointer, InstKind.alloca ⟨ValueKind.other, 1, Ty.other⟩⟩

/-- The cast `%c = bitcast i32* %S to i8*`. -/
def castC : Instruction := ⟨31, Ty.pointer, InstKind.bitcast allocS.toValue⟩

/-- A single node that is its own predecessor. -/
def selfLoop : Func :=
  { basicBlockList := [0]
    predecessors := fun _ => [0]
    successors := fun _ => [0]
    instructions := fun _ => []
    args := [] }

/-- The meet of the four-element lattice of pairs of booleans: the
componentwise disjunction, with identity `(false, false)`. -/
def orPair (a b : Bool × Bool) : Bool × Bool := (a.1 || b.1, a.2 || b.2)

/-- A forward framework on `selfLoop`: the node transfer function swaps the
two components, which is monotone for the order induced by `orPair`. -/
def swapFlow : dataFlow (Bool × Bool) :=
  { is_forward := true
    top := (false, false)
    allTransferFunctions := fun b =>
      { has_phi_nodes := false
        is_forward := true
        transferMap := fun _ v => v
        blockTransferFunction := fun v => (v.2, v.1)
        basic_block := b
        top := (false, false) } }

/-- An initial map for `swapFlow`: entry `(false, false)`, exit `(true, false)`. -/
def swapInit : BoundaryMap (Bool × Bool) :=
  fun k => if k = (0, true) then some (false, false)
    else if k = (0, false) then some (true, false) else none

/-- Two nodes on a cycle, enumerated in the order given. -/
def cycle (order : List BasicBlock) : Func :=
  { basicBlockList := order
    predecessors := fun b => if b = 0 then [1] else if b = 1 then [0] else []
    successors := fun b => if b = 0 then [1] else if b = 1 then [0] else []
    instructions := fun _ => []
    args := [] }

/-- A forward framework on booleans: the meet is the disjunction, `top` is
`false`, and every transfer function is the identity. -/
def idFlow : dataFlow Bool :=
  { is_forward := true
    top := false
    allTransferFunctions := fun b =>
      { has_phi_nodes := false
        is_forward := true
        transferMap := fun _ v => v
        blockTransferFunction := fun v => v
        basic_block := b
        top := false } }

/-- An initial map for `idFlow` on the cycle: exit of node 0 is `true`, the
other three values are `false`. -/
def cycleInit : BoundaryMap Bool :=
  fun k => if k = (0, false) then some true
    else if k.1 = 0 ∨ k.1 = 1 then some false else none

/-- The order on booleans induced by the disjunction: `a ⊑ b` iff `a || b = b`. -/
def boolLe (a b : Bool) : Prop := (a || b) = b

/-- The order on pairs of booleans induced by `orPair`. -/
def pairLe (a b : Bool × Bool) : Prop := orPair a b = b

instance boolLe_decidable (a b : Bool) : Decidable (boolLe a b) :=
  inferInstanceAs (Decidable ((a || b) = b))

instance pairLe_decidable (a b : Bool × Bool) : Decidable (pairLe a b) :=
  inferInstanceAs (Decidable (orPair a b = b))

/-- A rank for `boolLe`. -/
def boolRank (a : Bool) : Nat := if a then 1 else 0

/-- A rank for `pairLe`: the number of components that are `true`. -/
def pairRank (a : Bool × Bool) : Nat := (if a.1 then 1 else 0) + (if a.2 then 1 else 0)

/-- A forward framework on booleans in which node 0 generates `true` and every
other node passes its entry value on. -/
def genFlow : dataFlow Bool :=
  { is_forward := true
    top := false
    allTransferFunctions := fun b =>
      { has_phi_nodes := false
        is_forward := true
        transferMap := fun _ v => v
        blockTransferFunction := fun v => if b = 0 then true else v
        basic_block := b
        top := false } }

/-- The all-`false` map on the two nodes of the cycle. -/
def cycleBottom : BoundaryMap Bool :=
  fun k => if k.1 = 0 ∨ k.1 = 1 then some false else none

/-- The definition `%e = add i32 1, 2` of node E. -/
def opE : Instruction := ⟨50, Ty.other, InstKind.other [⟨ValueKind.other, 1, Ty.other⟩]⟩

/-- The terminator of node E, a conditional branch to L and R. -/
def brE : Instruction := ⟨51, Ty.void, InstKind.other [opE.toValue]⟩

/-- The definition made in node L. -/
def opL : Instruction := ⟨52, Ty.other, InstKind.other [opE.toValue]⟩

/-- The terminator `br label %M` of node L. -/
def brL : Instruction := ⟨53, Ty.void, InstKind.other [⟨ValueKind.other, 103, Ty.other⟩]⟩

/-- The definition made in node R. -/
def opR : Instruction := ⟨54, Ty.other, InstKind.other [opE.toValue]⟩

/-- The terminator `br label %M` of node R. -/
def brR : Instruction := ⟨55, Ty.void, InstKind.other [⟨ValueKind.other, 103, Ty.other⟩]⟩

/-- The terminator `ret void` of node M. -/
def retM : Instruction := ⟨56, Ty.void, InstKind.other []⟩

/-- The diamond: node 0 (E) branches to node 1 (L) and node 2 (R), which both
fall through to node 3 (M). -/
def diamond : Func :=
  { basicBlockList := [0, 1, 2, 3]
    predecessors := fun b =>
      if b = 1 then [0] else if b = 2 then [0] else if b = 3 then [1, 2] else []
    successors := fun b =>
      if b = 0 then [1, 2] else if b = 1 then [3] else if b = 2 then [3] else []
    instructions := fun b =>
      if b = 0 then [opE, brE] else if b = 1 then [opL, brL]
      else if b = 2 then [opR, brR] else if b = 3 then [retM] else []
    args := [] }

/-- The operation `store i32 %a, i32* %p`: it has type void. -/
def opStore : Instruction :=
  ⟨23, Ty.void,
    InstKind.store ⟨ValueKind.argument, 0, Ty.other⟩ ⟨ValueKind.argument, 1, Ty.pointer⟩⟩

/-- A single node `store; %y1 = ..; ret void`. -/
def storeThenDef : Func :=
  { basicBlockList := [0]
    predecessors := fun _ => []
    successors := fun _ => []
    instructions := fun b => if b = 0 then [opStore, op1, opRet] else []
    args := [⟨ValueKind.argument, 0, Ty.other⟩, ⟨ValueKind.argument, 1, Ty.pointer⟩] }

/-- The merge operation `%a = phi [%x, %E], [%b, %M]`. -/
def phiA : Instruction :=
  ⟨40, Ty.other,
    InstKind.phi [(⟨ValueKind.argument, 0, Ty.other⟩, 0), (⟨ValueKind.instruction, 41, Ty.other⟩, 1)]⟩

/-- The merge operation `%b = phi [%y, %E], [%a, %M]`. -/
def phiB : Instruction :=
  ⟨41, Ty.other,
    InstKind.phi [(⟨ValueKind.argument, 1, Ty.other⟩, 0), (⟨ValueKind.instruction, 40, Ty.other⟩, 1)]⟩

/-- The terminator of the loop node, a conditional branch to itself and out. -/
def brLoop : Instruction := ⟨42, Ty.void, InstKind.other [⟨ValueKind.other, 1, Ty.other⟩]⟩

/-- A loop whose node 1 (M) is its own predecessor and begins with two merge
operations that exchange their values on the back edge. -/
def phiSwap : Func :=
  { basicBlockList := [0, 1]
    predecessors := fun b => if b = 1 then [0, 1] else []
    successors := fun b => if b = 0 then [1] else if b = 1 then [1] else []
    instructions := fun b => if b = 1 then [phiA, phiB, brLoop] else if b = 0 then [opBr] else []
    args := [⟨ValueKind.argument, 0, Ty.other⟩, ⟨ValueKind.argument, 1, Ty.other⟩] }

/-- The operation `store i8* %c, i8** %S`: it stores a pointer. -/
def storePtr : Instruction := ⟨32, Ty.void, InstKind.store castC.toValue allocS.toValue⟩

/-- The operation `%v = load i32, i32* %S`: its result is not a pointer. -/
def loadInt : Instruction := ⟨33, Ty.other, InstKind.load allocS.toValue⟩

end Examples

/-! ## Lemmas on the boundary map -/

section MapLemmas

variable {T : Type} [Inhabited T]

theorem rd_eq_getD (m : BoundaryMap T) (k : BasicBlock × Bool) :
    m.rd k = (m k).getD default := by
  unfold BoundaryMap.rd BoundaryMap.index
  cases h : m k <;> simp

theorem rd_assign (m : BoundaryMap T) (k k1 : BasicBlock × Bool) (v : T) :
    (m.assign k v).rd k1 = if k1 = k then v else m.rd k1 := by
  simp only [rd_eq_getD, BoundaryMap.assign]
  split <;> simp

theorem index_fst (m : BoundaryMap T) (k : BasicBlock × Bool) : (m.index k).1 = m.rd k := rfl

theorem rd_index_snd (m : BoundaryMap T) (k k1 : BasicBlock × Bool) :
    (m.index k).2.rd k1 = m.rd k1 := by
  unfold BoundaryMap.index
  cases h : m k with
  | some v => simp
  | none =>
    simp only [rd_assign]
    split
    · next hk => subst hk; simp [rd_eq_getD, h]
    · rfl

theorem isSome_index_snd (m : BoundaryMap T) (k k1 : BasicBlock × Bool) :
    ((m.index k).2 k1).isSome = ((m k1).isSome || decide (k1 = k)) := by
  unfold BoundaryMap.index
  cases h : m k with
  | some v =>
    by_cases hk : k1 = k
    · subst hk; simp [h]
    · simp [hk]
  | none =>
    by_cases hk : k1 = k
    · subst hk; simp [BoundaryMap.assign]
    · simp [BoundaryMap.assign, hk]

omit [Inhabited T] in
theorem isSome_assign (m : BoundaryMap T) (k k1 : BasicBlock × Bool) (v : T) :
    ((m.assign k v) k1).isSome = ((m k1).isSome || decide (k1 = k)) := by
  by_cases hk : k1 = k
  · subst hk; simp [BoundaryMap.assign]
  · simp [BoundaryMap.assign, hk]

theorem eq_some_rd_of_isSome (m : BoundaryMap T) (k : BasicBlock × Bool)
    (h : (m k).isSome = true) : m k = some (m.rd k) := by
  rw [rd_eq_getD]
  cases hk : m k with
  | none => rw [hk] at h; cases h
  | some v => rfl

theorem rd_of_eq_none (m : BoundaryMap T) (k : BasicBlock × Bool) (h : m k = none) :
    m.rd k = default := by
  rw [rd_eq_getD, h]
  rfl

/-- A loop that reads one key per element and threads the map: the value it
accumulates is the fold over the values read from the initial map, and the
map it leaves reads as the initial one. -/
theorem foldl_index {α : Type} (key : α → BasicBlock × Bool) (g : T → α → T → T)
    (l : List α) (a : T) (m : BoundaryMap T) :
    (l.foldl (fun (st : T × BoundaryMap T) x => (g st.1 x (st.2.index (key x)).1,
        (st.2.index (key x)).2)) (a, m)).1
      = l.foldl (fun acc x => g acc x (m.rd (key x))) a
    ∧ (∀ k, (l.foldl (fun (st : T × BoundaryMap T) x => (g st.1 x (st.2.index (key x)).1,
        (st.2.index (key x)).2)) (a, m)).2.rd k = m.rd k)
    ∧ (∀ k, ((l.foldl (fun (st : T × BoundaryMap T) x => (g st.1 x (st.2.index (key x)).1,
        (st.2.index (key x)).2)) (a, m)).2 k).isSome
        = ((m k).isSome || decide (k ∈ l.map key))) := by
  induction l generalizing a m with
  | nil => simp
  | cons x xs ih =>
    simp only [List.foldl_cons]
    obtain ⟨h1, h2, h3⟩ := ih (g a x (m.index (key x)).1) (m.index (key x)).2
    refine ⟨?_, ?_, ?_⟩
    · rw [h1]
      simp only [rd_index_snd, index_fst]
    · intro k
      rw [h2, rd_index_snd]
    · intro k
      rw [h3, isSome_index_snd]
      by_cases hk : k = key x
      · simp [hk]
      · simp only [List.map_cons, List.mem_cons, hk, false_or, decide_False, Bool.or_false]

theorem forward_pass_view (meet : T → T → T) (F : Func) (tf : transferFunction T)
    (m : BoundaryMap T) :
    (forward_pass meet F tf m).1
        = (entryOf meet F tf m.rd, tf.blockTransferFunction (entryOf meet F tf m.rd))
      ∧ (∀ k, (forward_pass meet F tf m).2.rd k = m.rd k)
      ∧ (∀ k, ((forward_pass meet F tf m).2 k).isSome
          = ((m k).isSome
            || decide (k ∈ (F.predecessors tf.basic_block).map (fun p => (p, false))))) := by
  unfold forward_pass entryOf
  cases hphi : tf.has_phi_nodes
  · obtain ⟨h1, h2, h3⟩ := foldl_index (fun p : BasicBlock => (p, false))
      (fun acc _ v => meet acc v) (F.predecessors tf.basic_block) tf.top m
    simp only [Bool.false_eq_true, if_false]
    exact ⟨by rw [h1], h2, h3⟩
  · obtain ⟨h1, h2, h3⟩ := foldl_index (fun p : BasicBlock => (p, false))
      (fun acc p v => meet acc (tf.transferMap p v)) (F.predecessors tf.basic_block) tf.top m
    simp only [if_true]
    exact ⟨by rw [h1], h2, h3⟩

theorem backward_pass_view (meet : T → T → T) (F : Func)
    (all : BasicBlock → transferFunction T) (tf : transferFunction T) (m : BoundaryMap T) :
    (backward_pass meet F all tf m).1
        = (tf.blockTransferFunction (exitOf meet F all tf m.rd), exitOf meet F all tf m.rd)
      ∧ (∀ k, (backward_pass meet F all tf m).2.rd k = m.rd k)
      ∧ (∀ k, ((backward_pass meet F all tf m).2 k).isSome
          = ((m k).isSome
            || decide (k ∈ (F.successors tf.basic_block).map (fun s => (s, true))))) := by
  unfold backward_pass exitOf
  have hfun : (fun (st : T × BoundaryMap T) (succ : BasicBlock) =>
        let r := st.2.index (succ, true)
        if (all succ).has_phi_nodes then
          (meet st.1 ((all succ).transferMap tf.basic_block r.1), r.2)
        else (meet st.1 r.1, r.2))
      = (fun (st : T × BoundaryMap T) (succ : BasicBlock) =>
        ((fun acc s v => meet acc (if (all s).has_phi_nodes then
            (all s).transferMap tf.basic_block v else v)) st.1 succ (st.2.index (succ, true)).1,
          (st.2.index (succ, true)).2)) := by
    funext st succ
    by_cases h : (all succ).has_phi_nodes = true <;> simp [h]
  obtain ⟨h1, h2, h3⟩ := foldl_index (fun s : BasicBlock => (s, true))
    (fun acc s v => meet acc (if (all s).has_phi_nodes then
      (all s).transferMap tf.basic_block v else v)) (F.successors tf.basic_block) tf.top m
  simp only [hfun]
  refine ⟨?_, h2, h3⟩
  rw [h1]

theorem pass_view (meet : T → T → T) (F : Func) (all : BasicBlock → transferFunction T)
    (tf : transferFunction T) (m : BoundaryMap T) :
    (pass meet F all tf m).1 = passV meet F all tf m.rd
      ∧ (∀ k, (pass meet F all tf m).2.rd k = m.rd k)
      ∧ (∀ k, ((pass meet F all tf m).2 k).isSome
          = ((m k).isSome || decide (k ∈ passKeys F tf))) := by
  unfold pass passV passKeys
  cases tf.is_forward
  · simpa using backward_pass_view meet F all tf m
  · simpa using forward_pass_view meet F tf m

omit [Inhabited T] in
/-- The pair a pass returns depends on the map only through the values read. -/
theorem passV_congr (meet : T → T → T) (F : Func) (all : BasicBlock → transferFunction T)
    (tf : transferFunction T) (r1 r2 : BasicBlock × Bool → T) (h : ∀ k, r1 k = r2 k) :
    passV meet F all tf r1 = passV meet F all tf r2 := by
  have : r1 = r2 := funext h
  rw [this]

end MapLemmas

/-! ## Lemmas on one sweep -/

section SweepLemmas

variable {T : Type} [Inhabited T] [DecidableEq T]

theorem sweepBody_view (meet : T → T → T) (F : Func) (df : dataFlow T) (st : SweepState T)
    (bb : BasicBlock) :
    (∀ k, (sweepBody meet F df st bb).next.rd k = stepV meet F df st.next.rd bb k)
    ∧ (∀ k, (sweepBody meet F df st bb).previous.rd k = st.previous.rd k)
    ∧ (sweepBody meet F df st bb).modified
        = (st.modified || changedV meet F df st.previous.rd st.next.rd bb)
    ∧ (∀ k, ((sweepBody meet F df st bb).next k).isSome
        = ((st.next k).isSome
          || decide (k ∈ (bb, true) :: (bb, false) :: passKeys F (df.allTransferFunctions bb)))) := by
  obtain ⟨h1, h2, h3⟩ :=
    pass_view meet F df.allTransferFunctions (df.allTransferFunctions bb) st.next
  have hne : ((bb, true) : BasicBlock × Bool) ≠ (bb, false) := by simp
  have hnext : ∀ k, (((pass meet F df.allTransferFunctions (df.allTransferFunctions bb)
        st.next).2.assign (bb, true)
          (pass meet F df.allTransferFunctions (df.allTransferFunctions bb) st.next).1.1).assign
        (bb, false)
          (pass meet F df.allTransferFunctions (df.allTransferFunctions bb) st.next).1.2).rd k
      = stepV meet F df st.next.rd bb k := by
    intro k
    simp only [rd_assign, h1, h2, stepV]
  have hdom : ∀ k, ((((pass meet F df.allTransferFunctions (df.allTransferFunctions bb)
        st.next).2.assign (bb, true)
          (pass meet F df.allTransferFunctions (df.allTransferFunctions bb) st.next).1.1).assign
        (bb, false)
          (pass meet F df.allTransferFunctions (df.allTransferFunctions bb) st.next).1.2) k).isSome
      = ((st.next k).isSome
          || decide (k ∈ (bb, true) :: (bb, false) :: passKeys F (df.allTransferFunctions bb))) := by
    intro k
    simp only [isSome_assign, h3, List.mem_cons]
    by_cases hk1 : k = (bb, true) <;> by_cases hk2 : k = (bb, false) <;> simp [hk1, hk2]
  have hin : stepV meet F df st.next.rd bb (bb, true)
      = (passV meet F df.allTransferFunctions (df.allTransferFunctions bb) st.next.rd).1 := by
    simp [stepV]
  have hout : stepV meet F df st.next.rd bb (bb, false)
      = (passV meet F df.allTransferFunctions (df.allTransferFunctions bb) st.next.rd).2 := by
    simp [stepV]
  unfold sweepBody
  cases hm : st.modified
  · simp only [Bool.false_eq_true, if_false, index_fst, hnext, hin, hout, rd_index_snd,
      Bool.false_or, changedV]
    split
    · next hc =>
      refine ⟨?_, ?_, ?_, ?_⟩
      · intro k; simp only [rd_index_snd, hnext]
      · intro k; simp only [rd_index_snd]
      · simp [hc]
      · intro k
        rw [isSome_index_snd, hdom]
        by_cases hk1 : k = (bb, true) <;> simp [hk1]
    · next hc =>
      refine ⟨?_, ?_, ?_, ?_⟩
      · intro k; simp only [rd_index_snd, hnext]
      · intro k; simp only [rd_index_snd]
      · simp [hc]
      · intro k
        rw [isSome_index_snd, isSome_index_snd, hdom]
        by_cases hk1 : k = (bb, true) <;> by_cases hk2 : k = (bb, false) <;> simp [hk1, hk2]
  · simp only [if_true, Bool.true_or]
    refine ⟨hnext, fun _ => ?_, ?_, hdom⟩ <;> trivial

theorem sweep_view (meet : T → T → T) (F : Func) (df : dataFlow T) (l : List BasicBlock)
    (st : SweepState T) :
    (∀ k, (l.foldl (sweepBody meet F df) st).next.rd k = sweepV meet F df l st.next.rd k)
    ∧ (l.foldl (sweepBody meet F df) st).modified
        = (st.modified || modifiedV meet F df l st.previous.rd st.next.rd)
    ∧ (∀ k, ((l.foldl (sweepBody meet F df) st).next k).isSome
        = ((st.next k).isSome || decide (k ∈ sweepKeys F df l))) := by
  induction l generalizing st with
  | nil => simp [sweepV, modifiedV, sweepKeys]
  | cons bb l ih =>
    obtain ⟨b1, b2, b3, b4⟩ := sweepBody_view meet F df st bb
    obtain ⟨i1, i2, i3⟩ := ih (sweepBody meet F df st bb)
    have e1 : (sweepBody meet F df st bb).next.rd = stepV meet F df st.next.rd bb := funext b1
    have e2 : (sweepBody meet F df st bb).previous.rd = st.previous.rd := funext b2
    simp only [List.foldl_cons]
    refine ⟨?_, ?_, ?_⟩
    · intro k
      rw [i1, e1]
      rfl
    · rw [i2, b3, e1, e2]
      simp only [modifiedV, Bool.or_assoc]
    · intro k
      rw [i3, b4]
      simp only [sweepKeys, List.flatMap_cons, List.mem_append, Bool.or_assoc,
        Bool.decide_or]

omit [Inhabited T] [DecidableEq T] in
theorem stepV_eq_self (meet : T → T → T) (F : Func) (df : dataFlow T)
    (r : BasicBlock × Bool → T) (bb : BasicBlock)
    (h : passV meet F df.allTransferFunctions (df.allTransferFunctions bb) r
      = (r (bb, true), r (bb, false))) :
    stepV meet F df r bb = r := by
  funext k
  unfold stepV
  rw [h]
  by_cases h1 : k = (bb, false)
  · simp [h1]
  · by_cases h2 : k = (bb, true)
    · simp [h2]
    · simp [h1, h2]

omit [Inhabited T] in
theorem changedV_eq_false_iff (meet : T → T → T) (F : Func) (df : dataFlow T)
    (r : BasicBlock × Bool → T) (bb : BasicBlock) :
    changedV meet F df r r bb = false
      ↔ passV meet F df.allTransferFunctions (df.allTransferFunctions bb) r
        = (r (bb, true), r (bb, false)) := by
  unfold changedV
  simp only [Bool.or_eq_false_iff, decide_eq_false_iff_not, not_not]
  constructor
  · rintro ⟨h1, h2⟩
    exact Prod.ext h1.symm h2.symm
  · intro h
    rw [h]
    exact ⟨rfl, rfl⟩

omit [Inhabited T] in
/-- A sweep leaves `modified` unset exactly when the view it starts from is a
fixed point on the nodes swept. -/
theorem modifiedV_eq_false_iff (meet : T → T → T) (F : Func) (df : dataFlow T)
    (l : List BasicBlock) (r : BasicBlock × Bool → T) :
    modifiedV meet F df l r r = false ↔ IsFixedPoint meet F df l r := by
  induction l with
  | nil => simp [modifiedV, IsFixedPoint]
  | cons bb l ih =>
    simp only [modifiedV, Bool.or_eq_false_iff, changedV_eq_false_iff, IsFixedPoint,
      List.mem_cons, forall_eq_or_imp]
    constructor
    · rintro ⟨h1, h2⟩
      rw [stepV_eq_self meet F df r bb h1] at h2
      exact ⟨h1, ih.mp h2⟩
    · rintro ⟨h1, h2⟩
      rw [stepV_eq_self meet F df r bb h1]
      exact ⟨h1, ih.mpr h2⟩

omit [Inhabited T] [DecidableEq T] in
theorem sweepV_eq_self (meet : T → T → T) (F : Func) (df : dataFlow T)
    (l : List BasicBlock) (r : BasicBlock × Bool → T) (h : IsFixedPoint meet F df l r) :
    sweepV meet F df l r = r := by
  induction l with
  | nil => rfl
  | cons bb l ih =>
    have h1 := h bb (List.mem_cons_self _ _)
    unfold sweepV
    rw [List.foldl_cons, stepV_eq_self meet F df r bb h1]
    exact ih (fun b hb => h b (List.mem_cons_of_mem _ hb))

omit [Inhabited T] in
/-- What the loop returns is a fixed point on the block list. -/
theorem loopV_fixed (meet : T → T → T) (F : Func) (df : dataFlow T) (fuel : Nat)
    (r r1 : BasicBlock × Bool → T) (h : loopV meet F df fuel r = some r1) :
    IsFixedPoint meet F df F.basicBlockList r1 := by
  induction fuel generalizing r with
  | zero => simp [loopV] at h
  | succ n ih =>
    unfold loopV at h
    split at h
    · exact ih _ h
    · next hm =>
      have hfix := (modifiedV_eq_false_iff meet F df F.basicBlockList r).mp
        (by simpa using hm)
      rw [sweepV_eq_self meet F df _ r hfix] at h
      cases h
      exact hfix

/-- The loop of `run_dataflow` and the loop on views agree, and the map
returned holds an entry for every key of the initial map and for every key a
sweep reads or writes. -/
theorem whileLoop_view (meet : T → T → T) (F : Func) (df : dataFlow T) (fuel : Nat)
    (previous next : BoundaryMap T) (h : ∀ k, previous.rd k = next.rd k) :
    (whileLoop meet F df fuel previous next).map BoundaryMap.rd
        = loopV meet F df fuel next.rd
      ∧ ∀ m, whileLoop meet F df fuel previous next = some m →
          ∀ k, (m k).isSome = ((next k).isSome || decide (k ∈ sweepKeys F df F.basicBlockList)) := by
  induction fuel generalizing previous next with
  | zero => simp [whileLoop, loopV]
  | succ n ih =>
    obtain ⟨s1, s2, s3⟩ := sweep_view meet F df F.basicBlockList ⟨previous, next, false⟩
    have hpn : previous.rd = next.rd := funext h
    simp only [Bool.false_or, hpn] at s2
    have e1 : (F.basicBlockList.foldl (sweepBody meet F df) ⟨previous, next, false⟩).next.rd
        = sweepV meet F df F.basicBlockList next.rd := funext s1
    unfold whileLoop loopV
    simp only [s2]
    cases hm : modifiedV meet F df F.basicBlockList next.rd next.rd
    · simp only [Bool.false_eq_true, if_false, Option.map_some', e1, true_and]
      intro m hmeq k
      cases hmeq
      exact s3 k
    · simp only [if_true]
      obtain ⟨i1, i2⟩ := ih
        (F.basicBlockList.foldl (sweepBody meet F df) ⟨previous, next, false⟩).next
        (F.basicBlockList.foldl (sweepBody meet F df) ⟨previous, next, false⟩).next
        (fun _ => rfl)
      refine ⟨by rw [i1, e1], ?_⟩
      intro m hmeq k
      rw [i2 m hmeq k, s3 k]
      cases (next k).isSome <;> simp

theorem run_dataflow_view (meet : T → T → T) (F : Func) (df : dataFlow T) (fuel : Nat)
    (m0 : BoundaryMap T) :
    (run_dataflow meet F df fuel m0).map BoundaryMap.rd = loopV meet F df fuel m0.rd
      ∧ ∀ m, run_dataflow meet F df fuel m0 = some m →
          ∀ k, (m k).isSome = ((m0 k).isSome || decide (k ∈ sweepKeys F df F.basicBlockList)) :=
  whileLoop_view meet F df fuel m0 m0 (fun _ => rfl)

end SweepLemmas

/-! ## Lemmas on the monotone framework -/

section MonotoneLemmas

variable {T : Type}

theorem foldl_meet_mono (le : T → T → Prop) (meet : T → T → T)
    (hmeet : ∀ a b c d, le a b → le c d → le (meet a c) (meet b d))
    {α : Type} (g1 g2 : α → T) (l : List α) (a1 a2 : T) (ha : le a1 a2)
    (hg : ∀ x, le (g1 x) (g2 x)) :
    le (l.foldl (fun acc x => meet acc (g1 x)) a1) (l.foldl (fun acc x => meet acc (g2 x)) a2) := by
  induction l generalizing a1 a2 with
  | nil => exact ha
  | cons x xs ih =>
    simp only [List.foldl_cons]
    exact ih _ _ (hmeet _ _ _ _ ha (hg x))

/-- The pass of a node of the table is monotone in the view. -/
theorem passV_mono (le : T → T → Prop) (meet : T → T → T) (F : Func) (df : dataFlow T)
    (hF : MonotoneFramework le meet df) (b : BasicBlock) (r1 r2 : BasicBlock × Bool → T)
    (hr : ∀ k, le (r1 k) (r2 k)) :
    le (passV meet F df.allTransferFunctions (df.allTransferFunctions b) r1).1
        (passV meet F df.allTransferFunctions (df.allTransferFunctions b) r2).1
    ∧ le (passV meet F df.allTransferFunctions (df.allTransferFunctions b) r1).2
        (passV meet F df.allTransferFunctions (df.allTransferFunctions b) r2).2 := by
  have hentry : le (entryOf meet F (df.allTransferFunctions b) r1)
      (entryOf meet F (df.allTransferFunctions b) r2) := by
    unfold entryOf
    apply foldl_meet_mono le meet hF.meet_mono _ _ _ _ _ (hF.refl _)
    intro p
    split
    · exact hF.edge_mono b p _ _ (hr _)
    · exact hr _
  have hexit : le (exitOf meet F df.allTransferFunctions (df.allTransferFunctions b) r1)
      (exitOf meet F df.allTransferFunctions (df.allTransferFunctions b) r2) := by
    unfold exitOf
    apply foldl_meet_mono le meet hF.meet_mono _ _ _ _ _ (hF.refl _)
    intro s
    split
    · exact hF.edge_mono s _ _ _ (hr _)
    · exact hr _
  unfold passV
  split
  · exact ⟨hentry, hF.block_mono b _ _ hentry⟩
  · exact ⟨hF.block_mono b _ _ hexit, hexit⟩

theorem stepV_apply_true (meet : T → T → T) (F : Func) (df : dataFlow T)
    (r : BasicBlock × Bool → T) (b : BasicBlock) :
    stepV meet F df r b (b, true)
      = (passV meet F df.allTransferFunctions (df.allTransferFunctions b) r).1 := by
  simp [stepV]

theorem stepV_apply_false (meet : T → T → T) (F : Func) (df : dataFlow T)
    (r : BasicBlock × Bool → T) (b : BasicBlock) :
    stepV meet F df r b (b, false)
      = (passV meet F df.allTransferFunctions (df.allTransferFunctions b) r).2 := by
  simp [stepV]

theorem stepV_apply_other (meet : T → T → T) (F : Func) (df : dataFlow T)
    (r : BasicBlock × Bool → T) (b : BasicBlock) (k : BasicBlock × Bool) (hk : k.1 ≠ b) :
    stepV meet F df r b k = r k := by
  have h1 : k ≠ (b, false) := fun h => hk (by rw [h])
  have h2 : k ≠ (b, true) := fun h => hk (by rw [h])
  simp [stepV, h1, h2]

/-- Storing the pass of a node of `l` on a pre-fixed point raises the view and
leaves it a pre-fixed point. -/
theorem stepV_ascending (le : T → T → Prop) (meet : T → T → T) (F : Func) (df : dataFlow T)
    (hF : MonotoneFramework le meet df) (l : List BasicBlock) (r : BasicBlock × Bool → T)
    (hpre : IsPreFixedPoint le meet F df l r) (b : BasicBlock) (hb : b ∈ l) :
    (∀ k, le (r k) (stepV meet F df r b k))
      ∧ IsPreFixedPoint le meet F df l (stepV meet F df r b) := by
  have hasc : ∀ k, le (r k) (stepV meet F df r b k) := by
    rintro ⟨n, side⟩
    by_cases hn : n = b
    · subst hn
      cases side
      · rw [stepV_apply_false]; exact (hpre n hb).2
      · rw [stepV_apply_true]; exact (hpre n hb).1
    · rw [stepV_apply_other meet F df r b (n, side) hn]
      exact hF.refl _
  refine ⟨hasc, ?_⟩
  intro c hc
  obtain ⟨m1, m2⟩ := passV_mono le meet F df hF c r (stepV meet F df r b) hasc
  by_cases hcb : c = b
  · subst hcb
    rw [stepV_apply_true, stepV_apply_false]
    exact ⟨m1, m2⟩
  · rw [stepV_apply_other meet F df r b (c, true) hcb,
      stepV_apply_other meet F df r b (c, false) hcb]
    exact ⟨hF.trans _ _ _ (hpre c hc).1 m1, hF.trans _ _ _ (hpre c hc).2 m2⟩

/-- A sweep over nodes of `l` raises a pre-fixed point and leaves it one. -/
theorem sweepV_ascending (le : T → T → Prop) (meet : T → T → T) (F : Func) (df : dataFlow T)
    (hF : MonotoneFramework le meet df) (l : List BasicBlock) (l1 : List BasicBlock)
    (hl : ∀ b ∈ l1, b ∈ l) (r : BasicBlock × Bool → T)
    (hpre : IsPreFixedPoint le meet F df l r) :
    (∀ k, le (r k) (sweepV meet F df l1 r k))
      ∧ IsPreFixedPoint le meet F df l (sweepV meet F df l1 r) := by
  induction l1 generalizing r with
  | nil => exact ⟨fun k => hF.refl _, hpre⟩
  | cons b t ih =>
    obtain ⟨s1, s2⟩ := stepV_ascending le meet F df hF l r hpre b (hl b (List.mem_cons_self _ _))
    obtain ⟨i1, i2⟩ := ih (fun c hc => hl c (List.mem_cons_of_mem _ hc)) (stepV meet F df r b) s2
    exact ⟨fun k => hF.trans _ _ _ (s1 k) (i1 k), i2⟩

/-- A sweep that leaves a pre-fixed point unchanged started from a fixed point. -/
theorem isFixedPoint_of_sweepV_eq (le : T → T → Prop) (meet : T → T → T) (F : Func)
    (df : dataFlow T) (hF : MonotoneFramework le meet df) (l : List BasicBlock)
    (l1 : List BasicBlock) (hl : ∀ b ∈ l1, b ∈ l) (r : BasicBlock × Bool → T)
    (hpre : IsPreFixedPoint le meet F df l r) (heq : ∀ k, sweepV meet F df l1 r k = r k) :
    IsFixedPoint meet F df l1 r := by
  induction l1 with
  | nil => intro b hb; cases hb
  | cons b t ih =>
    obtain ⟨s1, s2⟩ := stepV_ascending le meet F df hF l r hpre b (hl b (List.mem_cons_self _ _))
    obtain ⟨i1, -⟩ := sweepV_ascending le meet F df hF l t
      (fun c hc => hl c (List.mem_cons_of_mem _ hc)) (stepV meet F df r b) s2
    have hstep : stepV meet F df r b = r := by
      funext k
      apply hF.antisymm
      · have := i1 k
        have e : sweepV meet F df t (stepV meet F df r b) k = r k := heq k
        rw [e] at this
        exact this
      · exact s1 k
    have hb : passV meet F df.allTransferFunctions (df.allTransferFunctions b) r
        = (r (b, true), r (b, false)) := by
      apply Prod.ext
      · rw [← stepV_apply_true, hstep]
      · rw [← stepV_apply_false, hstep]
    have ht : IsFixedPoint meet F df t r := by
      apply ih (fun c hc => hl c (List.mem_cons_of_mem _ hc))
      intro k
      have e : sweepV meet F df t (stepV meet F df r b) k = r k := heq k
      rw [hstep] at e
      exact e
    intro c hc
    rcases List.mem_cons.mp hc with h | h
    · subst h; exact hb
    · exact ht c h

theorem sweepV_apply_other (meet : T → T → T) (F : Func) (df : dataFlow T)
    (l : List BasicBlock) (r : BasicBlock × Bool → T) (k : BasicBlock × Bool)
    (hk : k.1 ∉ l) : sweepV meet F df l r k = r k := by
  induction l generalizing r with
  | nil => rfl
  | cons b t ih =>
    simp only [List.mem_cons, not_or] at hk
    have e : sweepV meet F df (b :: t) r k = sweepV meet F df t (stepV meet F df r b) k := rfl
    rw [e, ih _ hk.2, stepV_apply_other meet F df r b k hk.1]

theorem potential_le (h : T → Nat) (H : Nat) (hH : ∀ a, h a ≤ H) (l : List BasicBlock)
    (r : BasicBlock × Bool → T) : potential h l r ≤ 2 * l.length * H := by
  unfold potential
  calc ∑ k ∈ nodeKeys l, h (r k) ≤ ∑ _k ∈ nodeKeys l, H :=
        Finset.sum_le_sum (fun k _ => hH (r k))
    _ = (nodeKeys l).card * H := by rw [Finset.sum_const, smul_eq_mul]
    _ ≤ 2 * l.length * H := by
        apply Nat.mul_le_mul_right
        unfold nodeKeys
        rw [Finset.card_product, Finset.card_univ, Fintype.card_bool, Nat.mul_comm]
        exact Nat.mul_le_mul_left 2 (List.toFinset_card_le l)

/-- A sweep from a pre-fixed point that is not a fixed point raises the
potential of the view. -/
theorem potential_lt (le : T → T → Prop) (meet : T → T → T) (F : Func) (df : dataFlow T)
    (hF : MonotoneFramework le meet df) (h : T → Nat) (H : Nat) (hh : FiniteHeight le h H)
    (l : List BasicBlock) (r : BasicBlock × Bool → T)
    (hpre : IsPreFixedPoint le meet F df l r) (hnot : ¬ IsFixedPoint meet F df l r) :
    potential h l r < potential h l (sweepV meet F df l r) := by
  obtain ⟨hasc, -⟩ := sweepV_ascending le meet F df hF l l (fun _ hb => hb) r hpre
  have hmono : ∀ k, h (r k) ≤ h (sweepV meet F df l r k) := by
    intro k
    by_cases e : r k = sweepV meet F df l r k
    · rw [← e]
    · exact Nat.le_of_lt (hh.strict _ _ (hasc k) e)
  have hex : ∃ k, sweepV meet F df l r k ≠ r k := by
    by_contra hcon
    apply hnot
    apply isFixedPoint_of_sweepV_eq le meet F df hF l l (fun _ hb => hb) r hpre
    intro k
    by_contra hk
    exact hcon ⟨k, hk⟩
  obtain ⟨k, hk⟩ := hex
  have hkl : k.1 ∈ l := by
    by_contra hkl
    exact hk (sweepV_apply_other meet F df l r k hkl)
  unfold potential
  apply Finset.sum_lt_sum (fun i _ => hmono i)
  refine ⟨k, ?_, hh.strict _ _ (hasc k) (fun e => hk e.symm)⟩
  unfold nodeKeys
  rw [Finset.mem_product]
  exact ⟨List.mem_toFinset.mpr hkl, Finset.mem_univ _⟩

/-- From a pre-fixed point whose potential is within `n` of its bound, the
loop on views returns within `n + 1` sweeps. -/
theorem loopV_terminates [DecidableEq T] (le : T → T → Prop) (meet : T → T → T) (F : Func)
    (df : dataFlow T) (hF : MonotoneFramework le meet df) (h : T → Nat) (H : Nat)
    (hh : FiniteHeight le h H) (n : Nat) (r : BasicBlock × Bool → T)
    (hpre : IsPreFixedPoint le meet F df F.basicBlockList r)
    (hn : 2 * F.basicBlockList.length * H ≤ potential h F.basicBlockList r + n) :
    ∃ fuel r1, fuel ≤ n + 1 ∧ loopV meet F df fuel r = some r1 := by
  induction n generalizing r with
  | zero =>
    have hfix : IsFixedPoint meet F df F.basicBlockList r := by
      by_contra hnot
      have hlt := potential_lt le meet F df hF h H hh F.basicBlockList r hpre hnot
      have hle := potential_le h H hh.bounded F.basicBlockList
        (sweepV meet F df F.basicBlockList r)
      omega
    refine ⟨1, sweepV meet F df F.basicBlockList r, Nat.le_refl _, ?_⟩
    unfold loopV
    rw [(modifiedV_eq_false_iff meet F df F.basicBlockList r).mpr hfix]
    simp
  | succ n ih =>
    by_cases hfix : IsFixedPoint meet F df F.basicBlockList r
    · refine ⟨1, sweepV meet F df F.basicBlockList r, by omega, ?_⟩
      unfold loopV
      rw [(modifiedV_eq_false_iff meet F df F.basicBlockList r).mpr hfix]
      simp
    · have hlt := potential_lt le meet F df hF h H hh F.basicBlockList r hpre hfix
      obtain ⟨-, hpre1⟩ := sweepV_ascending le meet F df hF F.basicBlockList F.basicBlockList
        (fun _ hb => hb) r hpre
      obtain ⟨fuel, r1, hfuel, hrun⟩ := ih (sweepV meet F df F.basicBlockList r) hpre1
        (by omega)
      refine ⟨fuel + 1, r1, by omega, ?_⟩
      have hmod : modifiedV meet F df F.basicBlockList r r = true := by
        cases hm : modifiedV meet F df F.basicBlockList r r
        · exact absurd ((modifiedV_eq_false_iff meet F df F.basicBlockList r).mp hm) hfix
        · rfl
      unfold loopV
      rw [hmod]
      simpa using hrun

/-- A property of views that holds initially and that storing the pass of a
node of the block list preserves holds of the view the loop returns. -/
theorem loopV_invariant [DecidableEq T] (meet : T → T → T) (F : Func) (df : dataFlow T)
    (Inv : (BasicBlock × Bool → T) → Prop)
    (hstep : ∀ r b, b ∈ F.basicBlockList → Inv r → Inv (stepV meet F df r b))
    (fuel : Nat) (r r1 : BasicBlock × Bool → T) (h0 : Inv r)
    (hrun : loopV meet F df fuel r = some r1) : Inv r1 := by
  have hsweep : ∀ (l : List BasicBlock), (∀ b ∈ l, b ∈ F.basicBlockList) →
      ∀ r, Inv r → Inv (sweepV meet F df l r) := by
    intro l
    induction l with
    | nil => intro _ r hr; exact hr
    | cons b t ih =>
      intro hl r hr
      exact ih (fun c hc => hl c (List.mem_cons_of_mem _ hc)) _
        (hstep r b (hl b (List.mem_cons_self _ _)) hr)
  induction fuel generalizing r with
  | zero => simp [loopV] at hrun
  | succ n ih =>
    unfold loopV at hrun
    split at hrun
    · exact ih _ (hsweep _ (fun _ hb => hb) r h0) hrun
    · cases hrun
      exact hsweep _ (fun _ hb => hb) r h0

theorem passV_congr_func (meet : T → T → T) (F1 F2 : Func)
    (hp : F1.predecessors = F2.predecessors) (hs : F1.successors = F2.successors)
    (all : BasicBlock → transferFunction T) (tf : transferFunction T)
    (r : BasicBlock × Bool → T) : passV meet F1 all tf r = passV meet F2 all tf r := by
  unfold passV entryOf exitOf
  rw [hp, hs]

theorem passKeys_congr_func (F1 F2 : Func)
    (hp : F1.predecessors = F2.predecessors) (hs : F1.successors = F2.successors)
    (tf : transferFunction T) : passKeys F1 tf = passKeys F2 tf := by
  unfold passKeys
  rw [hp, hs]

theorem mem_sweepKeys_congr (F1 F2 : Func) (df : dataFlow T)
    (hp : F1.predecessors = F2.predecessors) (hs : F1.successors = F2.successors)
    (l1 l2 : List BasicBlock) (hl : ∀ b, b ∈ l1 ↔ b ∈ l2) (k : BasicBlock × Bool) :
    k ∈ sweepKeys F1 df l1 ↔ k ∈ sweepKeys F2 df l2 := by
  unfold sweepKeys
  simp only [List.mem_flatMap, passKeys_congr_func F1 F2 hp hs]
  constructor
  · rintro ⟨b, hb, hk⟩
    exact ⟨b, (hl b).mp hb, hk⟩
  · rintro ⟨b, hb, hk⟩
    exact ⟨b, (hl b).mpr hb, hk⟩

/-- The view the loop returns from a pre-fixed point lies above it. -/
theorem loopV_above_initial [DecidableEq T] (le : T → T → Prop) (meet : T → T → T) (F : Func)
    (df : dataFlow T) (hF : MonotoneFramework le meet df) (fuel : Nat)
    (r0 r1 : BasicBlock × Bool → T)
    (hpre : IsPreFixedPoint le meet F df F.basicBlockList r0)
    (hrun : loopV meet F df fuel r0 = some r1) : ∀ k, le (r0 k) (r1 k) := by
  have hinv := loopV_invariant meet F df
    (fun r => IsPreFixedPoint le meet F df F.basicBlockList r ∧ ∀ k, le (r0 k) (r k))
    (fun r b hb hr => by
      obtain ⟨s1, s2⟩ := stepV_ascending le meet F df hF F.basicBlockList r hr.1 b hb
      exact ⟨s2, fun k => hF.trans _ _ _ (hr.2 k) (s1 k)⟩)
    fuel r0 r1 ⟨hpre, fun k => hF.refl _⟩ hrun
  exact hinv.2

/-- The view the loop returns lies below every fixed point that lies above
the initial view. -/
theorem loopV_below_fixed [DecidableEq T] (le : T → T → Prop) (meet : T → T → T) (F : Func)
    (df : dataFlow T) (hF : MonotoneFramework le meet df) (fuel : Nat)
    (r0 r1 rstar : BasicBlock × Bool → T)
    (hfix : IsFixedPoint meet F df F.basicBlockList rstar)
    (h0 : ∀ k, le (r0 k) (rstar k))
    (hrun : loopV meet F df fuel r0 = some r1) : ∀ k, le (r1 k) (rstar k) := by
  refine loopV_invariant meet F df (fun r => ∀ k, le (r k) (rstar k)) ?_ fuel r0 r1 h0 hrun
  intro r b hb hr
  obtain ⟨m1, m2⟩ := passV_mono le meet F df hF b r rstar hr
  rw [hfix b hb] at m1 m2
  rintro ⟨n, side⟩
  by_cases hn : n = b
  · subst hn
    cases side
    · rw [stepV_apply_false]; exact m2
    · rw [stepV_apply_true]; exact m1
  · rw [stepV_apply_other meet F df r b (n, side) hn]
    exact hr _

end MonotoneLemmas

/-! ## The per-node pass -/

section PassTheorems

variable {T : Type} [Inhabited T]

/-- C2: `forward_pass` returns (entry, exit) where entry is the meet, starting
from `top`, over the predecessors `p` of the node of `current[(p, exit)]` when
the node has no merge operations and of `transferMap[p](current[(p, exit)])`
when it has, and exit is `blockTransferFunction(entry)`. -/
theorem forward_pass_meet_over_predecessors (meet : T → T → T) (F : Func)
    (tf : transferFunction T) (current : BoundaryMap T) :
    (tf.has_phi_nodes = false →
        (forward_pass meet F tf current).1.1
          = (F.predecessors tf.basic_block).foldl
              (fun acc p => meet acc (current.rd (p, false))) tf.top)
    ∧ (tf.has_phi_nodes = true →
        (forward_pass meet F tf current).1.1
          = (F.predecessors tf.basic_block).foldl
              (fun acc p => meet acc (tf.transferMap p (current.rd (p, false)))) tf.top)
    ∧ (forward_pass meet F tf current).1.2
        = tf.blockTransferFunction (forward_pass meet F tf current).1.1 := by
  obtain ⟨h1, -, -⟩ := forward_pass_view meet F tf current
  rw [h1]
  refine ⟨?_, ?_, rfl⟩
  · intro hphi
    simp [entryOf, hphi]
  · intro hphi
    simp [entryOf, hphi]

/-- C3: `backward_pass` returns (entry, exit) where exit is the meet, starting
from `top`, over the successors `s` of the node of the contribution of `s`
(the edge function of `s` keyed by this node applied to `current[(s, entry)]`
when `s` has merge operations, `current[(s, entry)]` otherwise), and entry is
`blockTransferFunction(exit)`. -/
theorem backward_pass_meet_over_successors (meet : T → T → T) (F : Func)
    (all : BasicBlock → transferFunction T) (tf : transferFunction T)
    (current : BoundaryMap T) :
    (backward_pass meet F all tf current).1.2
        = (F.successors tf.basic_block).foldl
            (fun acc s => meet acc
              (if (all s).has_phi_nodes = true then
                (all s).transferMap tf.basic_block (current.rd (s, true))
              else current.rd (s, true)))
            tf.top
    ∧ (backward_pass meet F all tf current).1.1
        = tf.blockTransferFunction (backward_pass meet F all tf current).1.2 := by
  obtain ⟨h1, -, -⟩ := backward_pass_view meet F all tf current
  rw [h1]
  exact ⟨rfl, rfl⟩

/-- C4: whatever the boundary map holds, `pass` gives a forward node without
predecessors entry = `top` and exit = `blockTransferFunction(top)`, and a
backward node without successors exit = `top` and entry =
`blockTransferFunction(top)`. -/
theorem pass_of_no_neighbours (meet : T → T → T) (F : Func)
    (all : BasicBlock → transferFunction T) (tf : transferFunction T)
    (current : BoundaryMap T) :
    (tf.is_forward = true → F.predecessors tf.basic_block = [] →
        (pass meet F all tf current).1 = (tf.top, tf.blockTransferFunction tf.top))
    ∧ (tf.is_forward = false → F.successors tf.basic_block = [] →
        (pass meet F all tf current).1 = (tf.blockTransferFunction tf.top, tf.top)) := by
  obtain ⟨h1, -, -⟩ := pass_view meet F all tf current
  rw [h1]
  constructor
  · intro hf hp
    simp [passV, entryOf, hf, hp]
  · intro hf hs
    simp [passV, exitOf, hf, hs]

/-- C7 (as amended): a read of a missing (node, side) pair does not fail. The
pass returns the pair it returns on the map in which every missing key holds
the default-constructed value, every key the pass reads that was missing is
present afterwards with that default value, and `run_dataflow` returns what it
returns on the map seeded that way. -/
theorem pass_reads_default_for_missing [DecidableEq T] (meet : T → T → T) (F : Func)
    (df : dataFlow T) (tf : transferFunction T) (current : BoundaryMap T) (fuel : Nat) :
    (pass meet F df.allTransferFunctions tf current).1
        = (pass meet F df.allTransferFunctions tf
            (fun k => some ((current k).getD default))).1
    ∧ (∀ k ∈ passKeys F tf, current k = none →
        (pass meet F df.allTransferFunctions tf current).2 k = some default)
    ∧ (run_dataflow meet F df fuel current).map BoundaryMap.rd
        = (run_dataflow meet F df fuel (fun k => some ((current k).getD default))).map
            BoundaryMap.rd := by
  have hseed : BoundaryMap.rd (fun k => some ((current k).getD default)) = current.rd := by
    funext k
    simp [rd_eq_getD]
  refine ⟨?_, ?_, ?_⟩
  · rw [(pass_view meet F df.allTransferFunctions tf current).1,
      (pass_view meet F df.allTransferFunctions tf _).1, hseed]
  · intro k hk hnone
    obtain ⟨-, h2, h3⟩ := pass_view meet F df.allTransferFunctions tf current
    have hs : ((pass meet F df.allTransferFunctions tf current).2 k).isSome = true := by
      rw [h3]
      simp [hk]
    rw [eq_some_rd_of_isSome _ _ hs, h2, rd_of_eq_none _ _ hnone]
  · rw [(run_dataflow_view meet F df fuel current).1, (run_dataflow_view meet F df fuel _).1,
      hseed]

end PassTheorems

/-! ## The fixed-point engine -/

section EngineTheorems

variable {T : Type} [Inhabited T] [DecidableEq T]

/-- C1: whenever `run_dataflow` returns, the map it leaves in `previous` is a
fixed point: for every node `b` of the block list, the pass of `b` on the
returned map yields exactly the pair the map holds under `(b, entry)` and
`(b, exit)`. -/
theorem run_dataflow_fixed_point (meet : T → T → T) (F : Func) (df : dataFlow T)
    (fuel : Nat) (previous m : BoundaryMap T)
    (h : run_dataflow meet F df fuel previous = some m) :
    ∀ b ∈ F.basicBlockList,
      m (b, true)
          = some (pass meet F df.allTransferFunctions (df.allTransferFunctions b) m).1.1
        ∧ m (b, false)
          = some (pass meet F df.allTransferFunctions (df.allTransferFunctions b) m).1.2 := by
  intro b hb
  obtain ⟨hv, hdom⟩ := run_dataflow_view meet F df fuel previous
  rw [h, Option.map_some'] at hv
  have hfix := loopV_fixed meet F df fuel previous.rd m.rd hv.symm b hb
  rw [(pass_view meet F df.allTransferFunctions (df.allTransferFunctions b) m).1, hfix]
  have hin : (m (b, true)).isSome = true := by
    rw [hdom m h]
    have : ((b, true) : BasicBlock × Bool) ∈ sweepKeys F df F.basicBlockList := by
      simp only [sweepKeys, List.mem_flatMap]
      exact ⟨b, hb, List.mem_cons_self _ _⟩
    simp [this]
  have hout : (m (b, false)).isSome = true := by
    rw [hdom m h]
    have : ((b, false) : BasicBlock × Bool) ∈ sweepKeys F df F.basicBlockList := by
      simp only [sweepKeys, List.mem_flatMap]
      exact ⟨b, hb, List.mem_cons_of_mem _ (List.mem_cons_self _ _)⟩
    simp [this]
  exact ⟨eq_some_rd_of_isSome m _ hin, eq_some_rd_of_isSome m _ hout⟩

end EngineTheorems

/-- Witness of C1 on the two-node liveness program. -/
theorem run_dataflow_fixed_point_witness :
    ∃ m, Liveness.runOnFunction Examples.liveAB 3 = some m
      ∧ ∀ b ∈ Examples.liveAB.basicBlockList,
        m (b, true)
            = some (pass Liveness.meet Examples.liveAB
                (Liveness.LivenessDFA Examples.liveAB).allTransferFunctions
                ((Liveness.LivenessDFA Examples.liveAB).allTransferFunctions b) m).1.1
          ∧ m (b, false)
            = some (pass Liveness.meet Examples.liveAB
                (Liveness.LivenessDFA Examples.liveAB).allTransferFunctions
                ((Liveness.LivenessDFA Examples.liveAB).allTransferFunctions b) m).1.2 := by
  have hs : (Liveness.runOnFunction Examples.liveAB 3).isSome = true := by decide
  obtain ⟨m, hm⟩ := Option.isSome_iff_exists.mp hs
  exact ⟨m, hm, run_dataflow_fixed_point Liveness.meet Examples.liveAB
    (Liveness.LivenessDFA Examples.liveAB) 3 (Liveness.initialMap Examples.liveAB) m hm⟩

/-- C7 (counterexample): on the empty boundary map the pass of node A of the
two-node liveness program reads the missing pair (B, entry); it does not fail
but returns a pair computed from the default-constructed set, the key is
present afterwards with that default, and `run_dataflow` returns a map. -/
theorem pass_substitutes_default_counterexample :
    (1, true) ∈ passKeys Examples.liveAB
        ((Liveness.LivenessDFA Examples.liveAB).allTransferFunctions 0)
    ∧ (pass Liveness.meet Examples.liveAB
        (Liveness.LivenessDFA Examples.liveAB).allTransferFunctions
        ((Liveness.LivenessDFA Examples.liveAB).allTransferFunctions 0) (fun _ => none)).2
          (1, true) = some ∅
    ∧ (pass Liveness.meet Examples.liveAB
        (Liveness.LivenessDFA Examples.liveAB).allTransferFunctions
        ((Liveness.LivenessDFA Examples.liveAB).allTransferFunctions 0) (fun _ => none)).1
          = (∅, ∅)
    ∧ (run_dataflow Liveness.meet Examples.liveAB (Liveness.LivenessDFA Examples.liveAB) 3
        (fun _ => none)).isSome = true := by
  decide

/-! ## The clients -/

/-- C8: on the two-node program (A defines `x` and falls through to B, which
uses `x` and returns), `run_dataflow` with the liveness transfer functions,
started from the all-empty map, terminates with exit(A) = {x}, entry(B) = {x}
and exit(B) = {}. -/
theorem liveness_two_node_end_to_end :
    ∃ m, Liveness.runOnFunction Examples.liveAB 3 = some m
      ∧ m (0, false) = some {Examples.opX.toValue}
      ∧ m (1, true) = some {Examples.opX.toValue}
      ∧ m (1, false) = some ∅ := by
  have hs : (Liveness.runOnFunction Examples.liveAB 3).map
      (fun m => (m (0, false), m (1, true), m (1, false)))
      = some (some {Examples.opX.toValue}, some {Examples.opX.toValue}, some ∅) := by decide
  cases hr : Liveness.runOnFunction Examples.liveAB 3 with
  | none => rw [hr] at hs; cases hs
  | some m =>
    rw [hr, Option.map_some'] at hs
    injection hs with hs
    injection hs with h1 hs
    injection hs with h2 h3
    exact ⟨m, rfl, h1, h2, h3⟩

namespace Reaching

/-- The inner loop records, for the operation at position `i` of a node whose
operations are pairwise distinct, the set it started from together with the
operations before position `i`; it leaves the other records alone. -/
theorem propagateBlock_spec (insts : List Instruction) (hnd : insts.Nodup)
    (m : InstructionMap) (current : valueType) :
    (∀ i inst, insts[i]? = some inst →
        (propagateBlock insts m current).1 inst = some (current ∪ (insts.take i).toFinset))
    ∧ (∀ inst, inst ∉ insts → (propagateBlock insts m current).1 inst = m inst) := by
  induction insts generalizing m current with
  | nil => simp [propagateBlock]
  | cons x xs ih =>
    obtain ⟨hx, hxs⟩ := List.nodup_cons.mp hnd
    obtain ⟨ih1, ih2⟩ := ih hxs (m.assign x current) (insert x current)
    have hstep : propagateBlock (x :: xs) m current
        = propagateBlock xs (m.assign x current) (insert x current) := rfl
    rw [hstep]
    constructor
    · intro i inst hi
      cases i with
      | zero =>
        simp only [List.getElem?_cons_zero, Option.some.injEq] at hi
        subst hi
        rw [ih2 x hx]
        simp [InstructionMap.assign]
      | succ k =>
        simp only [List.getElem?_cons_succ] at hi
        rw [ih1 k inst hi]
        congr 1
        ext e
        simp only [Finset.mem_union, Finset.mem_insert, List.take_succ_cons, List.toFinset_cons]
        tauto
    · intro inst hinst
      simp only [List.mem_cons, not_or] at hinst
      rw [ih2 inst hinst.2]
      simp [InstructionMap.assign, hinst.1]

/-- The outer loop of `propagate_to_instructions`, from any record map `m`
and any copy `fp1` that reads as `fp`. -/
theorem propagate_fold_spec (F : Func) (fp : BoundaryMap valueType) (bs : List BasicBlock)
    (hnd : (bs.flatMap F.instructions).Nodup) (m : InstructionMap)
    (fp1 : BoundaryMap valueType) (hfp : ∀ k, fp1.rd k = fp.rd k) :
    (∀ bb ∈ bs, ∀ i inst, (F.instructions bb)[i]? = some inst →
        (bs.foldl
          (fun (st : InstructionMap × BoundaryMap valueType) bb =>
            ((propagateBlock (F.instructions bb) st.1 (st.2.index (bb, true)).1).1,
              (st.2.index (bb, true)).2))
          (m, fp1)).1 inst
          = some (fp.rd (bb, true) ∪ ((F.instructions bb).take i).toFinset))
    ∧ (∀ inst, inst ∉ bs.flatMap F.instructions →
        (bs.foldl
          (fun (st : InstructionMap × BoundaryMap valueType) bb =>
            ((propagateBlock (F.instructions bb) st.1 (st.2.index (bb, true)).1).1,
              (st.2.index (bb, true)).2))
          (m, fp1)).1 inst = m inst) := by
  induction bs generalizing m fp1 with
  | nil => simp
  | cons b rest ih =>
    rw [List.flatMap_cons, List.nodup_append] at hnd
    obtain ⟨hb, hrest, hdisj⟩ := hnd
    obtain ⟨ih1, ih2⟩ := ih hrest
      (propagateBlock (F.instructions b) m (fp1.index (b, true)).1).1
      (fp1.index (b, true)).2 (fun k => by rw [rd_index_snd, hfp])
    obtain ⟨pb1, pb2⟩ := propagateBlock_spec (F.instructions b) hb m (fp1.index (b, true)).1
    simp only [List.foldl_cons]
    constructor
    · intro bb hbb i inst hi
      have hmem : inst ∈ F.instructions bb := List.getElem?_mem hi
      by_cases hin : inst ∈ F.instructions b
      · have hnotrest : inst ∉ rest.flatMap F.instructions := fun h => hdisj hin h
        have hbbeq : bb = b := by
          rcases List.mem_cons.mp hbb with h | h
          · exact h
          · exact absurd (List.mem_flatMap.mpr ⟨bb, h, hmem⟩) hnotrest
        subst hbbeq
        rw [ih2 inst hnotrest, pb1 i inst hi, index_fst, hfp]
      · have hbbrest : bb ∈ rest := by
          rcases List.mem_cons.mp hbb with h | h
          · subst h; exact absurd hmem hin
          · exact h
        exact ih1 bb hbbrest i inst hi
    · intro inst hinst
      simp only [List.flatMap_cons, List.mem_append, not_or] at hinst
      rw [ih2 inst hinst.2, pb2 inst hinst.1]

theorem subset_blockTransferFunction_aux (insts : List Instruction) (inp : valueType) :
    inp ⊆ insts.foldl (fun out inst => if inst.ty ≠ Ty.void then insert inst out else out) inp
    ∧ ∀ e ∈ insts, e.ty ≠ Ty.void →
        e ∈ insts.foldl (fun out inst => if inst.ty ≠ Ty.void then insert inst out else out)
          inp := by
  induction insts generalizing inp with
  | nil => simp
  | cons x xs ih =>
    simp only [List.foldl_cons]
    obtain ⟨ih1, ih2⟩ := ih (if x.ty ≠ Ty.void then insert x inp else inp)
    constructor
    · refine Finset.Subset.trans ?_ ih1
      split
      · exact Finset.subset_insert _ _
      · exact Finset.Subset.refl _
    · intro e he hty
      rcases List.mem_cons.mp he with h | h
      · subst h
        apply ih1
        simp [hty]
      · exact ih2 e h hty

/-- C9: reaching definitions are kill-free at operation level. In a function
whose operations are pairwise distinct, the set `propagate_to_instructions`
records for the operation at position `i` of a node contains the node's entry
set and every operation at a position before `i`; and the node transfer
function keeps its argument and adds every value-defining operation. -/
theorem propagate_to_instructions_kill_free (F : Func) (bbFixedPoint : BoundaryMap valueType)
    (hnd : (F.basicBlockList.flatMap F.instructions).Nodup)
    (bb : BasicBlock) (hbb : bb ∈ F.basicBlockList) (i : Nat) (inst : Instruction)
    (hi : (F.instructions bb)[i]? = some inst) :
    (∃ s, propagate_to_instructions F bbFixedPoint inst = some s
      ∧ bbFixedPoint.rd (bb, true) ⊆ s
      ∧ ∀ j e, j < i → (F.instructions bb)[j]? = some e → e ∈ s)
    ∧ bbFixedPoint.rd (bb, true) ⊆ blockTransferFunction F bb (bbFixedPoint.rd (bb, true))
    ∧ ∀ e ∈ F.instructions bb, e.ty ≠ Ty.void →
        e ∈ blockTransferFunction F bb (bbFixedPoint.rd (bb, true)) := by
  obtain ⟨h1, -⟩ := propagate_fold_spec F bbFixedPoint F.basicBlockList hnd (fun _ => none)
    bbFixedPoint (fun _ => rfl)
  obtain ⟨b1, b2⟩ := subset_blockTransferFunction_aux (F.instructions bb)
    (bbFixedPoint.rd (bb, true))
  refine ⟨⟨_, h1 bb hbb i inst hi, Finset.subset_union_left, ?_⟩, b1, b2⟩
  intro j e hj he
  apply Finset.mem_union_right
  rw [List.mem_toFinset, List.mem_take_iff_getElem]
  have hjlen : j < (F.instructions bb).length := by
    by_contra hcon
    rw [List.getElem?_eq_none (Nat.le_of_not_lt hcon)] at he
    cases he
  refine ⟨j, by omega, ?_⟩
  rw [List.getElem?_eq_getElem hjlen] at he
  exact Option.some.inj he

/-- Witness of C9: in the node `y1 = ..; y2 = ..; ret`, the set recorded before
the second definition contains the first, and the set recorded after it (at
the terminator) contains both. -/
theorem propagate_to_instructions_kill_free_witness :
    ((Examples.twoDefs.basicBlockList.flatMap Examples.twoDefs.instructions).Nodup
      ∧ ∃ s, propagate_to_instructions Examples.twoDefs (initialMap Examples.twoDefs)
            Examples.op2 = some s
          ∧ (initialMap Examples.twoDefs).rd (0, true) ⊆ s
          ∧ ∀ j e, j < 1 → (Examples.twoDefs.instructions 0)[j]? = some e → e ∈ s)
    ∧ propagate_to_instructions Examples.twoDefs (initialMap Examples.twoDefs) Examples.op2
        = some {Examples.op1}
    ∧ propagate_to_instructions Examples.twoDefs (initialMap Examples.twoDefs) Examples.opRetY
        = some {Examples.op2, Examples.op1} :=
  ⟨⟨by decide,
    (propagate_to_instructions_kill_free Examples.twoDefs (initialMap Examples.twoDefs)
      (by decide) 0 (by decide) 1 Examples.op2 (by decide)).1⟩, by decide, by decide⟩

end Reaching

namespace Maypoint

/-- C10: for an allocation `S` followed by a pointer-to-pointer cast `c` of
the result of `S`, applying `instructionTransferFunction` for `S` and then for
`c` to a state in which `S` and `c` have empty points-to sets yields a state
where the points-to set of `c` is exactly {S} and that of `S` is {S}. -/
theorem alloca_then_cast_points_to (S c : Instruction) (size : Value) (inp : valueType)
    (hS : S.op = InstKind.alloca size) (hSty : S.ty = Ty.pointer)
    (hc : c.op = InstKind.bitcast S.toValue) (hcty : c.ty = Ty.pointer)
    (hid : S.id ≠ c.id)
    (hSe : inp.get S.toValue = ∅) (hce : inp.get c.toValue = ∅) :
    instructionTransferFunction c (instructionTransferFunction S inp) c.toValue
        = some {S.toValue}
    ∧ instructionTransferFunction c (instructionTransferFunction S inp) S.toValue
        = some {S.toValue} := by
  have hne : c.toValue ≠ S.toValue := by
    intro h
    apply hid
    have := congrArg Value.id h
    simpa [Instruction.toValue] using this.symm
  have hSp : S.toValue.ty = Ty.pointer := hSty
  have h1 : instructionTransferFunction S inp
      = inp.assign S.toValue (insert S.toValue (inp.get S.toValue)) := by
    unfold instructionTransferFunction
    rw [hS]
  have h2 : ∀ st : valueType, instructionTransferFunction c st
      = st.insertRange c.toValue ((st.touch c.toValue).get S.toValue) := by
    intro st
    unfold instructionTransferFunction
    rw [hc]
    simp only [hSp, hcty, and_self, if_true]
  have hce1 : (inp c.toValue).getD ∅ = ∅ := hce
  rw [h2, h1, hSe]
  constructor
  · simp [valueType.insertRange, valueType.assign, valueType.get, valueType.touch, hne,
      hne.symm, hce1]
  · simp [valueType.insertRange, valueType.assign, valueType.get, valueType.touch, hne,
      hne.symm]

/-- Witness of C10: `%S = alloca i32` followed by `%c = bitcast i32* %S to i8*`,
from the state that maps both to the empty set. -/
theorem alloca_then_cast_points_to_witness :
    instructionTransferFunction Examples.castC
        (instructionTransferFunction Examples.allocS (fun _ => some ∅)) Examples.castC.toValue
        = some {Examples.allocS.toValue}
    ∧ instructionTransferFunction Examples.castC
        (instructionTransferFunction Examples.allocS (fun _ => some ∅)) Examples.allocS.toValue
        = some {Examples.allocS.toValue} :=
  alloca_then_cast_points_to Examples.allocS Examples.castC ⟨ValueKind.other, 1, Ty.other⟩
    (fun _ => some ∅) rfl rfl rfl rfl (by decide) rfl rfl

end Maypoint

/-! ## Termination and order independence -/

section Convergence

variable {T : Type} [Inhabited T] [DecidableEq T]

/-- C5 (as amended): for a finite graph, a lattice of finite height `H`, a
monotone meet, monotone node and edge transfer functions and an initial
boundary map that is a pre-fixed point (each node's stored pair lies below the
pair its pass returns, as for the map that holds the least element
everywhere), `run_dataflow` terminates: within `2 * |nodes| * H + 1` sweeps a
sweep changes no node's entry or exit value, and the map returned is a fixed
point. -/
theorem run_dataflow_terminates (le : T → T → Prop) (meet : T → T → T) (F : Func)
    (df : dataFlow T) (h : T → Nat) (H : Nat) (m0 : BoundaryMap T)
    (hF : MonotoneFramework le meet df) (hh : FiniteHeight le h H)
    (hpre : IsPreFixedPoint le meet F df F.basicBlockList m0.rd) :
    ∃ fuel m, fuel ≤ 2 * F.basicBlockList.length * H + 1
      ∧ run_dataflow meet F df fuel m0 = some m
      ∧ IsFixedPoint meet F df F.basicBlockList m.rd := by
  obtain ⟨fuel, r1, hfuel, hrun⟩ := loopV_terminates le meet F df hF h H hh
    (2 * F.basicBlockList.length * H) m0.rd hpre (Nat.le_add_left _ _)
  obtain ⟨hv, -⟩ := run_dataflow_view meet F df fuel m0
  rw [hrun] at hv
  obtain ⟨m, hm, hmr⟩ := Option.map_eq_some'.mp hv
  refine ⟨fuel, m, hfuel, hm, ?_⟩
  rw [hmr]
  exact loopV_fixed meet F df fuel m0.rd r1 hrun

/-- Witness of C5 (as amended): the framework in which node 0 generates `true`,
on the two-node cycle, from the all-`false` map. -/
theorem run_dataflow_terminates_witness :
    ∃ fuel m, fuel ≤ 2 * (Examples.cycle [0, 1]).basicBlockList.length * 1 + 1
      ∧ run_dataflow or (Examples.cycle [0, 1]) Examples.genFlow fuel Examples.cycleBottom
          = some m
      ∧ IsFixedPoint or (Examples.cycle [0, 1]) Examples.genFlow
          (Examples.cycle [0, 1]).basicBlockList m.rd :=
  run_dataflow_terminates Examples.boolLe or (Examples.cycle [0, 1]) Examples.genFlow
    Examples.boolRank 1 Examples.cycleBottom
    { refl := by decide
      trans := by decide
      antisymm := by decide
      meet_mono := by decide
      block_mono := by
        intro n a b
        by_cases hn : n = 0 <;> cases a <;> cases b <;>
          simp [Examples.boolLe, Examples.genFlow, hn]
      edge_mono := by
        intro n p a b hab
        exact hab }
    { bounded := by decide
      strict := by decide }
    (by
      intro b hb
      have hb1 : b = 0 ∨ b = 1 := by simpa [Examples.cycle] using hb
      rcases hb1 with h | h <;> subst h <;> decide)

/-- C5 (counterexample): a single node on a self-loop, the four-element
lattice of pairs of booleans with the componentwise disjunction as meet, and
the node function that swaps the components. The framework is monotone and of
finite height, but from the map with entry `(false, false)` and exit
`(true, false)` every sweep changes the exit value: `run_dataflow` returns for
no amount of fuel. -/
theorem run_dataflow_terminates_counterexample :
    MonotoneFramework Examples.pairLe Examples.orPair Examples.swapFlow
    ∧ FiniteHeight Examples.pairLe Examples.pairRank 2
    ∧ ¬ ∃ fuel, (run_dataflow Examples.orPair Examples.selfLoop Examples.swapFlow fuel
        Examples.swapInit).isSome = true := by
  refine ⟨?_, ?_, ?_⟩
  · exact
      { refl := by decide
        trans := by decide
        antisymm := by decide
        meet_mono := by decide
        block_mono := by
          intro n
          show ∀ a b : Bool × Bool, Examples.pairLe a b → Examples.pairLe (a.2, a.1) (b.2, b.1)
          decide
        edge_mono := by
          intro n p a b hab
          exact hab }
  · exact { bounded := by decide, strict := by decide }
  · have hloop : ∀ (fuel : Nat) (r : BasicBlock × Bool → Bool × Bool),
        (r (0, false) = (true, false) ∨ r (0, false) = (false, true)) →
        loopV Examples.orPair Examples.selfLoop Examples.swapFlow fuel r = none := by
      intro fuel
      induction fuel with
      | zero => intro r _; rfl
      | succ n ih =>
        intro r hr
        have hpass : passV Examples.orPair Examples.selfLoop
            Examples.swapFlow.allTransferFunctions (Examples.swapFlow.allTransferFunctions 0) r
            = (Examples.orPair (false, false) (r (0, false)),
                ((Examples.orPair (false, false) (r (0, false))).2,
                  (Examples.orPair (false, false) (r (0, false))).1)) := rfl
        have hmod : modifiedV Examples.orPair Examples.selfLoop Examples.swapFlow
            Examples.selfLoop.basicBlockList r r = true := by
          show (changedV Examples.orPair Examples.selfLoop Examples.swapFlow r r 0 || false)
            = true
          unfold changedV
          rw [hpass]
          rcases hr with h | h <;> rw [h] <;> simp [Examples.orPair]
        have hnext : sweepV Examples.orPair Examples.selfLoop Examples.swapFlow
            Examples.selfLoop.basicBlockList r (0, false)
            = ((Examples.orPair (false, false) (r (0, false))).2,
                (Examples.orPair (false, false) (r (0, false))).1) := by
          show stepV Examples.orPair Examples.selfLoop Examples.swapFlow r 0 (0, false) = _
          rw [stepV_apply_false, hpass]
        unfold loopV
        rw [hmod, if_pos rfl]
        apply ih
        rw [hnext]
        rcases hr with h | h <;> rw [h] <;> simp [Examples.orPair]
    rintro ⟨fuel, hsome⟩
    obtain ⟨hv, -⟩ := run_dataflow_view Examples.orPair Examples.selfLoop Examples.swapFlow
      fuel Examples.swapInit
    rw [hloop fuel _ (Or.inl (by decide))] at hv
    cases hrun : run_dataflow Examples.orPair Examples.selfLoop Examples.swapFlow fuel
      Examples.swapInit with
    | none => rw [hrun] at hsome; cases hsome
    | some m => rw [hrun] at hv; cases hv

/-- C6 (as amended): on one graph enumerated in two orders, with a monotone
meet and monotone transfer functions over a partial order, and an initial map
that is a pre-fixed point (each node's stored pair lies below the pair its
pass returns, as for the map that holds the least element everywhere), two
runs of `run_dataflow` that terminate leave identical boundary maps. -/
theorem run_dataflow_order_independent (le : T → T → Prop) (meet : T → T → T)
    (F1 F2 : Func) (df : dataFlow T) (fuel1 fuel2 : Nat) (m0 m1 m2 : BoundaryMap T)
    (hp : F1.predecessors = F2.predecessors) (hs : F1.successors = F2.successors)
    (hperm : F1.basicBlockList.Perm F2.basicBlockList)
    (hF : MonotoneFramework le meet df)
    (hpre : IsPreFixedPoint le meet F1 df F1.basicBlockList m0.rd)
    (h1 : run_dataflow meet F1 df fuel1 m0 = some m1)
    (h2 : run_dataflow meet F2 df fuel2 m0 = some m2) :
    m1 = m2 := by
  have hmem : ∀ b, b ∈ F1.basicBlockList ↔ b ∈ F2.basicBlockList := fun b => hperm.mem_iff
  obtain ⟨hv1, hd1⟩ := run_dataflow_view meet F1 df fuel1 m0
  obtain ⟨hv2, hd2⟩ := run_dataflow_view meet F2 df fuel2 m0
  rw [h1, Option.map_some'] at hv1
  rw [h2, Option.map_some'] at hv2
  have fix1 := loopV_fixed meet F1 df fuel1 m0.rd m1.rd hv1.symm
  have fix2 := loopV_fixed meet F2 df fuel2 m0.rd m2.rd hv2.symm
  have fix1on2 : IsFixedPoint meet F2 df F2.basicBlockList m1.rd := by
    intro b hb
    rw [← passV_congr_func meet F1 F2 hp hs]
    exact fix1 b ((hmem b).mpr hb)
  have fix2on1 : IsFixedPoint meet F1 df F1.basicBlockList m2.rd := by
    intro b hb
    rw [passV_congr_func meet F1 F2 hp hs]
    exact fix2 b ((hmem b).mp hb)
  have hpre2 : IsPreFixedPoint le meet F2 df F2.basicBlockList m0.rd := by
    intro b hb
    rw [← passV_congr_func meet F1 F2 hp hs]
    exact hpre b ((hmem b).mpr hb)
  have up1 := loopV_above_initial le meet F1 df hF fuel1 m0.rd m1.rd hpre hv1.symm
  have up2 := loopV_above_initial le meet F2 df hF fuel2 m0.rd m2.rd hpre2 hv2.symm
  have le12 := loopV_below_fixed le meet F1 df hF fuel1 m0.rd m1.rd m2.rd fix2on1 up2 hv1.symm
  have le21 := loopV_below_fixed le meet F2 df hF fuel2 m0.rd m2.rd m1.rd fix1on2 up1 hv2.symm
  have hrd : ∀ k, m1.rd k = m2.rd k := fun k => hF.antisymm _ _ (le12 k) (le21 k)
  have hdom : ∀ k, (m1 k).isSome = (m2 k).isSome := by
    intro k
    rw [hd1 m1 h1 k, hd2 m2 h2 k]
    congr 1
    exact decide_eq_decide.mpr
      (mem_sweepKeys_congr F1 F2 df hp hs _ _ hmem k)
  funext k
  have e := hrd k
  have d := hdom k
  rw [rd_eq_getD, rd_eq_getD] at e
  cases c1 : m1 k <;> cases c2 : m2 k <;> rw [c1, c2] at e d <;> simp_all

/-- Witness of C6 (as amended): the framework in which node 0 generates
`true`, on the two-node cycle swept in the orders 0, 1 and 1, 0 from the
all-`false` map. -/
theorem run_dataflow_order_independent_witness :
    ∃ m1 m2,
      run_dataflow or (Examples.cycle [0, 1]) Examples.genFlow 3 Examples.cycleBottom = some m1
      ∧ run_dataflow or (Examples.cycle [1, 0]) Examples.genFlow 3 Examples.cycleBottom
          = some m2
      ∧ m1 (1, true) = some true
      ∧ m1 = m2 := by
  have hs1 : (run_dataflow or (Examples.cycle [0, 1]) Examples.genFlow 3
      Examples.cycleBottom).isSome = true := by decide
  have hs2 : (run_dataflow or (Examples.cycle [1, 0]) Examples.genFlow 3
      Examples.cycleBottom).isSome = true := by decide
  have hv : (run_dataflow or (Examples.cycle [0, 1]) Examples.genFlow 3
      Examples.cycleBottom).map (fun m => m (1, true)) = some (some true) := by decide
  obtain ⟨m1, e1⟩ := Option.isSome_iff_exists.mp hs1
  obtain ⟨m2, e2⟩ := Option.isSome_iff_exists.mp hs2
  rw [e1, Option.map_some'] at hv
  refine ⟨m1, m2, e1, e2, Option.some.inj hv, ?_⟩
  exact run_dataflow_order_independent Examples.boolLe or (Examples.cycle [0, 1])
    (Examples.cycle [1, 0]) Examples.genFlow 3 3 Examples.cycleBottom m1 m2 rfl rfl
    (by decide)
    { refl := by decide
      trans := by decide
      antisymm := by decide
      meet_mono := by decide
      block_mono := by
        intro n a b
        by_cases hn : n = 0 <;> cases a <;> cases b <;>
          simp [Examples.boolLe, Examples.genFlow, hn]
      edge_mono := by
        intro n p a b hab
        exact hab }
    (by
      intro b hb
      have hb1 : b = 0 ∨ b = 1 := by simpa [Examples.cycle] using hb
      rcases hb1 with h | h <;> subst h <;> decide)
    e1 e2

/-- C6 (counterexample): on the two-node cycle with identity transfer functions
and the disjunction as meet (a monotone framework), from the map in which only
exit(0) is `true`, the sweep order 0, 1 ends with every value `false` and the
sweep order 1, 0 ends with every value `true`. -/
theorem run_dataflow_order_independent_counterexample :
    MonotoneFramework Examples.boolLe or Examples.idFlow
    ∧ (run_dataflow or (Examples.cycle [0, 1]) Examples.idFlow 2 Examples.cycleInit).map
        (fun m => (m (0, true), m (0, false), m (1, true), m (1, false)))
        = some (some false, some false, some false, some false)
    ∧ (run_dataflow or (Examples.cycle [1, 0]) Examples.idFlow 2 Examples.cycleInit).map
        (fun m => (m (0, true), m (0, false), m (1, true), m (1, false)))
        = some (some true, some true, some true, some true) := by
  refine ⟨?_, by decide, by decide⟩
  exact
    { refl := by decide
      trans := by decide
      antisymm := by decide
      meet_mono := by decide
      block_mono := by
        intro n a b hab
        exact hab
      edge_mono := by
        intro n p a b hab
        exact hab }

end Convergence

/-! ## Idempotence and in-place update -/

section Idempotence

variable {T : Type} [Inhabited T] [DecidableEq T]

omit [DecidableEq T] in
/-- Two boundary maps with the same keys that read the same are equal. -/
theorem boundaryMap_ext (m1 m2 : BoundaryMap T) (hrd : ∀ k, m1.rd k = m2.rd k)
    (hdom : ∀ k, (m1 k).isSome = (m2 k).isSome) : m1 = m2 := by
  funext k
  have e := hrd k
  have d := hdom k
  rw [rd_eq_getD, rd_eq_getD] at e
  cases c1 : m1 k <;> cases c2 : m2 k <;> rw [c1, c2] at e d <;> simp_all

/-- C20: `run_dataflow` is idempotent. If `run_dataflow` terminates on an
initial map with result `m`, then `run_dataflow` on `m` terminates after a
single sweep and returns `m` unchanged. -/
theorem run_dataflow_idempotent (meet : T → T → T) (F : Func) (df : dataFlow T)
    (fuel : Nat) (m0 m : BoundaryMap T)
    (h : run_dataflow meet F df fuel m0 = some m) :
    run_dataflow meet F df 1 m = some m := by
  obtain ⟨hv, hdom⟩ := run_dataflow_view meet F df fuel m0
  rw [h, Option.map_some'] at hv
  have hfix := loopV_fixed meet F df fuel m0.rd m.rd hv.symm
  obtain ⟨s1, s2, s3⟩ := sweep_view meet F df F.basicBlockList ⟨m, m, false⟩
  have hmod : (F.basicBlockList.foldl (sweepBody meet F df) ⟨m, m, false⟩).modified = false := by
    rw [s2]
    simpa using (modifiedV_eq_false_iff meet F df F.basicBlockList m.rd).mpr hfix
  have hnext : (F.basicBlockList.foldl (sweepBody meet F df) ⟨m, m, false⟩).next = m := by
    apply boundaryMap_ext
    · intro k
      rw [s1 k]
      show sweepV meet F df F.basicBlockList m.rd k = m.rd k
      rw [sweepV_eq_self meet F df F.basicBlockList m.rd hfix]
    · intro k
      rw [s3 k]
      show ((m k).isSome || decide (k ∈ sweepKeys F df F.basicBlockList)) = (m k).isSome
      by_cases hk : k ∈ sweepKeys F df F.basicBlockList
      · have := hdom m h k
        simp only [hk, decide_True, Bool.or_true] at this
        simp [this]
      · simp [hk]
  show whileLoop meet F df 1 m m = some m
  unfold whileLoop
  simp only [hmod, hnext, Bool.false_eq_true, if_false]

/-- Witness of C20 on the two-node liveness program. -/
theorem run_dataflow_idempotent_witness :
    ∃ m, Liveness.runOnFunction Examples.liveAB 3 = some m
      ∧ run_dataflow Liveness.meet Examples.liveAB (Liveness.LivenessDFA Examples.liveAB) 1 m
        = some m := by
  have hs : (Liveness.runOnFunction Examples.liveAB 3).isSome = true := by decide
  obtain ⟨m, hm⟩ := Option.isSome_iff_exists.mp hs
  exact ⟨m, hm, run_dataflow_idempotent Liveness.meet Examples.liveAB
    (Liveness.LivenessDFA Examples.liveAB) 3 (Liveness.initialMap Examples.liveAB) m hm⟩

end Idempotence

section InPlace

variable {T : Type} [Inhabited T] [DecidableEq T]

/-- C16: within one sweep the boundary map is updated in place in node order.
Let the sweep evaluate the nodes `pre1`, then `c`, then `pre2` (without `c`),
then `b`. The pass of `b` reads the map left by the part of the sweep before
it; that map holds under `(c, entry)` and `(c, exit)` the pair the pass of `c`
returned in this sweep, and for every node not yet processed it reads as the
map the sweep started from. -/
theorem sweep_updates_in_place (meet : T → T → T) (F : Func) (df : dataFlow T)
    (st0 : SweepState T) (pre1 pre2 post : List BasicBlock) (c b : BasicBlock)
    (hc : c ∉ pre2) :
    ((pre1 ++ c :: pre2 ++ b :: post).foldl (sweepBody meet F df) st0
        = post.foldl (sweepBody meet F df)
            (sweepBody meet F df ((pre1 ++ c :: pre2).foldl (sweepBody meet F df) st0) b))
    ∧ ((pre1 ++ c :: pre2).foldl (sweepBody meet F df) st0).next (c, true)
        = some (pass meet F df.allTransferFunctions (df.allTransferFunctions c)
            (pre1.foldl (sweepBody meet F df) st0).next).1.1
    ∧ ((pre1 ++ c :: pre2).foldl (sweepBody meet F df) st0).next (c, false)
        = some (pass meet F df.allTransferFunctions (df.allTransferFunctions c)
            (pre1.foldl (sweepBody meet F df) st0).next).1.2
    ∧ ∀ d side, d ∉ pre1 ++ c :: pre2 →
        ((pre1 ++ c :: pre2).foldl (sweepBody meet F df) st0).next.rd (d, side)
          = st0.next.rd (d, side) := by
  have hsplit : (pre1 ++ c :: pre2).foldl (sweepBody meet F df) st0
      = pre2.foldl (sweepBody meet F df)
          (sweepBody meet F df (pre1.foldl (sweepBody meet F df) st0) c) := by
    rw [List.foldl_append, List.foldl_cons]
  obtain ⟨b1, -, -, b4⟩ := sweepBody_view meet F df (pre1.foldl (sweepBody meet F df) st0) c
  obtain ⟨s1, -, s3⟩ := sweep_view meet F df pre2
    (sweepBody meet F df (pre1.foldl (sweepBody meet F df) st0) c)
  obtain ⟨p1, -, -⟩ := pass_view meet F df.allTransferFunctions (df.allTransferFunctions c)
    (pre1.foldl (sweepBody meet F df) st0).next
  have hkey : ∀ side : Bool,
      ((pre1 ++ c :: pre2).foldl (sweepBody meet F df) st0).next (c, side)
        = some (stepV meet F df (pre1.foldl (sweepBody meet F df) st0).next.rd c (c, side)) := by
    intro side
    rw [hsplit]
    have hsome : ((pre2.foldl (sweepBody meet F df)
        (sweepBody meet F df (pre1.foldl (sweepBody meet F df) st0) c)).next (c, side)).isSome
        = true := by
      rw [s3, b4]
      cases side <;> simp
    rw [eq_some_rd_of_isSome _ _ hsome, s1, sweepV_apply_other meet F df pre2 _ (c, side) hc, b1]
  refine ⟨?_, ?_, ?_, ?_⟩
  · rw [List.foldl_append, List.foldl_cons]
  · rw [hkey true, stepV_apply_true, p1]
  · rw [hkey false, stepV_apply_false, p1]
  · intro d side hd
    obtain ⟨t1, -, -⟩ := sweep_view meet F df (pre1 ++ c :: pre2) st0
    rw [t1, sweepV_apply_other meet F df _ _ (d, side) hd]

/-- Witness of C16: the reaching-definitions client on the forward chain
A -> B swept in the order A, B from the all-empty map. After the first sweep
entry(B) equals the exit(A) computed in that same sweep, the set {x}. -/
theorem sweep_updates_in_place_witness :
    ((Examples.liveAB.basicBlockList.foldl
        (sweepBody Reaching.meet Examples.liveAB (Reaching.ReachingDFA Examples.liveAB))
        ⟨Reaching.initialMap Examples.liveAB, Reaching.initialMap Examples.liveAB, false⟩).next
          (1, true) = some {Examples.opX})
    ∧ (([] ++ 0 :: [] : List BasicBlock).foldl
        (sweepBody Reaching.meet Examples.liveAB (Reaching.ReachingDFA Examples.liveAB))
        ⟨Reaching.initialMap Examples.liveAB, Reaching.initialMap Examples.liveAB, false⟩).next
          (0, false)
        = some (pass Reaching.meet Examples.liveAB
            (Reaching.ReachingDFA Examples.liveAB).allTransferFunctions
            ((Reaching.ReachingDFA Examples.liveAB).allTransferFunctions 0)
            (([] : List BasicBlock).foldl
              (sweepBody Reaching.meet Examples.liveAB (Reaching.ReachingDFA Examples.liveAB))
              ⟨Reaching.initialMap Examples.liveAB, Reaching.initialMap Examples.liveAB,
                false⟩).next).1.2
    ∧ (pass Reaching.meet Examples.liveAB
        (Reaching.ReachingDFA Examples.liveAB).allTransferFunctions
        ((Reaching.ReachingDFA Examples.liveAB).allTransferFunctions 0)
        (Reaching.initialMap Examples.liveAB)).1.2 = {Examples.opX} :=
  ⟨by decide,
    (sweep_updates_in_place Reaching.meet Examples.liveAB (Reaching.ReachingDFA Examples.liveAB)
      ⟨Reaching.initialMap Examples.liveAB, Reaching.initialMap Examples.liveAB, false⟩
      [] [] [] 0 1 (by decide)).2.2.1,
    by decide⟩

end InPlace

/-! ## The client lattices -/

/-- C13: the meet `operator ^` of each client lattice (the liveness set of
values, the reaching set of operations, the points-to map) is commutative,
associative and idempotent for the container equality. -/
theorem meet_semilattice :
    (∀ a b c : Liveness.valueType,
      Liveness.meet a b = Liveness.meet b a
      ∧ Liveness.meet a (Liveness.meet b c) = Liveness.meet (Liveness.meet a b) c
      ∧ Liveness.meet a a = a)
    ∧ (∀ a b c : Reaching.valueType,
      Reaching.meet a b = Reaching.meet b a
      ∧ Reaching.meet a (Reaching.meet b c) = Reaching.meet (Reaching.meet a b) c
      ∧ Reaching.meet a a = a)
    ∧ (∀ a b c : Maypoint.valueType,
      Maypoint.meet a b = Maypoint.meet b a
      ∧ Maypoint.meet a (Maypoint.meet b c) = Maypoint.meet (Maypoint.meet a b) c
      ∧ Maypoint.meet a a = a) := by
  refine ⟨?_, ?_, ?_⟩
  · intro a b c
    refine ⟨?_, ?_, ?_⟩
    · exact Finset.union_comm b a
    · show (c ∪ b) ∪ a = c ∪ (b ∪ a)
      exact Finset.union_assoc c b a
    · exact Finset.union_self a
  · intro a b c
    refine ⟨?_, ?_, ?_⟩
    · exact Finset.union_comm b a
    · show (c ∪ b) ∪ a = c ∪ (b ∪ a)
      exact Finset.union_assoc c b a
    · exact Finset.union_self a
  · intro a b c
    refine ⟨?_, ?_, ?_⟩
    · funext k
      unfold Maypoint.meet
      cases a k <;> cases b k <;> simp [Finset.union_comm]
    · funext k
      unfold Maypoint.meet
      cases a k <;> cases b k <;> cases c k <;> simp [Finset.union_assoc]
    · funext k
      unfold Maypoint.meet
      cases a k <;> simp

namespace Maypoint

theorem foldl_assign_empty {α : Type} (f : α → Value) (l : List α) (m : valueType) (k : Value) :
    (l.foldl (fun m x => m.assign (f x) ∅) m) k = if k ∈ l.map f then some ∅ else m k := by
  induction l generalizing m with
  | nil => simp
  | cons x xs ih =>
    simp only [List.foldl_cons, ih, List.map_cons, List.mem_cons]
    by_cases h1 : k ∈ xs.map f
    · simp [h1]
    · by_cases h2 : k = f x
      · simp [h1, h2, valueType.assign]
      · simp [h1, h2, valueType.assign]

/-- The member `top` of `mayPoint`: the empty set under every argument and
every operation of the function, and no other entry. -/
theorem top_apply (F : Func) (k : Value) :
    (mayPoint F).top k
      = if k ∈ F.args ∨ k ∈ (F.basicBlockList.flatMap F.instructions).map Instruction.toValue
        then some ∅ else none := by
  show init F (fun _ => none) k = _
  unfold init
  rw [foldl_assign_empty Instruction.toValue, foldl_assign_empty (fun v : Value => v)]
  by_cases h1 : k ∈ (F.basicBlockList.flatMap F.instructions).map Instruction.toValue
  · simp [h1]
  · by_cases h2 : k ∈ F.args
    · simp [h1, h2]
    · simp [h1, h2]

/-- C14 (as amended): for every points-to map `a` that holds an entry for
every argument and every operation of the function, `top ^ a = a`, where `top`
is the member that the `mayPoint` constructor initialises with `init(F)`; and
for every map `a1` whatsoever, `top ^ a1` reads as `a1` under every key, holds
an empty entry under each argument and each operation of the function that
`a1` lacks, and holds exactly the entry of `a1` under every other key. -/
theorem top_meet_eq_of_seeded (F : Func) (a : valueType)
    (ha : ∀ k, k ∈ F.args
        ∨ k ∈ (F.basicBlockList.flatMap F.instructions).map Instruction.toValue →
      (a k).isSome = true) :
    meet (mayPoint F).top a = a
    ∧ (∀ (a1 : valueType) (k : Value), (meet (mayPoint F).top a1).get k = a1.get k)
    ∧ (∀ (a1 : valueType) (k : Value),
        (k ∈ F.args
          ∨ k ∈ (F.basicBlockList.flatMap F.instructions).map Instruction.toValue) →
        a1 k = none → meet (mayPoint F).top a1 k = some ∅)
    ∧ (∀ (a1 : valueType) (k : Value),
        ((a1 k).isSome = true
          ∨ ¬ (k ∈ F.args
            ∨ k ∈ (F.basicBlockList.flatMap F.instructions).map Instruction.toValue)) →
        meet (mayPoint F).top a1 k = a1 k) := by
  have hfull : ∀ (a1 : valueType) (k : Value),
      ((a1 k).isSome = true
        ∨ ¬ (k ∈ F.args
          ∨ k ∈ (F.basicBlockList.flatMap F.instructions).map Instruction.toValue)) →
      meet (mayPoint F).top a1 k = a1 k := by
    intro a1 k hk
    unfold meet
    rw [top_apply]
    by_cases h : k ∈ F.args
        ∨ k ∈ (F.basicBlockList.flatMap F.instructions).map Instruction.toValue
    · rw [if_pos h]
      rcases hk with hk | hk
      · cases hak : a1 k with
        | none => rw [hak] at hk; cases hk
        | some w => simp
      · exact absurd h hk
    · rw [if_neg h]
  refine ⟨?_, ?_, ?_, hfull⟩
  · funext k
    by_cases h : k ∈ F.args
        ∨ k ∈ (F.basicBlockList.flatMap F.instructions).map Instruction.toValue
    · exact hfull a k (Or.inl (ha k h))
    · exact hfull a k (Or.inr h)
  · intro a1 k
    unfold valueType.get meet
    rw [top_apply]
    by_cases h : k ∈ F.args
        ∨ k ∈ (F.basicBlockList.flatMap F.instructions).map Instruction.toValue
    · rw [if_pos h]
      cases a1 k <;> simp
    · rw [if_neg h]
  · intro a1 k h hk
    unfold meet
    rw [top_apply, if_pos h, hk]

/-- Witness of C14 (as amended): the function with two definitions of `y`,
and the map that holds {x} under every key. -/
theorem top_meet_eq_of_seeded_witness :
    meet (mayPoint Examples.twoDefs).top (fun _ => some {Examples.opX.toValue})
        = (fun _ => some {Examples.opX.toValue})
    ∧ (∀ (a1 : valueType) (k : Value),
        (meet (mayPoint Examples.twoDefs).top a1).get k = a1.get k)
    ∧ (∀ (a1 : valueType) (k : Value),
        (k ∈ Examples.twoDefs.args
          ∨ k ∈ (Examples.twoDefs.basicBlockList.flatMap
              Examples.twoDefs.instructions).map Instruction.toValue) →
        a1 k = none → meet (mayPoint Examples.twoDefs).top a1 k = some ∅)
    ∧ (∀ (a1 : valueType) (k : Value),
        ((a1 k).isSome = true
          ∨ ¬ (k ∈ Examples.twoDefs.args
            ∨ k ∈ (Examples.twoDefs.basicBlockList.flatMap
                Examples.twoDefs.instructions).map Instruction.toValue)) →
        meet (mayPoint Examples.twoDefs).top a1 k = a1 k) :=
  top_meet_eq_of_seeded Examples.twoDefs (fun _ => some {Examples.opX.toValue})
    (fun _ _ => rfl)

/-- C14 (counterexample): for the function with two definitions of `y` and the
empty map `a` (the value `Maypoint::runOnFunction` seeds the boundary map
with), `top ^ a` holds an empty entry for the first definition and `a` holds
none, so `top ^ a` differs from `a`. -/
theorem top_meet_ne_counterexample :
    meet (mayPoint Examples.twoDefs).top (fun _ => none) Examples.op1.toValue = some ∅
    ∧ meet (mayPoint Examples.twoDefs).top (fun _ => none) ≠ (fun _ => none) := by
  have h1 : meet (mayPoint Examples.twoDefs).top (fun _ => none) Examples.op1.toValue
      = some ∅ := by decide
  refine ⟨h1, ?_⟩
  intro h
  rw [h] at h1
  cases h1

end Maypoint

namespace Liveness

theorem foldl_insert_if {α : Type} [DecidableEq α] (p : α → Bool) (l : List α)
    (base : Finset α) :
    l.foldl (fun acc v => if p v then insert v acc else acc) base
      = base ∪ (l.filter p).toFinset := by
  induction l generalizing base with
  | nil => simp
  | cons x xs ih =>
    simp only [List.foldl_cons, ih]
    by_cases hx : p x = true
    · simp only [hx, if_true, List.filter_cons_of_pos, List.toFinset_cons]
      ext e
      simp only [Finset.mem_union, Finset.mem_insert]
      tauto
    · simp [hx]

theorem instructionEffect_eq_specEffect (i : Instruction) (s : valueType) :
    instructionEffect i s = specEffect i s := by
  unfold instructionEffect specEffect
  rw [foldl_insert_if, Finset.sdiff_singleton_eq_erase]
  congr 2
  apply List.filter_congr
  intro v _
  simp [isInstructionOrArgument]

theorem walk_eq_foldl (l : List Instruction) (s : valueType) :
    walk l s = (l.takeWhile (fun i => !i.isPHI)).foldl (fun s i => instructionEffect i s) s := by
  induction l generalizing s with
  | nil => rfl
  | cons x xs ih =>
    unfold walk
    by_cases hx : x.isPHI = true
    · simp [hx]
    · simp [hx, ih]

theorem foldl_specEffect_mem (l : List Instruction) (s : valueType) (v : Value)
    (hv : v ∈ l.foldl (fun s i => specEffect i s) s) :
    v ∈ s ∨ v.kind = ValueKind.instruction ∨ v.kind = ValueKind.argument := by
  induction l generalizing s with
  | nil => exact Or.inl hv
  | cons x xs ih =>
    rcases ih _ hv with h | h
    · unfold specEffect at h
      simp only [Finset.mem_union, Finset.mem_sdiff, List.mem_toFinset, List.mem_filter,
        decide_eq_true_eq] at h
      rcases h with h | h
      · exact Or.inl h.1
      · exact Or.inr h.2
    · exact Or.inr h

/-- C17: the liveness node transfer function is the fold, from the exit set,
of the per-operation effect over the operations of the node from last to
first, up to the first merge operation met; the effect of operation `i` maps
`s` to (`s` minus {i}) united with the operands of `i` that are operations or
function arguments, so a value the function adds is never of another kind. -/
theorem blockTransferFunction_eq_specNodeFunction (F : Func) (bb : BasicBlock)
    (out : valueType) :
    blockTransferFunction F bb out = specNodeFunction (F.instructions bb) out
    ∧ ∀ v, v ∈ blockTransferFunction F bb out →
        v ∈ out ∨ v.kind = ValueKind.instruction ∨ v.kind = ValueKind.argument := by
  have h : blockTransferFunction F bb out = specNodeFunction (F.instructions bb) out := by
    unfold blockTransferFunction specNodeFunction
    rw [walk_eq_foldl]
    congr 1
    funext s i
    exact instructionEffect_eq_specEffect i s
  refine ⟨h, ?_⟩
  intro v hv
  rw [h] at hv
  exact foldl_specEffect_mem _ out v hv

end Liveness

section RunResult

variable {T : Type} [Inhabited T] [DecidableEq T]

/-- The map `run_dataflow` returns reads as a fixed point on the block list
and holds an entry for both sides of every node of the block list. -/
theorem run_dataflow_result (meet : T → T → T) (F : Func) (df : dataFlow T)
    (fuel : Nat) (m0 m : BoundaryMap T) (h : run_dataflow meet F df fuel m0 = some m) :
    IsFixedPoint meet F df F.basicBlockList m.rd
    ∧ ∀ b ∈ F.basicBlockList, ∀ side : Bool, m (b, side) = some (m.rd (b, side)) := by
  obtain ⟨hv, hdom⟩ := run_dataflow_view meet F df fuel m0
  rw [h, Option.map_some'] at hv
  refine ⟨loopV_fixed meet F df fuel m0.rd m.rd hv.symm, ?_⟩
  intro b hb side
  apply eq_some_rd_of_isSome
  rw [hdom m h]
  have : ((b, side) : BasicBlock × Bool) ∈ sweepKeys F df F.basicBlockList := by
    simp only [sweepKeys, List.mem_flatMap]
    refine ⟨b, hb, ?_⟩
    cases side <;> simp
  simp [this]

end RunResult

namespace Liveness

theorem propagateEffect_eq_instructionEffect (inst : Instruction) (s : valueType) :
    propagateEffect inst s = instructionEffect inst s := by
  unfold propagateEffect instructionEffect isInstructionOrArgument
  congr 1
  funext acc used
  rw [Bool.or_comm]

theorem propagateWalk_of_not_mem (l : List Instruction) (m : InstructionMap)
    (current : valueType) (k : Instruction) (hk : k ∉ l) :
    propagateWalk l m current k = m k := by
  induction l generalizing m current with
  | nil => rfl
  | cons x xs ih =>
    simp only [List.mem_cons, not_or] at hk
    unfold propagateWalk
    split
    · rfl
    · rw [ih _ _ hk.2]
      simp [InstructionMap.assign, hk.1]

/-- The inner loop over the non-merge operations `xs`, then `i`, then a rest
that is empty or begins with a merge operation: the record of `i` is the value
the node transfer function computes on the same list. -/
theorem propagateWalk_last (xs t : List Instruction) (i : Instruction)
    (hxs : ∀ x ∈ xs, x.isPHI = false) (hi : i.isPHI = false)
    (ht : ∀ y, t.head? = some y → y.isPHI = true)
    (m : InstructionMap) (current : valueType) :
    propagateWalk (xs ++ i :: t) m current i = some (walk (xs ++ i :: t) current) := by
  have htail1 : ∀ (m1 : InstructionMap) (c : valueType), propagateWalk t m1 c = m1 := by
    intro m1 c
    cases t with
    | nil => rfl
    | cons y ys =>
      have hy : y.isPHI = true := ht y rfl
      unfold propagateWalk
      simp [hy]
  have htail2 : ∀ c : valueType, walk t c = c := by
    intro c
    cases t with
    | nil => rfl
    | cons y ys =>
      have hy : y.isPHI = true := ht y rfl
      unfold walk
      simp [hy]
  induction xs generalizing m current with
  | nil =>
    simp only [List.nil_append]
    unfold propagateWalk walk
    simp only [hi, Bool.false_eq_true, if_false]
    rw [htail1, htail2, propagateEffect_eq_instructionEffect]
    simp [InstructionMap.assign]
  | cons x xs ih =>
    have hx : x.isPHI = false := hxs x (List.mem_cons_self _ _)
    simp only [List.cons_append]
    unfold propagateWalk walk
    simp only [hx, Bool.false_eq_true, if_false]
    rw [ih (fun y hy => hxs y (List.mem_cons_of_mem _ hy)), propagateEffect_eq_instructionEffect]

theorem propagate_fold_of_not_mem (F : Func) (bs : List BasicBlock) (m : InstructionMap)
    (fp1 : BoundaryMap valueType) (k : Instruction) (hk : k ∉ bs.flatMap F.instructions) :
    (bs.foldl
      (fun (st : InstructionMap × BoundaryMap valueType) bb =>
        (propagateWalk (F.instructions bb).reverse st.1 (st.2.index (bb, false)).1,
          (st.2.index (bb, false)).2))
      (m, fp1)).1 k = m k := by
  induction bs generalizing m fp1 with
  | nil => rfl
  | cons b rest ih =>
    simp only [List.flatMap_cons, List.mem_append, not_or] at hk
    simp only [List.foldl_cons]
    rw [ih _ _ hk.2, propagateWalk_of_not_mem _ _ _ _ (by simpa using hk.1)]

theorem propagate_fold_first (F : Func) (fp : BoundaryMap valueType) (bs : List BasicBlock)
    (hnd : (bs.flatMap F.instructions).Nodup) (bb : BasicBlock) (hbb : bb ∈ bs)
    (phis rest : List Instruction) (i : Instruction)
    (hinsts : F.instructions bb = phis ++ i :: rest)
    (hphis : ∀ p ∈ phis, p.isPHI = true) (hi : i.isPHI = false)
    (hrest : ∀ x ∈ rest, x.isPHI = false)
    (m : InstructionMap) (fp1 : BoundaryMap valueType) (hfp : ∀ k, fp1.rd k = fp.rd k) :
    (bs.foldl
      (fun (st : InstructionMap × BoundaryMap valueType) bb =>
        (propagateWalk (F.instructions bb).reverse st.1 (st.2.index (bb, false)).1,
          (st.2.index (bb, false)).2))
      (m, fp1)).1 i = some (blockTransferFunction F bb (fp.rd (bb, false))) := by
  induction bs generalizing m fp1 with
  | nil => cases hbb
  | cons b bs ih =>
    rw [List.flatMap_cons, List.nodup_append] at hnd
    obtain ⟨-, hrestnd, hdisj⟩ := hnd
    have himem : i ∈ F.instructions bb := by rw [hinsts]; simp
    simp only [List.foldl_cons]
    by_cases hb : bb = b
    · subst hb
      have hnot : i ∉ bs.flatMap F.instructions := fun h => hdisj himem h
      rw [propagate_fold_of_not_mem F bs _ _ i hnot]
      have hrev : (F.instructions bb).reverse = rest.reverse ++ i :: phis.reverse := by
        rw [hinsts]; simp
      unfold blockTransferFunction
      rw [hrev, index_fst, hfp]
      apply propagateWalk_last
      · intro x hx
        exact hrest x (List.mem_reverse.mp hx)
      · exact hi
      · intro y hy
        exact hphis y (List.mem_reverse.mp (List.mem_of_mem_head? hy))
    · have hbbrest : bb ∈ bs := by
        rcases List.mem_cons.mp hbb with h | h
        · exact absurd h hb
        · exact h
      exact ih hrestnd hbbrest _ _ (fun k => by rw [rd_index_snd, hfp])

/-- C19: the instruction-level propagation of the liveness client reproduces
the engine's value at the far boundary of a node. In a function whose
operations are pairwise distinct, for a node of the block list whose merge
operations `phis` all come first, the set `propagate_to_instructions` records
for the first non-merge operation `i` is `blockTransferFunction(o)` for the exit
set `o` the map holds; and when the map is one that `run_dataflow` returned,
that record is the entry value the map holds for the node. -/
theorem propagate_to_instructions_first (F : Func) (bbFixedPoint : BoundaryMap valueType)
    (hnd : (F.basicBlockList.flatMap F.instructions).Nodup)
    (bb : BasicBlock) (hbb : bb ∈ F.basicBlockList)
    (phis rest : List Instruction) (i : Instruction)
    (hinsts : F.instructions bb = phis ++ i :: rest)
    (hphis : ∀ p ∈ phis, p.isPHI = true) (hi : i.isPHI = false)
    (hrest : ∀ x ∈ rest, x.isPHI = false) :
    (propagate_to_instructions F bbFixedPoint).1 i
        = some (blockTransferFunction F bb (bbFixedPoint.rd (bb, false)))
    ∧ ∀ fuel m0, run_dataflow meet F (LivenessDFA F) fuel m0 = some bbFixedPoint →
        (propagate_to_instructions F bbFixedPoint).1 i = bbFixedPoint (bb, true) := by
  have h1 : (propagate_to_instructions F bbFixedPoint).1 i
      = some (blockTransferFunction F bb (bbFixedPoint.rd (bb, false))) :=
    propagate_fold_first F bbFixedPoint F.basicBlockList hnd bb hbb phis rest i hinsts hphis hi
      hrest (fun _ => none) bbFixedPoint (fun _ => rfl)
  refine ⟨h1, ?_⟩
  intro fuel m0 hrun
  obtain ⟨hfix, hkeys⟩ := run_dataflow_result meet F (LivenessDFA F) fuel m0 bbFixedPoint hrun
  have hp := hfix bb hbb
  have hpass : passV meet F (LivenessDFA F).allTransferFunctions
      ((LivenessDFA F).allTransferFunctions bb) bbFixedPoint.rd
      = (blockTransferFunction F bb
          (exitOf meet F (LivenessDFA F).allTransferFunctions
            ((LivenessDFA F).allTransferFunctions bb) bbFixedPoint.rd),
        exitOf meet F (LivenessDFA F).allTransferFunctions
            ((LivenessDFA F).allTransferFunctions bb) bbFixedPoint.rd) := rfl
  rw [hpass] at hp
  have e2 := congrArg Prod.snd hp
  have e1 := congrArg Prod.fst hp
  simp only at e1 e2
  rw [h1, hkeys bb hbb true, ← e1, e2]

/-- Witness of C19: node B of the two-node program, whose first operation uses
`x`; on the map `run_dataflow` returns, the record of that operation is the
entry value of B. -/
theorem propagate_to_instructions_first_witness :
    ∃ m, runOnFunction Examples.liveAB 3 = some m
      ∧ (propagate_to_instructions Examples.liveAB m).1 Examples.opUse
        = some (blockTransferFunction Examples.liveAB 1 (m.rd (1, false)))
      ∧ (propagate_to_instructions Examples.liveAB m).1 Examples.opUse = m (1, true) := by
  have hs : (runOnFunction Examples.liveAB 3).isSome = true := by decide
  obtain ⟨m, hm⟩ := Option.isSome_iff_exists.mp hs
  have h := propagate_to_instructions_first Examples.liveAB m (by decide) 1 (by decide) []
    [Examples.opRet] Examples.opUse rfl (by decide) (by decide) (by decide)
  exact ⟨m, hm, h.1, h.2 3 (initialMap Examples.liveAB) hm⟩

/-- C18 (the code at the failing input): node M of the loop is its own
predecessor and begins with `%a = phi [%x, %E], [%b, %M]` and
`%b = phi [%y, %E], [%a, %M]`. For the edge from M and the empty live set the
registered edge function returns {b}: it inserts `a` for the second merge
operation and erases it again for the first. The set the claim describes is
{a, b}. -/
theorem edgeTransferFunction_phi_swap :
    (construct_transfer_function_objects Examples.phiSwap 1).has_phi_nodes = true
    ∧ 1 ∈ Examples.phiSwap.predecessors 1
    ∧ (construct_transfer_function_objects Examples.phiSwap 1).transferMap 1 ∅
        = {Examples.phiB.toValue}
    ∧ specEdgeFunction (Examples.phiSwap.instructions 1) 1 ∅
        = {Examples.phiA.toValue, Examples.phiB.toValue}
    ∧ Examples.phiA.toValue
        ∉ (construct_transfer_function_objects Examples.phiSwap 1).transferMap 1 ∅ := by
  decide

end Liveness

namespace Reaching

/-- C12 (the code at the failing input): in the node `store; %y1 = ..; ret`
the walk of `propagate_to_instructions` from the empty set ends with all three
operations, while `blockTransferFunction` of the empty set holds only the
definition `y1`; and the set recorded before `y1` holds the `store`, which has
type void and which `blockTransferFunction` never adds. -/
theorem propagate_walk_inserts_void :
    (propagateBlock (Examples.storeThenDef.instructions 0) (fun _ => none) ∅).2
        = {Examples.opStore, Examples.op1, Examples.opRet}
    ∧ blockTransferFunction Examples.storeThenDef 0 ∅ = {Examples.op1}
    ∧ (propagateBlock (Examples.storeThenDef.instructions 0) (fun _ => none) ∅).2
        ≠ blockTransferFunction Examples.storeThenDef 0 ∅
    ∧ propagate_to_instructions Examples.storeThenDef (initialMap Examples.storeThenDef)
        Examples.op1 = some {Examples.opStore}
    ∧ Examples.opStore.ty = Ty.void := by
  decide

end Reaching

/-! ## Monotonicity of the transfer functions -/

namespace Maypoint

theorem pointsto_meet_eq_right_iff_le (a b : valueType) : meet a b = b ↔ a.le b := by
  constructor
  · intro h k v hk
    have hm := congrFun h k
    unfold meet at hm
    rw [hk] at hm
    cases hb : b k with
    | none => rw [hb] at hm; cases hm
    | some w =>
      rw [hb] at hm
      refine ⟨w, rfl, ?_⟩
      have e : w ∪ v = w := Option.some.inj hm
      exact Finset.union_eq_left.mp e
  · intro h
    funext k
    unfold meet
    cases ha : a k with
    | none => rfl
    | some v =>
      obtain ⟨w, hw, hvw⟩ := h k v ha
      rw [hw]
      simp only [Option.some.injEq]
      exact Finset.union_eq_left.mpr hvw

theorem pointsto_le_refl (a : valueType) : a.le a := fun _ v hk => ⟨v, hk, Finset.Subset.refl v⟩

theorem pointsto_le_trans {a b c : valueType} (hab : a.le b) (hbc : b.le c) : a.le c := by
  intro k v hk
  obtain ⟨w, hw, hvw⟩ := hab k v hk
  obtain ⟨u, hu, hwu⟩ := hbc k w hw
  exact ⟨u, hu, Finset.Subset.trans hvw hwu⟩

theorem get_mono {a b : valueType} (hab : a.le b) (k : Value) : a.get k ⊆ b.get k := by
  unfold valueType.get
  cases ha : a k with
  | none => simp
  | some v =>
    obtain ⟨w, hw, hvw⟩ := hab k v ha
    rw [hw]
    exact hvw

theorem assign_mono {a b : valueType} (hab : a.le b) (k : Value) {s t : Finset Value}
    (hst : s ⊆ t) : (a.assign k s).le (b.assign k t) := by
  intro k1 v hk1
  unfold valueType.assign at hk1 ⊢
  by_cases h : k1 = k
  · simp only [h, if_true, Option.some.injEq] at hk1 ⊢
    subst hk1
    exact ⟨t, rfl, hst⟩
  · simp only [h, if_false] at hk1 ⊢
    exact hab k1 v hk1

theorem touch_mono {a b : valueType} (hab : a.le b) (k : Value) : (a.touch k).le (b.touch k) :=
  assign_mono hab k (get_mono hab k)

theorem insertRange_mono {a b : valueType} (hab : a.le b) (k : Value) {s t : Finset Value}
    (hst : s ⊆ t) : (a.insertRange k s).le (b.insertRange k t) :=
  assign_mono hab k (Finset.union_subset_union (get_mono hab k) hst)

theorem le_assign_of_get_subset (a : valueType) (k : Value) (s : Finset Value)
    (hs : a.get k ⊆ s) : a.le (a.assign k s) := by
  intro k1 v hk1
  unfold valueType.assign
  by_cases h : k1 = k
  · subst h
    simp only [if_true]
    refine ⟨s, rfl, ?_⟩
    have : a.get k1 = v := by simp [valueType.get, hk1]
    rw [← this]
    exact hs
  · simp only [h, if_false]
    exact ⟨v, hk1, Finset.Subset.refl v⟩

theorem le_touch (a : valueType) (k : Value) : a.le (a.touch k) :=
  le_assign_of_get_subset a k _ (Finset.Subset.refl _)

theorem le_insertRange (a : valueType) (k : Value) (s : Finset Value) :
    a.le (a.insertRange k s) :=
  le_assign_of_get_subset a k _ Finset.subset_union_left

theorem loadStep_mono (inst p : Value) {a b : valueType} (hab : a.le b) :
    (loadStep inst p a).le (loadStep inst p b) :=
  insertRange_mono (touch_mono hab p) inst (get_mono hab p)

theorem le_loadStep (inst p : Value) (a : valueType) : a.le (loadStep inst p a) :=
  pointsto_le_trans (le_touch a p) (le_insertRange _ inst _)

theorem storeStep_mono {s t : Finset Value} (hst : s ⊆ t) (p : Value) {a b : valueType}
    (hab : a.le b) : (storeStep s p a).le (storeStep t p b) :=
  insertRange_mono hab p hst

theorem le_storeStep (s : Finset Value) (p : Value) (a : valueType) :
    a.le (storeStep s p a) :=
  le_insertRange a p s

/-- A loop over a set is monotone in the map it starts from and in the set it
runs over, when its body is monotone and only adds. -/
theorem foldr_mono (f g : Value → valueType → valueType) [LeftCommutative f]
    [LeftCommutative g] (hfg : ∀ (p : Value) (a b : valueType), a.le b → (f p a).le (g p b))
    (hg : ∀ (p : Value) (b : valueType), b.le (g p b)) (S : Finset Value) :
    ∀ (S1 : Finset Value) (a b : valueType), S ⊆ S1 → a.le b →
      (Multiset.foldr f a S.val).le (Multiset.foldr g b S1.val) := by
  have hinfl : ∀ (S1 : Finset Value) (b : valueType), b.le (Multiset.foldr g b S1.val) := by
    intro S1 b
    induction S1 using Finset.induction_on with
    | empty => exact pointsto_le_refl b
    | insert hp ih =>
      rw [Finset.insert_val_of_not_mem hp, Multiset.foldr_cons]
      exact pointsto_le_trans ih (hg _ _)
  induction S using Finset.induction_on with
  | empty =>
    intro S1 a b _ hab
    exact pointsto_le_trans hab (hinfl S1 b)
  | @insert p S0 hp ih =>
    intro S1 a b hsub hab
    have hpS1 : p ∈ S1 := hsub (Finset.mem_insert_self p S0)
    have hS0 : S0 ⊆ S1.erase p := by
      intro x hx
      rw [Finset.mem_erase]
      exact ⟨fun e => hp (e ▸ hx), hsub (Finset.mem_insert_of_mem hx)⟩
    have e1 : S1.val = p ::ₘ (S1.erase p).val := by
      rw [← Finset.insert_val_of_not_mem (Finset.not_mem_erase p S1), Finset.insert_erase hpS1]
    rw [Finset.insert_val_of_not_mem hp, Multiset.foldr_cons, e1, Multiset.foldr_cons]
    exact hfg p _ _ (ih (S1.erase p) a b hS0 hab)

theorem foldl_loadStep_mono (inst : Value) (l : List Value) {a b : valueType} (hab : a.le b) :
    (l.foldl (fun r u => loadStep inst u r) a).le (l.foldl (fun r u => loadStep inst u r) b) := by
  induction l generalizing a b with
  | nil => exact hab
  | cons x xs ih => exact ih (loadStep_mono inst x hab)

/-- The per-operation effect of the points-to client is monotone. -/
theorem instructionTransferFunction_mono (inst : Instruction) {a b : valueType}
    (hab : a.le b) :
    (instructionTransferFunction inst a).le (instructionTransferFunction inst b) := by
  unfold instructionTransferFunction
  cases hop : inst.op with
  | alloca size =>
    exact assign_mono hab _ (Finset.insert_subset_insert _ (get_mono hab _))
  | bitcast used =>
    simp only
    split
    · exact insertRange_mono hab _ (get_mono (touch_mono hab _) _)
    · exact hab
  | getelementptr ptr indices =>
    exact insertRange_mono hab _ (Finset.Subset.refl _)
  | load ptr =>
    simp only
    split
    · exact hab
    · exact foldr_mono (loadStep inst.toValue) (loadStep inst.toValue)
        (fun p _ _ h => loadStep_mono inst.toValue p h) (le_loadStep inst.toValue)
        _ _ _ _ (get_mono hab ptr) (touch_mono hab ptr)
  | store val ptr =>
    simp only
    split
    · exact hab
    · exact foldr_mono (storeStep (a.get val)) (storeStep (b.get val))
        (fun p _ _ h => storeStep_mono (get_mono hab val) p h) (le_storeStep (b.get val))
        _ _ _ _ (get_mono (touch_mono hab val) ptr) (touch_mono (touch_mono hab val) ptr)
  | select cond tval fval =>
    simp only
    split
    · exact hab
    · exact insertRange_mono
        (insertRange_mono (touch_mono (touch_mono hab tval) fval) _ (get_mono hab tval)) _
        (get_mono (touch_mono hab tval) fval)
  | phi incoming =>
    simp only
    split
    · exact hab
    · exact foldl_loadStep_mono inst.toValue _ hab
  | other operands => exact hab

theorem pointsto_blockTransferFunction_mono (F : Func) (bb : BasicBlock) {a b : valueType}
    (hab : a.le b) : (blockTransferFunction F bb a).le (blockTransferFunction F bb b) := by
  unfold blockTransferFunction
  generalize F.instructions bb = l
  induction l generalizing a b with
  | nil => exact hab
  | cons x xs ih => exact ih (instructionTransferFunction_mono x hab)

end Maypoint

namespace Liveness

theorem liveness_meet_eq_right_iff_subset (a b : valueType) : meet a b = b ↔ a ⊆ b :=
  Finset.union_eq_left

theorem instructionEffect_mono (i : Instruction) {a b : valueType} (hab : a ⊆ b) :
    instructionEffect i a ⊆ instructionEffect i b := by
  rw [instructionEffect_eq_specEffect, instructionEffect_eq_specEffect]
  unfold specEffect
  exact Finset.union_subset_union (Finset.sdiff_subset_sdiff hab (Finset.Subset.refl _))
    (Finset.Subset.refl _)

theorem walk_mono (l : List Instruction) {a b : valueType} (hab : a ⊆ b) :
    walk l a ⊆ walk l b := by
  induction l generalizing a b with
  | nil => exact hab
  | cons x xs ih =>
    unfold walk
    split
    · exact hab
    · exact ih (instructionEffect_mono x hab)

theorem liveness_blockTransferFunction_mono (F : Func) (bb : BasicBlock) {a b : valueType}
    (hab : a ⊆ b) : blockTransferFunction F bb a ⊆ blockTransferFunction F bb b :=
  walk_mono _ hab

theorem phiEffect_mono (pred : BasicBlock) (phi : Instruction) {a b : valueType}
    (hab : a ⊆ b) : phiEffect pred phi a ⊆ phiEffect pred phi b := by
  unfold phiEffect
  have herase : a.erase phi.toValue ⊆ b.erase phi.toValue := Finset.erase_subset_erase _ hab
  split
  · split
    · exact Finset.insert_subset_insert _ herase
    · exact herase
  · exact herase

theorem edgeTransferFunction_mono (F : Func) (bb pred : BasicBlock) {a b : valueType}
    (hab : a ⊆ b) : edgeTransferFunction F bb pred a ⊆ edgeTransferFunction F bb pred b := by
  unfold edgeTransferFunction
  generalize ((F.instructions bb).takeWhile Instruction.isPHI).reverse = l
  induction l generalizing a b with
  | nil => exact hab
  | cons x xs ih => exact ih (phiEffect_mono pred x hab)

/-- The liveness client is a monotone framework for set inclusion. -/
theorem liveness_monotoneFramework (F : Func) :
    MonotoneFramework (fun a b : valueType => a ⊆ b) meet (LivenessDFA F) where
  refl := fun a => Finset.Subset.refl a
  trans := fun _ _ _ h1 h2 => Finset.Subset.trans h1 h2
  antisymm := fun _ _ h1 h2 => Finset.Subset.antisymm h1 h2
  meet_mono := fun _ _ _ _ h1 h2 => Finset.union_subset_union h2 h1
  block_mono := fun n _ _ hab => liveness_blockTransferFunction_mono F n hab
  edge_mono := by
    intro n p a b hab
    show (if beginsWithPHI F n then edgeTransferFunction F n p a else a)
      ⊆ (if beginsWithPHI F n then edgeTransferFunction F n p b else b)
    split
    · exact edgeTransferFunction_mono F n p hab
    · exact hab

end Liveness

namespace Reaching

theorem reaching_meet_eq_right_iff_subset (a b : valueType) : meet a b = b ↔ a ⊆ b :=
  Finset.union_eq_left

theorem reaching_blockTransferFunction_mono (F : Func) (bb : BasicBlock) {a b : valueType}
    (hab : a ⊆ b) : blockTransferFunction F bb a ⊆ blockTransferFunction F bb b := by
  unfold blockTransferFunction
  generalize F.instructions bb = l
  induction l generalizing a b with
  | nil => exact hab
  | cons x xs ih =>
    simp only [List.foldl_cons]
    apply ih
    split
    · exact Finset.insert_subset_insert _ hab
    · exact hab

/-- The reaching-definitions client is a monotone framework for set inclusion. -/
theorem reaching_monotoneFramework (F : Func) :
    MonotoneFramework (fun a b : valueType => a ⊆ b) meet (ReachingDFA F) where
  refl := fun a => Finset.Subset.refl a
  trans := fun _ _ _ h1 h2 => Finset.Subset.trans h1 h2
  antisymm := fun _ _ h1 h2 => Finset.Subset.antisymm h1 h2
  meet_mono := fun _ _ _ _ h1 h2 => Finset.union_subset_union h2 h1
  block_mono := fun n _ _ hab => reaching_blockTransferFunction_mono F n hab
  edge_mono := fun _ _ _ _ hab => hab

end Reaching

/-- C15: every registered transfer function is monotone in the order induced
by the meet (`a ⊑ b` iff `a ^ b = b`): the liveness node function and edge
functions, the reaching-definitions node function, the points-to node function
and `mayPoint::instructionTransferFunction` for every operation. -/
theorem transfer_functions_monotone (F : Func) (bb pred : BasicBlock) (inst : Instruction) :
    (∀ a b : Liveness.valueType, Liveness.meet a b = b →
      Liveness.meet (((Liveness.LivenessDFA F).allTransferFunctions bb).blockTransferFunction a)
          (((Liveness.LivenessDFA F).allTransferFunctions bb).blockTransferFunction b)
        = ((Liveness.LivenessDFA F).allTransferFunctions bb).blockTransferFunction b)
    ∧ (∀ a b : Liveness.valueType, Liveness.meet a b = b →
      Liveness.meet (((Liveness.LivenessDFA F).allTransferFunctions bb).transferMap pred a)
          (((Liveness.LivenessDFA F).allTransferFunctions bb).transferMap pred b)
        = ((Liveness.LivenessDFA F).allTransferFunctions bb).transferMap pred b)
    ∧ (∀ a b : Reaching.valueType, Reaching.meet a b = b →
      Reaching.meet (((Reaching.ReachingDFA F).allTransferFunctions bb).blockTransferFunction a)
          (((Reaching.ReachingDFA F).allTransferFunctions bb).blockTransferFunction b)
        = ((Reaching.ReachingDFA F).allTransferFunctions bb).blockTransferFunction b)
    ∧ (∀ a b : Maypoint.valueType, Maypoint.meet a b = b →
      Maypoint.meet (((Maypoint.mayPoint F).allTransferFunctions bb).blockTransferFunction a)
          (((Maypoint.mayPoint F).allTransferFunctions bb).blockTransferFunction b)
        = ((Maypoint.mayPoint F).allTransferFunctions bb).blockTransferFunction b)
    ∧ (∀ a b : Maypoint.valueType, Maypoint.meet a b = b →
      Maypoint.meet (Maypoint.instructionTransferFunction inst a)
          (Maypoint.instructionTransferFunction inst b)
        = Maypoint.instructionTransferFunction inst b) := by
  refine ⟨?_, ?_, ?_, ?_, ?_⟩
  · intro a b hab
    rw [Liveness.liveness_meet_eq_right_iff_subset] at hab ⊢
    exact (Liveness.liveness_monotoneFramework F).block_mono bb a b hab
  · intro a b hab
    rw [Liveness.liveness_meet_eq_right_iff_subset] at hab ⊢
    exact (Liveness.liveness_monotoneFramework F).edge_mono bb pred a b hab
  · intro a b hab
    rw [Reaching.reaching_meet_eq_right_iff_subset] at hab ⊢
    exact (Reaching.reaching_monotoneFramework F).block_mono bb a b hab
  · intro a b hab
    rw [Maypoint.pointsto_meet_eq_right_iff_le] at hab ⊢
    exact Maypoint.pointsto_blockTransferFunction_mono F bb hab
  · intro a b hab
    rw [Maypoint.pointsto_meet_eq_right_iff_le] at hab ⊢
    exact Maypoint.instructionTransferFunction_mono inst hab

/-! ## Termination within a finite universe -/

section BoundedTermination

variable {T : Type}

/-- A sweep from a pre-fixed point that is not a fixed point raises the
potential of the view, for a rank that is strictly increasing along `le`. -/
theorem potential_lt_of_strict (le : T → T → Prop) (meet : T → T → T) (F : Func)
    (df : dataFlow T) (hF : MonotoneFramework le meet df) (h : T → Nat)
    (hstrict : ∀ a b, le a b → a ≠ b → h a < h b)
    (l : List BasicBlock) (r : BasicBlock × Bool → T)
    (hpre : IsPreFixedPoint le meet F df l r) (hnot : ¬ IsFixedPoint meet F df l r) :
    potential h l r < potential h l (sweepV meet F df l r) := by
  obtain ⟨hasc, -⟩ := sweepV_ascending le meet F df hF l l (fun _ hb => hb) r hpre
  have hmono : ∀ k, h (r k) ≤ h (sweepV meet F df l r k) := by
    intro k
    by_cases e : r k = sweepV meet F df l r k
    · rw [← e]
    · exact Nat.le_of_lt (hstrict _ _ (hasc k) e)
  have hex : ∃ k, sweepV meet F df l r k ≠ r k := by
    by_contra hcon
    apply hnot
    apply isFixedPoint_of_sweepV_eq le meet F df hF l l (fun _ hb => hb) r hpre
    intro k
    by_contra hk
    exact hcon ⟨k, hk⟩
  obtain ⟨k, hk⟩ := hex
  have hkl : k.1 ∈ l := by
    by_contra hkl
    exact hk (sweepV_apply_other meet F df l r k hkl)
  unfold potential
  apply Finset.sum_lt_sum (fun i _ => hmono i)
  refine ⟨k, ?_, hstrict _ _ (hasc k) (fun e => hk e.symm)⟩
  unfold nodeKeys
  rw [Finset.mem_product]
  exact ⟨List.mem_toFinset.mpr hkl, Finset.mem_univ _⟩

theorem potential_le_of_bounded (h : T → Nat) (H : Nat) (l : List BasicBlock)
    (r : BasicBlock × Bool → T) (hb : ∀ k ∈ nodeKeys l, h (r k) ≤ H) :
    potential h l r ≤ 2 * l.length * H := by
  unfold potential
  calc ∑ k ∈ nodeKeys l, h (r k) ≤ ∑ _k ∈ nodeKeys l, H := Finset.sum_le_sum hb
    _ = (nodeKeys l).card * H := by rw [Finset.sum_const, smul_eq_mul]
    _ ≤ 2 * l.length * H := by
        apply Nat.mul_le_mul_right
        unfold nodeKeys
        rw [Finset.card_product, Finset.card_univ, Fintype.card_bool, Nat.mul_comm]
        exact Nat.mul_le_mul_left 2 (List.toFinset_card_le l)

theorem sweepV_invariant (meet : T → T → T) (F : Func) (df : dataFlow T)
    (Inv : (BasicBlock × Bool → T) → Prop) (l : List BasicBlock)
    (hstep : ∀ r b, b ∈ l → Inv r → Inv (stepV meet F df r b))
    (l1 : List BasicBlock) (hl : ∀ b ∈ l1, b ∈ l) (r : BasicBlock × Bool → T) (hr : Inv r) :
    Inv (sweepV meet F df l1 r) := by
  induction l1 generalizing r with
  | nil => exact hr
  | cons b t ih =>
    exact ih (fun c hc => hl c (List.mem_cons_of_mem _ hc)) _
      (hstep r b (hl b (List.mem_cons_self _ _)) hr)

/-- Termination when the values stay in a part of the lattice on which the
rank is bounded: `Inv` is preserved by storing the pass of a node and bounds
the rank of the values held for the nodes by `H`. -/
theorem loopV_terminates_of_invariant [DecidableEq T] (le : T → T → Prop)
    (meet : T → T → T) (F : Func) (df : dataFlow T) (hF : MonotoneFramework le meet df)
    (h : T → Nat) (H : Nat) (hstrict : ∀ a b, le a b → a ≠ b → h a < h b)
    (Inv : (BasicBlock × Bool → T) → Prop)
    (hstep : ∀ r b, b ∈ F.basicBlockList → Inv r → Inv (stepV meet F df r b))
    (hbound : ∀ r, Inv r → ∀ k ∈ nodeKeys F.basicBlockList, h (r k) ≤ H)
    (n : Nat) (r : BasicBlock × Bool → T)
    (hpre : IsPreFixedPoint le meet F df F.basicBlockList r) (hinv : Inv r)
    (hn : 2 * F.basicBlockList.length * H ≤ potential h F.basicBlockList r + n) :
    ∃ fuel r1, fuel ≤ n + 1 ∧ loopV meet F df fuel r = some r1 := by
  induction n generalizing r with
  | zero =>
    have hinv1 := sweepV_invariant meet F df Inv F.basicBlockList hstep F.basicBlockList
      (fun _ hb => hb) r hinv
    have hfix : IsFixedPoint meet F df F.basicBlockList r := by
      by_contra hnot
      have hlt := potential_lt_of_strict le meet F df hF h hstrict F.basicBlockList r hpre hnot
      have hle := potential_le_of_bounded h H F.basicBlockList
        (sweepV meet F df F.basicBlockList r) (hbound _ hinv1)
      omega
    refine ⟨1, sweepV meet F df F.basicBlockList r, Nat.le_refl _, ?_⟩
    unfold loopV
    rw [(modifiedV_eq_false_iff meet F df F.basicBlockList r).mpr hfix]
    simp
  | succ n ih =>
    by_cases hfix : IsFixedPoint meet F df F.basicBlockList r
    · refine ⟨1, sweepV meet F df F.basicBlockList r, by omega, ?_⟩
      unfold loopV
      rw [(modifiedV_eq_false_iff meet F df F.basicBlockList r).mpr hfix]
      simp
    · have hlt := potential_lt_of_strict le meet F df hF h hstrict F.basicBlockList r hpre hfix
      obtain ⟨-, hpre1⟩ := sweepV_ascending le meet F df hF F.basicBlockList F.basicBlockList
        (fun _ hb => hb) r hpre
      have hinv1 := sweepV_invariant meet F df Inv F.basicBlockList hstep F.basicBlockList
        (fun _ hb => hb) r hinv
      obtain ⟨fuel, r1, hfuel, hrun⟩ := ih (sweepV meet F df F.basicBlockList r) hpre1 hinv1
        (by omega)
      refine ⟨fuel + 1, r1, by omega, ?_⟩
      have hmod : modifiedV meet F df F.basicBlockList r r = true := by
        cases hm : modifiedV meet F df F.basicBlockList r r
        · exact absurd ((modifiedV_eq_false_iff meet F df F.basicBlockList r).mp hm) hfix
        · rfl
      unfold loopV
      rw [hmod]
      simpa using hrun

end BoundedTermination

namespace Reaching

theorem initialMap_rd (F : Func) (k : BasicBlock × Bool) : (initialMap F).rd k = ∅ := by
  have hgen : ∀ (l : List BasicBlock) (m : BoundaryMap valueType), (∀ k, m.rd k = ∅) →
      ∀ k, (l.foldl (fun previous bb => (previous.assign (bb, true) ∅).assign (bb, false) ∅)
        m).rd k = ∅ := by
    intro l
    induction l with
    | nil => intro m hm k; exact hm k
    | cons b t ih =>
      intro m hm k
      apply ih
      intro k1
      rw [rd_assign, rd_assign]
      split
      · rfl
      · split
        · rfl
        · exact hm k1
  apply hgen
  intro k1
  rw [rd_eq_getD]
  rfl

theorem mem_foldl_meet {α : Type} (g : α → valueType) (l : List α) (init : valueType)
    (e : Instruction) :
    e ∈ l.foldl (fun acc p => meet acc (g p)) init ↔ e ∈ init ∨ ∃ p ∈ l, e ∈ g p := by
  induction l generalizing init with
  | nil => simp
  | cons x xs ih =>
    rw [List.foldl_cons, ih]
    simp only [meet, Finset.mem_union, List.mem_cons, exists_eq_or_imp]
    tauto

theorem passV_eq (F : Func) (b : BasicBlock) (r : BasicBlock × Bool → valueType) :
    passV meet F (ReachingDFA F).allTransferFunctions ((ReachingDFA F).allTransferFunctions b) r
      = ((F.predecessors b).foldl (fun acc p => meet acc (r (p, false))) ∅,
          blockTransferFunction F b
            ((F.predecessors b).foldl (fun acc p => meet acc (r (p, false))) ∅)) := rfl

theorem blockTransferFunction_subset (F : Func) (bb : BasicBlock) (inp : valueType) :
    blockTransferFunction F bb inp ⊆ inp ∪ (F.instructions bb).toFinset := by
  unfold blockTransferFunction
  generalize F.instructions bb = l
  induction l generalizing inp with
  | nil => simp
  | cons x xs ih =>
    simp only [List.foldl_cons]
    refine Finset.Subset.trans (ih _) ?_
    intro e he
    simp only [Finset.mem_union, List.mem_toFinset, List.toFinset_cons, Finset.mem_insert,
      List.mem_cons] at he ⊢
    rcases he with he | he
    · split at he
      · rcases Finset.mem_insert.mp he with h | h
        · exact Or.inr (Or.inl h)
        · exact Or.inl h
      · exact Or.inl he
    · exact Or.inr (Or.inr he)

/-- Storing the pass of a node of the block list keeps every value within the
operations of the function. -/
theorem stepV_within (F : Func) (r : BasicBlock × Bool → valueType) (b : BasicBlock)
    (hb : b ∈ F.basicBlockList)
    (hr : ∀ k, r k ⊆ (F.basicBlockList.flatMap F.instructions).toFinset) :
    ∀ k, stepV meet F (ReachingDFA F) r b k
      ⊆ (F.basicBlockList.flatMap F.instructions).toFinset := by
  have hentry : (F.predecessors b).foldl (fun acc p => meet acc (r (p, false))) ∅
      ⊆ (F.basicBlockList.flatMap F.instructions).toFinset := by
    intro e he
    rcases (mem_foldl_meet _ _ _ e).mp he with h | ⟨p, -, hp⟩
    · cases h
    · exact hr _ hp
  have hexit : blockTransferFunction F b
      ((F.predecessors b).foldl (fun acc p => meet acc (r (p, false))) ∅)
      ⊆ (F.basicBlockList.flatMap F.instructions).toFinset := by
    refine Finset.Subset.trans (blockTransferFunction_subset F b _) ?_
    apply Finset.union_subset hentry
    intro e he
    rw [List.mem_toFinset] at he ⊢
    exact List.mem_flatMap.mpr ⟨b, hb, he⟩
  rintro ⟨n, side⟩
  by_cases hn : n = b
  · subst hn
    cases side
    · rw [stepV_apply_false, passV_eq]; exact hexit
    · rw [stepV_apply_true, passV_eq]; exact hentry
  · rw [stepV_apply_other meet F (ReachingDFA F) r b (n, side) hn]
    exact hr _

/-- The reaching-definitions analysis terminates on every function, from the
all-empty map that `Reaching::runOnFunction` builds. -/
theorem runOnFunction_terminates (F : Func) : ∃ fuel m, runOnFunction F fuel = some m := by
  have hpre : IsPreFixedPoint (fun a b : valueType => a ⊆ b) meet F (ReachingDFA F)
      F.basicBlockList (initialMap F).rd := by
    intro b _
    rw [initialMap_rd, initialMap_rd]
    exact ⟨Finset.empty_subset _, Finset.empty_subset _⟩
  obtain ⟨fuel, r1, -, hrun⟩ := loopV_terminates_of_invariant
    (fun a b : valueType => a ⊆ b) meet F (ReachingDFA F) (reaching_monotoneFramework F)
    Finset.card (F.basicBlockList.flatMap F.instructions).toFinset.card
    (fun a b hab hne => Finset.card_lt_card (Finset.ssubset_iff_subset_ne.mpr ⟨hab, hne⟩))
    (fun r => ∀ k, r k ⊆ (F.basicBlockList.flatMap F.instructions).toFinset)
    (fun r b hb hr => stepV_within F r b hb hr)
    (fun r hr k _ => Finset.card_le_card (hr k))
    (2 * F.basicBlockList.length * (F.basicBlockList.flatMap F.instructions).toFinset.card)
    (initialMap F).rd hpre
    (fun k => by rw [initialMap_rd]; exact Finset.empty_subset _)
    (Nat.le_add_left _ _)
  obtain ⟨hv, -⟩ := run_dataflow_view meet F (ReachingDFA F) fuel (initialMap F)
  rw [hrun] at hv
  obtain ⟨m, hm, -⟩ := Option.map_eq_some'.mp hv
  exact ⟨fuel, m, hm⟩

/-- C11: merge-node correctness of the reaching-definitions analysis. On a
graph in which the predecessors of node M are L and R (as in the diamond where
E branches to L and R and both fall through to M), `run_dataflow` started from
the all-empty map terminates, and in the map it returns entry(M) is the union
of exit(L) and exit(R); so entry(M) contains the definitions made in L and
the definitions made in R. -/
theorem merge_entry_is_union (F : Func) (L R M : BasicBlock)
    (hL : L ∈ F.basicBlockList) (hR : R ∈ F.basicBlockList) (hM : M ∈ F.basicBlockList)
    (hpred : ∀ p, p ∈ F.predecessors M ↔ p = L ∨ p = R) :
    ∃ fuel m, runOnFunction F fuel = some m
      ∧ m (M, true) = some (m.rd (L, false) ∪ m.rd (R, false))
      ∧ (∀ d ∈ F.instructions L, d.ty ≠ Ty.void → d ∈ m.rd (M, true))
      ∧ (∀ d ∈ F.instructions R, d.ty ≠ Ty.void → d ∈ m.rd (M, true)) := by
  obtain ⟨fuel, m, hm⟩ := runOnFunction_terminates F
  obtain ⟨hfix, hkeys⟩ := run_dataflow_result meet F (ReachingDFA F) fuel (initialMap F) m hm
  have hentry : ∀ b ∈ F.basicBlockList,
      m.rd (b, true) = (F.predecessors b).foldl (fun acc p => meet acc (m.rd (p, false))) ∅ := by
    intro b hb
    have := congrArg Prod.fst (hfix b hb)
    rw [passV_eq] at this
    exact this.symm
  have hexit : ∀ b ∈ F.basicBlockList,
      m.rd (b, false) = blockTransferFunction F b (m.rd (b, true)) := by
    intro b hb
    have := congrArg Prod.snd (hfix b hb)
    rw [passV_eq] at this
    rw [hentry b hb]
    exact this.symm
  have hunion : m.rd (M, true) = m.rd (L, false) ∪ m.rd (R, false) := by
    rw [hentry M hM]
    ext e
    rw [mem_foldl_meet, Finset.mem_union]
    constructor
    · rintro (h | ⟨p, hp, he⟩)
      · cases h
      · rcases (hpred p).mp hp with h | h
        · subst h; exact Or.inl he
        · subst h; exact Or.inr he
    · rintro (h | h)
      · exact Or.inr ⟨L, (hpred L).mpr (Or.inl rfl), h⟩
      · exact Or.inr ⟨R, (hpred R).mpr (Or.inr rfl), h⟩
  refine ⟨fuel, m, hm, ?_, ?_, ?_⟩
  · rw [hkeys M hM true, hunion]
  · intro d hd hty
    rw [hunion, hexit L hL]
    exact Finset.mem_union_left _
      ((subset_blockTransferFunction_aux (F.instructions L) _).2 d hd hty)
  · intro d hd hty
    rw [hunion, hexit R hR]
    exact Finset.mem_union_right _
      ((subset_blockTransferFunction_aux (F.instructions R) _).2 d hd hty)

/-- Witness of C11 on the diamond 0 -> 1, 2 -> 3: the run returns after two
sweeps with entry(M) = {definition of R, definition of L, definition of E}. -/
theorem merge_entry_is_union_witness :
    (∃ fuel m, runOnFunction Examples.diamond fuel = some m
      ∧ m (3, true) = some (m.rd (1, false) ∪ m.rd (2, false))
      ∧ (∀ d ∈ Examples.diamond.instructions 1, d.ty ≠ Ty.void → d ∈ m.rd (3, true))
      ∧ (∀ d ∈ Examples.diamond.instructions 2, d.ty ≠ Ty.void → d ∈ m.rd (3, true)))
    ∧ (runOnFunction Examples.diamond 2).map (fun m => m (3, true))
        = some (some {Examples.opR, Examples.opL, Examples.opE}) :=
  ⟨merge_entry_is_union Examples.diamond 1 2 3 (by decide) (by decide) (by decide)
    (by
      intro p
      show p ∈ [1, 2] ↔ p = 1 ∨ p = 2
      simp),
    by decide⟩

end Reaching

/-! ## Where the two defects lie -/

namespace Liveness

theorem phiEffect_eq (pred : BasicBlock) (phi : Instruction) (s : valueType) :
    phiEffect pred phi s = (s \ {phi.toValue}) ∪ phiSelected pred phi := by
  unfold phiEffect phiSelected
  rw [Finset.sdiff_singleton_eq_erase]
  split
  · split
    · rw [Finset.union_comm]; rfl
    · simp
  · simp

/-- A loop that erases `t x` and then unites `S x`, for each `x` of `l` in
turn, when no element erased later belongs to a set united earlier. -/
theorem foldl_erase_union {α : Type} [DecidableEq α] (t : α → Value)
    (S : α → Finset Value) (l : List α)
    (hl : l.Pairwise (fun x y => t y ∉ S x)) (live : Finset Value) :
    l.foldl (fun s x => (s \ {t x}) ∪ S x) live
      = (live \ (l.map t).toFinset) ∪ l.toFinset.biUnion S := by
  induction l generalizing live with
  | nil => simp
  | cons x xs ih =>
    obtain ⟨hx, hxs⟩ := List.pairwise_cons.mp hl
    rw [List.foldl_cons, ih hxs]
    ext e
    simp only [Finset.mem_union, Finset.mem_sdiff, Finset.mem_singleton, List.mem_toFinset,
      List.mem_map, Finset.mem_biUnion, List.map_cons, List.toFinset_cons, Finset.mem_insert,
      List.mem_cons, exists_eq_or_imp]
    constructor
    · rintro (⟨h1 | h1, h2⟩ | h)
      · left
        refine ⟨h1.1, ?_⟩
        rintro (h3 | h3)
        · exact h1.2 h3
        · exact h2 h3
      · right; left; exact h1
      · right; right; exact h
    · rintro (⟨h1, h2⟩ | h | h)
      · left
        refine ⟨Or.inl ⟨h1, fun h3 => h2 (Or.inl h3)⟩, fun h3 => h2 (Or.inr h3)⟩
      · left
        refine ⟨Or.inr h, ?_⟩
        rintro ⟨y, hy, hye⟩
        exact hx y hy (hye ▸ h)
      · right; exact h

/-- When no merge operation of the node selects, for the edge from `pred`, a
merge operation that comes before it in the node, the edge function returns
the live set minus the merge operations, united with the selected values. -/
theorem edgeTransferFunction_of_no_earlier (F : Func) (bb pred : BasicBlock)
    (live : valueType)
    (h : ((F.instructions bb).takeWhile Instruction.isPHI).Pairwise
      (fun earlier later => earlier.toValue ∉ phiSelected pred later)) :
    edgeTransferFunction F bb pred live
      = (live \ (((F.instructions bb).takeWhile Instruction.isPHI).map
            Instruction.toValue).toFinset)
        ∪ ((F.instructions bb).takeWhile Instruction.isPHI).toFinset.biUnion
            (phiSelected pred) := by
  unfold edgeTransferFunction
  have hfun : (fun s phi => phiEffect pred phi s)
      = (fun (s : valueType) (phi : Instruction) =>
          (s \ {phi.toValue}) ∪ phiSelected pred phi) := by
    funext s phi
    exact phiEffect_eq pred phi s
  rw [hfun, foldl_erase_union Instruction.toValue (phiSelected pred) _
    (List.pairwise_reverse.mpr h)]
  simp only [List.map_reverse, List.toFinset_reverse]

end Liveness

namespace Reaching

theorem propagateBlock_snd (insts : List Instruction) (m : InstructionMap)
    (current : valueType) :
    (propagateBlock insts m current).2 = current ∪ insts.toFinset := by
  unfold propagateBlock
  induction insts generalizing m current with
  | nil => simp
  | cons x xs ih =>
    rw [List.foldl_cons, ih]
    ext e
    simp only [Finset.mem_union, Finset.mem_insert, List.toFinset_cons]
    tauto

/-- On a node without void-typed operations the walk of
`propagate_to_instructions` ends with `blockTransferFunction` of the set it
started from. -/
theorem propagateBlock_snd_of_no_void (F : Func) (bb : BasicBlock) (m : InstructionMap)
    (current : valueType) (h : ∀ i ∈ F.instructions bb, i.ty ≠ Ty.void) :
    (propagateBlock (F.instructions bb) m current).2 = blockTransferFunction F bb current := by
  rw [propagateBlock_snd]
  apply Finset.Subset.antisymm
  · apply Finset.union_subset (subset_blockTransferFunction_aux _ _).1
    intro e he
    rw [List.mem_toFinset] at he
    exact (subset_blockTransferFunction_aux _ _).2 e he (h e he)
  · exact blockTransferFunction_subset F bb current

end Reaching

/-! ## The points-to per-operation effect -/

namespace Maypoint

theorem le_foldr (g : Value → valueType → valueType) [LeftCommutative g]
    (hg : ∀ (p : Value) (b : valueType), b.le (g p b)) (S : Finset Value) (b : valueType) :
    b.le (Multiset.foldr g b S.val) := by
  induction S using Finset.induction_on with
  | empty => exact pointsto_le_refl b
  | insert hp ih =>
    rw [Finset.insert_val_of_not_mem hp, Multiset.foldr_cons]
    exact pointsto_le_trans ih (hg _ _)

theorem le_foldl_loadStep (inst : Value) (l : List Value) (a : valueType) :
    a.le (l.foldl (fun r u => loadStep inst u r) a) := by
  induction l generalizing a with
  | nil => exact pointsto_le_refl a
  | cons x xs ih => exact pointsto_le_trans (le_loadStep inst x a) (ih _)

/-- The per-operation effect only adds: the state it returns lies above the
state it is given. -/
theorem le_instructionTransferFunction (inst : Instruction) (inp : valueType) :
    inp.le (instructionTransferFunction inst inp) := by
  unfold instructionTransferFunction
  cases hop : inst.op with
  | alloca size =>
    exact le_assign_of_get_subset inp _ _ (Finset.subset_insert _ _)
  | bitcast used =>
    simp only
    split
    · exact le_insertRange inp _ _
    · exact pointsto_le_refl inp
  | getelementptr ptr indices =>
    exact le_insertRange inp _ _
  | load ptr =>
    simp only
    split
    · exact pointsto_le_refl inp
    · exact pointsto_le_trans (le_touch inp ptr)
        (le_foldr (loadStep inst.toValue) (le_loadStep inst.toValue) _ _)
  | store val ptr =>
    simp only
    split
    · exact pointsto_le_refl inp
    · exact pointsto_le_trans (pointsto_le_trans (le_touch inp val) (le_touch _ ptr))
        (le_foldr (storeStep (inp.get val)) (le_storeStep (inp.get val)) _ _)
  | select cond tval fval =>
    simp only
    split
    · exact pointsto_le_refl inp
    · exact pointsto_le_trans
        (pointsto_le_trans (pointsto_le_trans (le_touch inp tval) (le_touch _ fval))
          (le_insertRange _ _ _))
        (le_insertRange _ _ _)
  | phi incoming =>
    simp only
    split
    · exact pointsto_le_refl inp
    · exact le_foldl_loadStep inst.toValue _ inp
  | other operands => exact pointsto_le_refl inp

/-- C22: the points-to per-operation effect never removes information. For
every operation and every input state, every entity `k` that has an entry in
the input still has an entry in `instructionTransferFunction(op, in)`, and the
set the input holds for `k` is a subset of the set the result holds for `k`. -/
theorem instructionTransferFunction_keeps (inst : Instruction) (inp : valueType) (k : Value)
    (v : Finset Value) (hk : inp k = some v) :
    ∃ w, instructionTransferFunction inst inp k = some w ∧ v ⊆ w :=
  le_instructionTransferFunction inst inp k v hk

/-- Witness of C22: the store of the pointer `c` through `S`, in the state
where `S` points to {S} and `c` points to {S}: the entry of `S` is kept and
its set still holds `S`. -/
theorem instructionTransferFunction_keeps_witness :
    ∃ w, instructionTransferFunction Examples.storePtr
        (fun _ => some {Examples.allocS.toValue}) Examples.allocS.toValue = some w
      ∧ {Examples.allocS.toValue} ⊆ w :=
  instructionTransferFunction_keeps Examples.storePtr (fun _ => some {Examples.allocS.toValue})
    Examples.allocS.toValue {Examples.allocS.toValue} rfl

/-- C23: the points-to per-operation effect returns its input state unchanged
for an operation that is none of allocation, cast, member-address, load,
store, select or merge, for a cast that is not pointer-to-pointer, for a load,
select or merge whose result is not a pointer, and for a store whose stored
value is not a pointer. -/
theorem instructionTransferFunction_frame (inst : Instruction) (inp : valueType) :
    (∀ operands, inst.op = InstKind.other operands →
        instructionTransferFunction inst inp = inp)
    ∧ (∀ used, inst.op = InstKind.bitcast used →
        ¬ (used.ty = Ty.pointer ∧ inst.ty = Ty.pointer) →
        instructionTransferFunction inst inp = inp)
    ∧ (∀ ptr, inst.op = InstKind.load ptr → inst.ty ≠ Ty.pointer →
        instructionTransferFunction inst inp = inp)
    ∧ (∀ cond tval fval, inst.op = InstKind.select cond tval fval → inst.ty ≠ Ty.pointer →
        instructionTransferFunction inst inp = inp)
    ∧ (∀ incoming, inst.op = InstKind.phi incoming → inst.ty ≠ Ty.pointer →
        instructionTransferFunction inst inp = inp)
    ∧ (∀ val ptr, inst.op = InstKind.store val ptr → val.ty ≠ Ty.pointer →
        instructionTransferFunction inst inp = inp) := by
  refine ⟨?_, ?_, ?_, ?_, ?_, ?_⟩
  · intro operands hop
    unfold instructionTransferFunction
    rw [hop]
  · intro used hop hty
    unfold instructionTransferFunction
    rw [hop]
    simp only [hty, if_false]
  · intro ptr hop hty
    unfold instructionTransferFunction
    rw [hop]
    simp only [hty, ne_eq, not_false_eq_true, if_true]
  · intro cond tval fval hop hty
    unfold instructionTransferFunction
    rw [hop]
    simp only [hty, ne_eq, not_false_eq_true, if_true]
  · intro incoming hop hty
    unfold instructionTransferFunction
    rw [hop]
    simp only [hty, ne_eq, not_false_eq_true, if_true]
  · intro val ptr hop hty
    unfold instructionTransferFunction
    rw [hop]
    simp only [hty, ne_eq, not_false_eq_true, if_true]

/-- Witness of C23: a load whose result is an integer, a store of an integer
and a terminator leave a state unchanged. -/
theorem instructionTransferFunction_frame_witness :
    instructionTransferFunction Examples.loadInt (fun _ => some {Examples.allocS.toValue})
        = (fun _ => some {Examples.allocS.toValue})
    ∧ instructionTransferFunction Examples.opStore (fun _ => some {Examples.allocS.toValue})
        = (fun _ => some {Examples.allocS.toValue})
    ∧ instructionTransferFunction Examples.opRet (fun _ => some {Examples.allocS.toValue})
        = (fun _ => some {Examples.allocS.toValue}) :=
  ⟨(instructionTransferFunction_frame Examples.loadInt _).2.2.1 _ rfl (by decide),
    (instructionTransferFunction_frame Examples.opStore _).2.2.2.2.2 _ _ rfl (by decide),
    (instructionTransferFunction_frame Examples.opRet _).1 _ rfl⟩

end Maypoint

/-! ## Termination of the liveness client -/

section SweepOnce

variable {T : Type} [Inhabited T] [DecidableEq T]

theorem sweepOnce_rd (meet : T → T → T) (F : Func) (df : dataFlow T) (m : BoundaryMap T) :
    (sweepOnce meet F df m).rd = sweepV meet F df F.basicBlockList m.rd :=
  funext (sweep_view meet F df F.basicBlockList ⟨m, m, false⟩).1

theorem iterate_sweepOnce_rd (meet : T → T → T) (F : Func) (df : dataFlow T)
    (m : BoundaryMap T) (n : Nat) :
    (Nat.iterate (sweepOnce meet F df) n m).rd
      = Nat.iterate (sweepV meet F df F.basicBlockList) n m.rd := by
  induction n generalizing m with
  | zero => rfl
  | succ n ih =>
    rw [Function.iterate_succ_apply, Function.iterate_succ_apply, ih, sweepOnce_rd]

/-- The map the loop returns is the initial map after some number of sweeps,
at most the fuel. -/
theorem whileLoop_eq_iterate (meet : T → T → T) (F : Func) (df : dataFlow T) (fuel : Nat)
    (m m1 : BoundaryMap T) (h : whileLoop meet F df fuel m m = some m1) :
    ∃ j, j ≤ fuel ∧ m1 = Nat.iterate (sweepOnce meet F df) j m := by
  induction fuel generalizing m with
  | zero => simp [whileLoop] at h
  | succ n ih =>
    unfold whileLoop at h
    simp only at h
    split at h
    · obtain ⟨j, hj, hm1⟩ := ih _ h
      refine ⟨j + 1, by omega, ?_⟩
      rw [Function.iterate_succ_apply]
      exact hm1
    · refine ⟨1, by omega, ?_⟩
      exact (Option.some.inj h).symm

end SweepOnce

section IterateLemmas

variable {T : Type}

/-- From a pre-fixed point, every sweep raises the view. -/
theorem iterate_sweepV_ascending (le : T → T → Prop) (meet : T → T → T) (F : Func)
    (df : dataFlow T) (hF : MonotoneFramework le meet df) (r : BasicBlock × Bool → T)
    (hpre : IsPreFixedPoint le meet F df F.basicBlockList r) (n : Nat) :
    IsPreFixedPoint le meet F df F.basicBlockList
        (Nat.iterate (sweepV meet F df F.basicBlockList) n r)
    ∧ ∀ k, le (Nat.iterate (sweepV meet F df F.basicBlockList) n r k)
        (Nat.iterate (sweepV meet F df F.basicBlockList) (n + 1) r k) := by
  induction n generalizing r with
  | zero =>
    obtain ⟨h1, -⟩ := sweepV_ascending le meet F df hF F.basicBlockList F.basicBlockList
      (fun _ hb => hb) r hpre
    exact ⟨hpre, h1⟩
  | succ n ih =>
    obtain ⟨-, h2⟩ := sweepV_ascending le meet F df hF F.basicBlockList F.basicBlockList
      (fun _ hb => hb) r hpre
    have := ih (sweepV meet F df F.basicBlockList r) h2
    simpa only [Function.iterate_succ_apply] using this

theorem iterate_sweepV_invariant (meet : T → T → T) (F : Func) (df : dataFlow T)
    (Inv : (BasicBlock × Bool → T) → Prop)
    (hstep : ∀ r b, b ∈ F.basicBlockList → Inv r → Inv (stepV meet F df r b))
    (r : BasicBlock × Bool → T) (hr : Inv r) (n : Nat) :
    Inv (Nat.iterate (sweepV meet F df F.basicBlockList) n r) := by
  induction n generalizing r with
  | zero => exact hr
  | succ n ih =>
    rw [Function.iterate_succ_apply]
    exact ih _ (sweepV_invariant meet F df Inv F.basicBlockList hstep F.basicBlockList
      (fun _ hb => hb) r hr)

end IterateLemmas

namespace Liveness

theorem liveness_initialMap_rd (F : Func) (k : BasicBlock × Bool) :
    (initialMap F).rd k = ∅ := by
  have hgen : ∀ (l : List BasicBlock) (m : BoundaryMap valueType), (∀ k, m.rd k = ∅) →
      ∀ k, (l.foldl (fun previous bb => (previous.assign (bb, true) ∅).assign (bb, false) ∅)
        m).rd k = ∅ := by
    intro l
    induction l with
    | nil => intro m hm k; exact hm k
    | cons b t ih =>
      intro m hm k
      apply ih
      intro k1
      rw [rd_assign, rd_assign]
      split
      · rfl
      · split
        · rfl
        · exact hm k1
  apply hgen
  intro k1
  rw [rd_eq_getD]
  rfl

theorem liveness_mem_foldl_meet {α : Type} (g : α → valueType) (l : List α)
    (init : valueType) (e : Value) :
    e ∈ l.foldl (fun acc p => meet acc (g p)) init ↔ e ∈ init ∨ ∃ p ∈ l, e ∈ g p := by
  induction l generalizing init with
  | nil => simp
  | cons x xs ih =>
    rw [List.foldl_cons, ih]
    simp only [meet, Finset.mem_union, List.mem_cons, exists_eq_or_imp]
    tauto

theorem liveness_passV_eq (F : Func) (b : BasicBlock) (r : BasicBlock × Bool → valueType) :
    passV meet F (LivenessDFA F).allTransferFunctions ((LivenessDFA F).allTransferFunctions b) r
      = (blockTransferFunction F b
          ((F.successors b).foldl
            (fun acc s => meet acc
              (if beginsWithPHI F s = true then
                (if beginsWithPHI F s = true then edgeTransferFunction F s b (r (s, true))
                  else r (s, true))
                else r (s, true))) ∅),
        (F.successors b).foldl
          (fun acc s => meet acc
            (if beginsWithPHI F s = true then
              (if beginsWithPHI F s = true then edgeTransferFunction F s b (r (s, true))
                else r (s, true))
              else r (s, true))) ∅) := rfl

theorem instructionEffect_subset (i : Instruction) (s X : valueType) (hs : s ⊆ X)
    (hi : ∀ v ∈ i.operands, isInstructionOrArgument v = true → v ∈ X) :
    instructionEffect i s ⊆ X := by
  unfold instructionEffect
  rw [foldl_insert_if]
  apply Finset.union_subset
  · exact Finset.Subset.trans (Finset.erase_subset _ _) hs
  · intro v hv
    rw [List.mem_toFinset, List.mem_filter] at hv
    exact hi v hv.1 hv.2

theorem walk_subset (l : List Instruction) (s X : valueType) (hs : s ⊆ X)
    (hl : ∀ i ∈ l, ∀ v ∈ i.operands, isInstructionOrArgument v = true → v ∈ X) :
    walk l s ⊆ X := by
  induction l generalizing s with
  | nil => exact hs
  | cons x xs ih =>
    unfold walk
    split
    · exact hs
    · exact ih _ (instructionEffect_subset x s X hs (hl x (List.mem_cons_self _ _)))
        (fun i hi => hl i (List.mem_cons_of_mem _ hi))

theorem incoming_fst_mem_operands (phi : Instruction) (vb : Value × BasicBlock)
    (h : vb ∈ phi.incoming) : vb.1 ∈ phi.operands := by
  unfold Instruction.incoming at h
  unfold Instruction.operands
  cases hop : phi.op <;> rw [hop] at h <;> simp only [List.not_mem_nil] at h
  exact List.mem_map_of_mem Prod.fst h

theorem phiSelected_subset (pred : BasicBlock) (phi : Instruction) (X : valueType)
    (hphi : ∀ v ∈ phi.operands, isInstructionOrArgument v = true → v ∈ X) :
    phiSelected pred phi ⊆ X := by
  unfold phiSelected
  split
  · next vb hfind =>
    split
    · next hk =>
      intro v hv
      rw [Finset.mem_singleton] at hv
      subst hv
      exact hphi _ (incoming_fst_mem_operands phi vb (List.mem_of_find?_eq_some hfind)) hk
    · exact Finset.empty_subset _
  · exact Finset.empty_subset _

theorem edgeTransferFunction_subset (F : Func) (bb pred : BasicBlock) (s X : valueType)
    (hs : s ⊆ X)
    (hbb : ∀ i ∈ F.instructions bb, ∀ v ∈ i.operands,
      isInstructionOrArgument v = true → v ∈ X) :
    edgeTransferFunction F bb pred s ⊆ X := by
  unfold edgeTransferFunction
  have hl : ∀ i ∈ ((F.instructions bb).takeWhile Instruction.isPHI).reverse,
      ∀ v ∈ i.operands, isInstructionOrArgument v = true → v ∈ X := by
    intro i hi
    exact hbb i (List.takeWhile_subset _ (List.mem_reverse.mp hi))
  generalize ((F.instructions bb).takeWhile Instruction.isPHI).reverse = l at hl
  induction l generalizing s with
  | nil => exact hs
  | cons x xs ih =>
    rw [List.foldl_cons]
    apply ih
    · rw [phiEffect_eq]
      apply Finset.union_subset
      · exact Finset.Subset.trans Finset.sdiff_subset hs
      · exact phiSelected_subset pred x X (hl x (List.mem_cons_self _ _))
    · exact fun i hi => hl i (List.mem_cons_of_mem _ hi)

/-- Storing the pass of a node of the block list keeps every value within a
set `X` that holds the operands, of kind operation or argument, of the
operations of the nodes of the block list and of their successors. -/
theorem liveness_stepV_within (F : Func) (X : valueType)
    (hX : ∀ b, (b ∈ F.basicBlockList ∨ ∃ c ∈ F.basicBlockList, b ∈ F.successors c) →
      ∀ i ∈ F.instructions b, ∀ v ∈ i.operands, isInstructionOrArgument v = true → v ∈ X)
    (r : BasicBlock × Bool → valueType) (b : BasicBlock) (hb : b ∈ F.basicBlockList)
    (hr : ∀ k, r k ⊆ X) :
    ∀ k, stepV meet F (LivenessDFA F) r b k ⊆ X := by
  have hexit : (F.successors b).foldl
      (fun acc s => meet acc
        (if beginsWithPHI F s = true then
          (if beginsWithPHI F s = true then edgeTransferFunction F s b (r (s, true))
            else r (s, true))
          else r (s, true))) ∅ ⊆ X := by
    intro e he
    rcases (liveness_mem_foldl_meet _ _ _ e).mp he with h | ⟨s, hs, hes⟩
    · cases h
    · by_cases hphi : beginsWithPHI F s = true
      · simp only [hphi, if_true] at hes
        exact edgeTransferFunction_subset F s b _ X (hr _)
          (hX s (Or.inr ⟨b, hb, hs⟩)) hes
      · simp only [hphi, if_false] at hes
        exact hr _ hes
  have hentry : blockTransferFunction F b
      ((F.successors b).foldl
        (fun acc s => meet acc
          (if beginsWithPHI F s = true then
            (if beginsWithPHI F s = true then edgeTransferFunction F s b (r (s, true))
              else r (s, true))
            else r (s, true))) ∅) ⊆ X := by
    unfold blockTransferFunction
    apply walk_subset _ _ X hexit
    intro i hi
    exact hX b (Or.inl hb) i (List.mem_reverse.mp hi)
  rintro ⟨n, side⟩
  by_cases hn : n = b
  · subst hn
    cases side
    · rw [stepV_apply_false, liveness_passV_eq]; exact hexit
    · rw [stepV_apply_true, liveness_passV_eq]; exact hentry
  · rw [stepV_apply_other meet F (LivenessDFA F) r b (n, side) hn]
    exact hr _

theorem operandValues_closed (F : Func) (b : BasicBlock)
    (hb : b ∈ F.basicBlockList ∨ ∃ c ∈ F.basicBlockList, b ∈ F.successors c)
    (i : Instruction) (hi : i ∈ F.instructions b) (v : Value) (hv : v ∈ i.operands)
    (hk : isInstructionOrArgument v = true) : v ∈ operandValues F := by
  unfold operandValues
  rw [List.mem_toFinset, List.mem_filter]
  refine ⟨?_, hk⟩
  rw [List.mem_flatMap]
  refine ⟨i, ?_, hv⟩
  rw [List.mem_flatMap]
  refine ⟨b, ?_, hi⟩
  rw [List.mem_append]
  rcases hb with h | ⟨c, hc, hbc⟩
  · exact Or.inl h
  · exact Or.inr (List.mem_flatMap.mpr ⟨c, hc, hbc⟩)

theorem liveness_initial_preFixed (F : Func) :
    IsPreFixedPoint (fun a b : valueType => a ⊆ b) meet F (LivenessDFA F)
      F.basicBlockList (initialMap F).rd := by
  intro b _
  rw [liveness_initialMap_rd, liveness_initialMap_rd]
  exact ⟨Finset.empty_subset _, Finset.empty_subset _⟩

/-- The liveness analysis terminates on every function, from the all-empty
map that `Liveness::runOnFunction` builds. -/
theorem liveness_runOnFunction_terminates (F : Func) :
    ∃ fuel m, runOnFunction F fuel = some m := by
  obtain ⟨fuel, r1, -, hrun⟩ := loopV_terminates_of_invariant
    (fun a b : valueType => a ⊆ b) meet F (LivenessDFA F) (liveness_monotoneFramework F)
    Finset.card (operandValues F).card
    (fun a b hab hne => Finset.card_lt_card (Finset.ssubset_iff_subset_ne.mpr ⟨hab, hne⟩))
    (fun r => ∀ k, r k ⊆ operandValues F)
    (fun r b hb hr => liveness_stepV_within F (operandValues F) (operandValues_closed F) r b hb hr)
    (fun r hr k _ => Finset.card_le_card (hr k))
    (2 * F.basicBlockList.length * (operandValues F).card)
    (initialMap F).rd (liveness_initial_preFixed F)
    (fun k => by rw [liveness_initialMap_rd]; exact Finset.empty_subset _)
    (Nat.le_add_left _ _)
  obtain ⟨hv, -⟩ := run_dataflow_view meet F (LivenessDFA F) fuel (initialMap F)
  rw [hrun] at hv
  obtain ⟨m, hm, -⟩ := Option.map_eq_some'.mp hv
  exact ⟨fuel, m, hm⟩

end Liveness

namespace Liveness

/-- C21: for the liveness client on every finite control-flow graph,
`run_dataflow` started from the map that `Liveness::runOnFunction` builds
(every entry and exit set empty) terminates, and the map it returns is the
initial map after finitely many sweeps; every sweep leaves each entry and exit
set a superset of its value before the sweep; and, when the successors of the
nodes are nodes of the function and the operands that are operations or
arguments are operations or arguments of the function, all sets stay within
the function's operations and arguments. -/
theorem liveness_run_terminates (F : Func) :
    (∃ fuel m j, runOnFunction F fuel = some m
        ∧ m = Nat.iterate (sweepOnce meet F (LivenessDFA F)) j (initialMap F))
    ∧ (∀ n k, (Nat.iterate (sweepOnce meet F (LivenessDFA F)) n (initialMap F)).rd k
        ⊆ (Nat.iterate (sweepOnce meet F (LivenessDFA F)) (n + 1) (initialMap F)).rd k)
    ∧ ((∀ b ∈ F.basicBlockList, ∀ s ∈ F.successors b, s ∈ F.basicBlockList) →
        (∀ b ∈ F.basicBlockList, ∀ i ∈ F.instructions b, ∀ v ∈ i.operands,
          isInstructionOrArgument v = true → v ∈ functionValues F) →
        ∀ n k, (Nat.iterate (sweepOnce meet F (LivenessDFA F)) n (initialMap F)).rd k
          ⊆ functionValues F) := by
  refine ⟨?_, ?_, ?_⟩
  · obtain ⟨fuel, m, hm⟩ := liveness_runOnFunction_terminates F
    obtain ⟨j, -, hj⟩ := whileLoop_eq_iterate meet F (LivenessDFA F) fuel (initialMap F) m hm
    exact ⟨fuel, m, j, hm, hj⟩
  · intro n k
    rw [iterate_sweepOnce_rd, iterate_sweepOnce_rd]
    exact (iterate_sweepV_ascending (fun a b : valueType => a ⊆ b) meet F (LivenessDFA F)
      (liveness_monotoneFramework F) (initialMap F).rd (liveness_initial_preFixed F) n).2 k
  · intro hsucc hops n k
    rw [iterate_sweepOnce_rd]
    have hX : ∀ b, (b ∈ F.basicBlockList ∨ ∃ c ∈ F.basicBlockList, b ∈ F.successors c) →
        ∀ i ∈ F.instructions b, ∀ v ∈ i.operands, isInstructionOrArgument v = true →
          v ∈ functionValues F := by
      intro b hb
      rcases hb with h | ⟨c, hc, hbc⟩
      · exact hops b h
      · exact hops b (hsucc c hc b hbc)
    exact iterate_sweepV_invariant meet F (LivenessDFA F)
      (fun r => ∀ k, r k ⊆ functionValues F)
      (fun r b hb hr => liveness_stepV_within F (functionValues F) hX r b hb hr)
      (initialMap F).rd
      (fun k => by rw [liveness_initialMap_rd]; exact Finset.empty_subset _) n k

/-- Witness of C21 on the loop whose node begins with two merge operations:
the run returns after three sweeps, and every set stays within the two
arguments and the four operations of the function. -/
theorem liveness_run_terminates_witness :
    (runOnFunction Examples.phiSwap 3).isSome = true
    ∧ (∃ fuel m j, runOnFunction Examples.phiSwap fuel = some m
        ∧ m = Nat.iterate (sweepOnce meet Examples.phiSwap (LivenessDFA Examples.phiSwap)) j
            (initialMap Examples.phiSwap))
    ∧ (∀ n k,
        (Nat.iterate (sweepOnce meet Examples.phiSwap (LivenessDFA Examples.phiSwap)) n
          (initialMap Examples.phiSwap)).rd k
        ⊆ (Nat.iterate (sweepOnce meet Examples.phiSwap (LivenessDFA Examples.phiSwap)) (n + 1)
          (initialMap Examples.phiSwap)).rd k)
    ∧ (∀ n k,
        (Nat.iterate (sweepOnce meet Examples.phiSwap (LivenessDFA Examples.phiSwap)) n
          (initialMap Examples.phiSwap)).rd k
        ⊆ functionValues Examples.phiSwap) :=
  ⟨by decide, (liveness_run_terminates Examples.phiSwap).1,
    (liveness_run_terminates Examples.phiSwap).2.1,
    (liveness_run_terminates Examples.phiSwap).2.2 (by decide) (by decide)⟩

end Liveness

end DataFlowAnalysis
